import Mathlib

/-!
# hex2text: the transcoder core of `src/main.c`

A shallow embedding of the conversion routines of `src/main.c`
(`hex_char_to_int`, `hex_to_binary`, `binary_to_hex`, `binary_to_text`,
`text_to_binary`, `convert_between_formats`), of the top counter of
`update_counter_labels` and of `encoding_type_to_string` (`src/common.c`),
and theorems about them.

Conventions of the embedding.

* A byte is a `Nat` below 256; a byte buffer is a `List Nat` (`IsBytes`).
* A C string is the list of its bytes before the terminating NUL, so none of
  them is 0 (`IsCStr`).  `cstr` reads a buffer the way `strlen` and every
  NUL-terminated consumer do: up to the first 0 byte.
* A pointer result that may be `NULL` is an `Option`; `none` is `NULL`.
  `g_malloc (0)` returns `NULL` (GLib: "If n_bytes is 0 it returns NULL"),
  which `g_malloc_buffer` records.
* An out-parameter (`*out_len`, `*output_len`) is a second component of the
  result.
* Loops are recursive functions.  A loop over the characters of a string is a
  structural recursion over the list; a loop over an index carries the index
  and a fuel that bounds the number of iterations.
* Functions of the C library and of GLib (`isspace`, `isxdigit`, `sprintf`,
  `g_utf8_validate`, `g_utf8_get_char_validated`, `g_string_append_unichar`,
  `g_convert`, `g_utf8_strlen`) are not part of the repository; they are
  modelled from their documentation, in the "C" locale.  `g_utf8_validate`
  and `g_utf8_get_char_validated` are strict (Unicode scalar values only);
  `g_convert` runs the `iconv` of the C library, whose UTF-8 reader takes the
  forms of 1 to 6 bytes up to `0x7FFFFFFF` (`iconv_utf8_step`).
* `binary_to_text` gives the whole content of its `GString`; the text that a
  caller reads from the returned `char *` is `cstr` of that content.
-/

namespace Hex2Text

/-! ## Data model -/

/-- The enumeration `EncodingType` of `src/common.h`. -/
inductive EncodingType
  | HEX
  | ASCII
  | UTF8
  | UTF16LE
  | UTF16BE
  | UTF32LE
  | UTF32BE
  | ISO8859_1
  | ISO8859_15
  | SHIFT_JIS
  | EUC_JP
  | KOI8_R
  deriving DecidableEq, Repr

open EncodingType

/-- A byte buffer: every element is a byte. -/
def IsBytes (b : List Nat) : Prop := ∀ x ∈ b, x < 256

/-- A C string: every element is a byte other than the terminator. -/
def IsCStr (s : List Nat) : Prop := ∀ c ∈ s, 0 < c ∧ c < 256

instance (b : List Nat) : Decidable (IsBytes b) := by
  unfold IsBytes; infer_instance

instance (s : List Nat) : Decidable (IsCStr s) := by
  unfold IsCStr; infer_instance

/-- The string a NUL-terminated reader sees in a buffer: the bytes before the
first 0. -/
def cstr (buf : List Nat) : List Nat := buf.takeWhile (fun c => c != 0)

/-- Result of `strlen`. -/
def strlen (buf : List Nat) : Nat := (cstr buf).length

/-- Pointer returned by `g_malloc (n)` once the `n` bytes `content` have been
written to it: `NULL` when `n = 0`. -/
def g_malloc_buffer (content : List Nat) : Option (List Nat) :=
  if content.length = 0 then none else some content

/-- Byte string of an ASCII literal. -/
def ascii (s : String) : List Nat := s.data.map Char.toNat

/-- The placeholder glyph "⍰" (U+2370) of the source, as its UTF-8 bytes. -/
def PLACEHOLDER : List Nat := [0xE2, 0x8D, 0xB0]

/-! ## C library character classes ("C" locale) -/

/-- Function `isspace`: space, `\t`, `\n`, `\v`, `\f`, `\r`. -/
def isspace (c : Nat) : Bool := c == 32 || (9 ≤ c && c ≤ 13)

/-- Function `isxdigit`: `0-9`, `a-f`, `A-F`. -/
def isxdigit (c : Nat) : Bool :=
  (48 ≤ c && c ≤ 57) || (97 ≤ c && c ≤ 102) || (65 ≤ c && c ≤ 70)

/-! ## Hex codec (`src/main.c`, lines 26-106) -/

/-- Function `hex_char_to_int`: the value of a hex digit, `-1` for any other
character. -/
def hex_char_to_int (c : Nat) : Int :=
  if 48 ≤ c ∧ c ≤ 57 then (c : Int) - 48
  else if 97 ≤ c ∧ c ≤ 102 then (c : Int) - 97 + 10
  else if 65 ≤ c ∧ c ≤ 70 then (c : Int) - 65 + 10
  else -1

/-- First loop of `hex_to_binary`: copy the hex digits to `clean_hex`,
skipping whitespace; `none` is the early `return NULL` at a character that is
neither. -/
def hex_clean_loop : List Nat → List Nat → Option (List Nat)
  | [], clean_hex => some clean_hex
  | c :: rest, clean_hex =>
    if isspace c then hex_clean_loop rest clean_hex
    else if isxdigit c then hex_clean_loop rest (clean_hex ++ [c])
    else none

/-- Second loop of `hex_to_binary`, `for (i = 0; i < bin_len; i++)`: the
first argument counts the iterations left, the second is `i`, the third is
`bin_data[0..i)`.  `none` is the `return NULL` inside the loop. -/
def hex_decode_loop (clean_hex : List Nat) : Nat → Nat → List Nat → Option (List Nat)
  | 0, _, bin_data => some bin_data
  | n + 1, i, bin_data =>
    let high := hex_char_to_int (clean_hex.getD (i * 2) 0)
    let low := hex_char_to_int (clean_hex.getD (i * 2 + 1) 0)
    if high = -1 ∨ low = -1 then none
    else
      hex_decode_loop clean_hex n (i + 1)
        (bin_data ++ [((high.toNat <<< 4) ||| low.toNat) % 256])

/-- Function `hex_to_binary`: the returned pointer and `*out_len`. -/
def hex_to_binary (hex_str : List Nat) : Option (List Nat) × Nat :=
  match hex_clean_loop hex_str [] with
  | none => (none, 0)
  | some clean_hex =>
    let hex_len := clean_hex.length
    if hex_len % 2 ≠ 0 then (none, 0)
    else
      let bin_len := hex_len / 2
      match hex_decode_loop clean_hex bin_len 0 [] with
      | none => (none, 0)
      | some bin_data => (g_malloc_buffer bin_data, bin_len)

/-- Uppercase hex digit of a nibble, as `%X` prints it. -/
def hex_upper (d : Nat) : Nat := if d < 10 then 48 + d else 55 + d

/-- Output of `sprintf (..., "%02X ", b)` for an `unsigned char` `b`: two
uppercase hex digits, most significant first, and a space. -/
def sprintf_02X_space (b : Nat) : List Nat :=
  [hex_upper (b / 16), hex_upper (b % 16), 32]

/-- Function `binary_to_hex`: the loop writes `"XX "` for byte `i` at offset
`3 * i`; the final store of `'\0'` at `len * 3 - 1` cuts the last space. -/
def binary_to_hex (data : List Nat) : List Nat :=
  let len := data.length
  if len = 0 then []
  else
    let hex_str := data.foldl (fun s b => s ++ sprintf_02X_space b) []
    hex_str.take (len * 3 - 1)

/-! ## GLib helpers, modelled from the GLib documentation -/

/-- States of the validator of well-formed UTF-8 (Unicode standard, table
3-7): at a code point boundary, inside a code point with `need` bytes to come
of which the next lies in `lo..hi`, or failed. -/
inductive Utf8State
  | start
  | cont (need lo hi : Nat)
  | bad
  deriving DecidableEq, Repr

/-- One byte of the validator: no overlong form, no surrogate, nothing above
U+10FFFF. -/
def utf8_step : Utf8State → Nat → Utf8State
  | Utf8State.bad, _ => Utf8State.bad
  | Utf8State.start, b =>
    if b < 0x80 then Utf8State.start
    else if 0xC2 ≤ b ∧ b ≤ 0xDF then Utf8State.cont 1 0x80 0xBF
    else if b = 0xE0 then Utf8State.cont 2 0xA0 0xBF
    else if (0xE1 ≤ b ∧ b ≤ 0xEC) ∨ b = 0xEE ∨ b = 0xEF then Utf8State.cont 2 0x80 0xBF
    else if b = 0xED then Utf8State.cont 2 0x80 0x9F
    else if b = 0xF0 then Utf8State.cont 3 0x90 0xBF
    else if 0xF1 ≤ b ∧ b ≤ 0xF3 then Utf8State.cont 3 0x80 0xBF
    else if b = 0xF4 then Utf8State.cont 3 0x80 0x8F
    else Utf8State.bad
  | Utf8State.cont need lo hi, b =>
    if lo ≤ b ∧ b ≤ hi then
      (if need ≤ 1 then Utf8State.start else Utf8State.cont (need - 1) 0x80 0xBF)
    else Utf8State.bad

/-- Well-formed UTF-8: the validator ends at a code point boundary. -/
def utf8_valid (s : List Nat) : Bool :=
  decide (s.foldl utf8_step Utf8State.start = Utf8State.start)

/-- Function `g_utf8_validate (str, max_len, NULL)` on the `max_len` bytes
`str` (for `max_len = -1`, the bytes before the terminator): strict UTF-8
validation, and no NUL byte among them. -/
def g_utf8_validate (str : List Nat) : Bool :=
  str.all (fun c => c != 0) && utf8_valid str

/-- Continuation bytes of one code point: `n` more bytes `10xxxxxx`, each
adding six bits to `wc`. -/
def utf8_cont_loop : Nat → List Nat → Nat → Option Nat
  | 0, _, wc => some wc
  | _ + 1, [], _ => none
  | n + 1, ch :: rest, wc =>
    if ch / 64 ≠ 2 then none else utf8_cont_loop n rest (wc * 64 + ch % 64)

/-- Function `g_utf8_get_char_validated (p, max_len)` where `p` lists the
`max_len` bytes from the pointer to the end.  `none` stands for both error
values `(gunichar)-1` and `(gunichar)-2`, which the caller treats alike. -/
def g_utf8_get_char_validated (p : List Nat) : Option Nat :=
  match p with
  | [] => none
  | b0 :: rest =>
    if b0 < 0x80 then (if b0 = 0 then none else some b0)
    else if b0 < 0xC0 then none
    else
      let hdr : Option (Nat × Nat × Nat) :=
        if b0 < 0xE0 then some (2, b0 % 32, 0x80)
        else if b0 < 0xF0 then some (3, b0 % 16, 0x800)
        else if b0 < 0xF8 then some (4, b0 % 8, 0x10000)
        else if b0 < 0xFC then some (5, b0 % 4, 0x200000)
        else if b0 < 0xFE then some (6, b0 % 2, 0x4000000)
        else none
      match hdr with
      | none => none
      | some (len, wc0, min_code) =>
        match utf8_cont_loop (len - 1) rest wc0 with
        | none => none
        | some wc =>
          if wc < min_code then none
          else if wc < 0x110000 ∧ ¬ (0xD800 ≤ wc ∧ wc ≤ 0xDFFF) then some wc
          else none

/-- Table `g_utf8_skip`, used by `g_utf8_next_char`: the width announced by a
lead byte. -/
def g_utf8_skip (b : Nat) : Nat :=
  if b < 0xC0 then 1
  else if b < 0xE0 then 2
  else if b < 0xF0 then 3
  else if b < 0xF8 then 4
  else if b < 0xFC then 5
  else if b < 0xFE then 6
  else 1

/-- Bytes that `g_string_append_unichar (result, wc)` appends: the UTF-8
form of `wc` (`g_unichar_to_utf8`). -/
def unichar_to_utf8 (wc : Nat) : List Nat :=
  if wc < 0x80 then [wc]
  else if wc < 0x800 then [0xC0 + wc / 64, 0x80 + wc % 64]
  else if wc < 0x10000 then [0xE0 + wc / 4096, 0x80 + wc / 64 % 64, 0x80 + wc % 64]
  else if wc < 0x200000 then
    [0xF0 + wc / 262144, 0x80 + wc / 4096 % 64, 0x80 + wc / 64 % 64, 0x80 + wc % 64]
  else if wc < 0x4000000 then
    [0xF8 + wc / 16777216, 0x80 + wc / 262144 % 64, 0x80 + wc / 4096 % 64,
      0x80 + wc / 64 % 64, 0x80 + wc % 64]
  else
    [0xFC + wc / 1073741824, 0x80 + wc / 16777216 % 64, 0x80 + wc / 262144 % 64,
      0x80 + wc / 4096 % 64, 0x80 + wc / 64 % 64, 0x80 + wc % 64]

/-- Code points of a UTF-8 text, read one `g_utf8_get_char_validated` at a
time; the first argument bounds the number of code points. -/
def utf8_code_points : Nat → List Nat → List Nat
  | 0, _ => []
  | _ + 1, [] => []
  | fuel + 1, b :: rest =>
    match g_utf8_get_char_validated (b :: rest) with
    | none => []
    | some ch => ch :: utf8_code_points fuel ((b :: rest).drop (g_utf8_skip b))

/-- UTF-16 code units of a code point. -/
def utf16_units (cp : Nat) : List Nat :=
  if cp < 0x10000 then [cp]
  else [0xD800 + (cp - 0x10000) / 1024, 0xDC00 + (cp - 0x10000) % 1024]

/-- The two bytes of a code unit, little-endian when `le`. -/
def unit_bytes (le : Bool) (u : Nat) : List Nat :=
  if le then [u % 256, u / 256] else [u / 256, u % 256]

/-- Function `g_convert (text, -1, "UTF-16LE" | "UTF-16BE", "UTF-8", ...)`:
`none` when the conversion sets `error` (the text is not UTF-8), else the
converted bytes.  A form beyond U+10FFFF, which the UTF-8 reader of `iconv`
takes, has no UTF-16 form and makes the conversion fail as well, so the texts
converted are the strictly valid ones. -/
def g_convert_utf8_to_utf16 (le : Bool) (text : List Nat) : Option (List Nat) :=
  if g_utf8_validate text then
    some (((utf8_code_points text.length text).map utf16_units).flatten.map
      (unit_bytes le)).flatten
  else none

/-- One byte of the UTF-8 reader of the C library's `iconv`, through which
`g_convert` passes: the forms of the original UTF-8 definition, 1 to 6 bytes
for code points up to `0x7FFFFFFF` (lead bytes `F4` to `FD` beyond U+10FFFF
included); it refuses a byte that opens no form (`80..C1`, `FE`, `FF`), an
overlong form, a surrogate and a form cut short. -/
def iconv_utf8_step : Utf8State → Nat → Utf8State
  | Utf8State.bad, _ => Utf8State.bad
  | Utf8State.start, b =>
    if b < 0x80 then Utf8State.start
    else if 0xC2 ≤ b ∧ b ≤ 0xDF then Utf8State.cont 1 0x80 0xBF
    else if b = 0xE0 then Utf8State.cont 2 0xA0 0xBF
    else if b = 0xED then Utf8State.cont 2 0x80 0x9F
    else if 0xE1 ≤ b ∧ b ≤ 0xEF then Utf8State.cont 2 0x80 0xBF
    else if b = 0xF0 then Utf8State.cont 3 0x90 0xBF
    else if 0xF1 ≤ b ∧ b ≤ 0xF7 then Utf8State.cont 3 0x80 0xBF
    else if b = 0xF8 then Utf8State.cont 4 0x88 0xBF
    else if 0xF9 ≤ b ∧ b ≤ 0xFB then Utf8State.cont 4 0x80 0xBF
    else if b = 0xFC then Utf8State.cont 5 0x84 0xBF
    else if b = 0xFD then Utf8State.cont 5 0x80 0xBF
    else Utf8State.bad
  | Utf8State.cont need lo hi, b =>
    if lo ≤ b ∧ b ≤ hi then
      (if need ≤ 1 then Utf8State.start else Utf8State.cont (need - 1) 0x80 0xBF)
    else Utf8State.bad

/-- The bytes that `iconv` reads as UTF-8 without error: the reader ends at
the boundary of a form. -/
def iconv_utf8_valid (s : List Nat) : Bool :=
  decide (s.foldl iconv_utf8_step Utf8State.start = Utf8State.start)

/-- Function `g_convert (str, len, "UTF-8", "UTF-8", NULL, NULL, NULL)` on the
`len` bytes `str`: the bytes go through `iconv` from UTF-8 to UTF-8.  `NULL`
(`none`) when `iconv` refuses them, else a copy of them: every form that the
reader accepts is written back as the same bytes.  NUL bytes pass through the
conversion, and so do the forms of 4 to 6 bytes beyond U+10FFFF. -/
def g_convert_utf8_to_utf8 (str : List Nat) : Option (List Nat) :=
  if iconv_utf8_valid str then some str else none

/-- Function `g_utf8_strlen (p, -1)`, the loop
`while (*p) { p = g_utf8_next_char (p); ++len; }` over the buffer `p`: it
stops at the first NUL byte.  The first argument bounds the number of
characters. -/
def g_utf8_strlen : Nat → List Nat → Nat
  | 0, _ => 0
  | _ + 1, [] => 0
  | fuel + 1, b :: rest =>
    if b = 0 then 0
    else g_utf8_strlen fuel ((b :: rest).drop (g_utf8_skip b)) + 1

/-! ## Text codec (`src/main.c`, lines 108-318) -/

/-- Code unit read by the UTF-16 cases of `binary_to_text`, a `guint16`:
`data[i] | (data[i+1] << 8)` when `le`, `(data[i] << 8) | data[i+1]`
otherwise. -/
def code_unit_at (le : Bool) (data : List Nat) (i : Nat) : Nat :=
  if le then (data.getD i 0 ||| (data.getD (i + 1) 0 <<< 8)) % 65536
  else ((data.getD i 0 <<< 8) ||| data.getD (i + 1) 0) % 65536

/-- The `while (p < end)` loop of case `UTF8` of `binary_to_text`: the second
argument lists the bytes from `p` to `end`, the third is `result`.  Every
iteration moves `p` forward, so a fuel of `len` is never used up. -/
def utf8_text_loop : Nat → List Nat → List Nat → List Nat
  | 0, _, result => result
  | _ + 1, [], result => result
  | fuel + 1, b :: rest, result =>
    if g_utf8_validate ((b :: rest).take 1) then
      match g_utf8_get_char_validated (b :: rest) with
      | none => utf8_text_loop fuel rest (result ++ PLACEHOLDER)
      | some ch =>
        utf8_text_loop fuel ((b :: rest).drop (g_utf8_skip b)) (result ++ unichar_to_utf8 ch)
    else utf8_text_loop fuel rest (result ++ PLACEHOLDER)

/-- The `for (i = 0; i < len; i += 2)` loop of the cases `UTF16LE` (`le`) and
`UTF16BE` of `binary_to_text`, which differ only in how a code unit is read.
The arguments after `data` are the fuel, `i` and `result`. -/
def utf16_text_loop (le : Bool) (data : List Nat) : Nat → Nat → List Nat → List Nat
  | 0, _, result => result
  | fuel + 1, i, result =>
    let len := data.length
    if ¬ (i < len) then result
    else if i + 1 ≥ len then result ++ PLACEHOLDER
    else
      let code_unit := code_unit_at le data i
      if 0xD800 ≤ code_unit ∧ code_unit ≤ 0xDBFF then
        if i + 3 ≥ len then result ++ PLACEHOLDER
        else
          let low_surrogate := code_unit_at le data (i + 2)
          if 0xDC00 ≤ low_surrogate ∧ low_surrogate ≤ 0xDFFF then
            let ch := 0x10000 + ((code_unit - 0xD800) <<< 10) + (low_surrogate - 0xDC00)
            utf16_text_loop le data fuel (i + 2 + 2) (result ++ unichar_to_utf8 ch)
          else utf16_text_loop le data fuel (i + 2) (result ++ PLACEHOLDER)
      else if 0xDC00 ≤ code_unit ∧ code_unit ≤ 0xDFFF then
        utf16_text_loop le data fuel (i + 2) (result ++ PLACEHOLDER)
      else utf16_text_loop le data fuel (i + 2) (result ++ unichar_to_utf8 code_unit)

/-- Function `binary_to_text`: the buffer behind the returned pointer (`len`
bytes for `ASCII`, the content of the `GString` otherwise), `none` for
`NULL`.  The `switch` has no case for the other encodings, which leaves
`text = NULL`.  In case `ASCII` the test `text[i] < 32 || text[i] > 126`
holds for every byte from 128 up whether `char` is signed or not. -/
def binary_to_text (data : List Nat) (encoding : EncodingType) : Option (List Nat) :=
  match encoding with
  | ASCII => some (data.map (fun c => if c < 32 ∨ c > 126 then 63 else c))
  | UTF8 => some (utf8_text_loop data.length data [])
  | UTF16LE => some (utf16_text_loop true data data.length 0 [])
  | UTF16BE => some (utf16_text_loop false data data.length 0 [])
  | _ => none

/-- Function `text_to_binary`: the returned pointer and the value of
`*out_len` after the call, given that it was 0 before (as it is in
`convert_between_formats`).  The `switch` has no case for the other
encodings, which leaves `bin_data = NULL` and `*out_len` untouched. -/
def text_to_binary (text : List Nat) (encoding : EncodingType) : Option (List Nat) × Nat :=
  let text_len := text.length
  match encoding with
  | ASCII => (g_malloc_buffer text, text_len)
  | UTF8 =>
    if g_utf8_validate text then (g_malloc_buffer text, text_len) else (none, 0)
  | UTF16LE =>
    match g_convert_utf8_to_utf16 true text with
    | none => (none, 0)
    | some converted => (some converted, converted.length)
  | UTF16BE =>
    match g_convert_utf8_to_utf16 false text with
    | none => (none, 0)
    | some converted => (some converted, converted.length)
  | _ => (none, 0)

/-! ## Transcode pipeline (`src/main.c`, lines 320-396) -/

/-- The diagnostic of a failed decode stage. -/
def CONVERSION_ERROR_INPUT : List Nat :=
  ascii "[Conversion error - invalid input format]"

/-- The diagnostic of a failed encode stage. -/
def CONVERSION_ERROR : List Nat := ascii "[Conversion error]"

/-- The inner loop `while (i < input_len && isspace(input[i])) i++;` of the
salvage walk: the index it stops at. -/
def salvage_skip (input : List Nat) : Nat → Nat → Nat
  | 0, i => i
  | fuel + 1, i =>
    if i < input.length ∧ isspace (input.getD i 0) then salvage_skip input fuel (i + 1)
    else i

/-- The loop `for (i = 0; i < input_len; i += 2)` that salvages invalid hex
in `convert_between_formats`; the arguments after `input` are the fuel, `i`
and the content of `valid_hex`. -/
def salvage_loop (input : List Nat) : Nat → Nat → List Nat → List Nat
  | 0, _, valid_hex => valid_hex
  | fuel + 1, i, valid_hex =>
    let input_len := input.length
    if ¬ (i < input_len) then valid_hex
    else
      let i := salvage_skip input input_len i
      if i ≥ input_len then valid_hex
      else if i + 1 ≥ input_len then valid_hex ++ PLACEHOLDER
      else if isxdigit (input.getD i 0) ∧ isxdigit (input.getD (i + 1) 0) then
        salvage_loop input fuel (i + 2) (valid_hex ++ [input.getD i 0, input.getD (i + 1) 0])
      else salvage_loop input fuel (i + 2) (valid_hex ++ (PLACEHOLDER ++ PLACEHOLDER))

/-- Step 2 of `convert_between_formats`: binary to `to_type`. -/
def convert_step2 (bin_data : List Nat) (to_type : EncodingType) : Option (List Nat) × Nat :=
  if to_type = HEX then
    (some (cstr (binary_to_hex bin_data)), strlen (binary_to_hex bin_data))
  else
    match binary_to_text bin_data to_type with
    | none => (some CONVERSION_ERROR, strlen CONVERSION_ERROR)
    | some text => (some (cstr text), strlen text)

/-- Function `convert_between_formats` on a non-`NULL` `input`: the string
stored to `*output` (`none` would be `NULL`) and `*output_len`. -/
def convert_between_formats (input : List Nat) (from_type to_type : EncodingType) :
    Option (List Nat) × Nat :=
  if input = [] then (some [], 0)
  else if from_type = HEX then
    match hex_to_binary input with
    | (none, _) =>
      let valid_hex := salvage_loop input input.length 0 []
      (some (cstr valid_hex), strlen valid_hex)
    | (some bin_data, _) => convert_step2 bin_data to_type
  else
    match text_to_binary input from_type with
    | (none, _) =>
      if input.length > 0 then (some CONVERSION_ERROR_INPUT, strlen CONVERSION_ERROR_INPUT)
      else (some [], 0)
    | (some bin_data, _) => convert_step2 bin_data to_type

/-! ## Metrics counter (`src/main.c`, lines 464-590) -/

/-- The loop `while (i < bin_len)` of `update_counter_labels` that counts the
characters of UTF-16 data (`le` for a peer `UTF16LE`); the arguments after
`bin_data` are the fuel, `i` and `chars`. -/
def count_utf16_loop (le : Bool) (bin_data : List Nat) : Nat → Nat → Nat → Nat
  | 0, _, chars => chars
  | fuel + 1, i, chars =>
    let bin_len := bin_data.length
    if ¬ (i < bin_len) then chars
    else if i + 1 ≥ bin_len then chars + 1
    else
      let code_unit := code_unit_at le bin_data i
      if 0xD800 ≤ code_unit ∧ code_unit ≤ 0xDBFF then
        if i + 3 < bin_len then
          let low_surrogate := code_unit_at le bin_data (i + 2)
          if 0xDC00 ≤ low_surrogate ∧ low_surrogate ≤ 0xDFFF then
            count_utf16_loop le bin_data fuel (i + 4) (chars + 1)
          else count_utf16_loop le bin_data fuel (i + 2) (chars + 1)
        else count_utf16_loop le bin_data fuel (i + 2) (chars + 1)
      else count_utf16_loop le bin_data fuel (i + 2) (chars + 1)

/-- The top counter of `update_counter_labels`: the pair `(chars, bytes)`
that it prints as `"Characters: %zu | Bytes: %zu"` for the text of the top
buffer, the encoding `top_encoding` declared for it and the encoding
`bottom_encoding` of the other side. -/
def update_counter_labels (text : List Nat) (top_encoding bottom_encoding : EncodingType) :
    Nat × Nat :=
  if top_encoding = HEX then
    match hex_to_binary text with
    | (some bin_data, bin_len) =>
      let bytes := bin_len
      let chars :=
        if bottom_encoding = UTF16LE ∨ bottom_encoding = UTF16BE then
          count_utf16_loop (decide (bottom_encoding = UTF16LE)) bin_data bin_data.length 0 0
        else if bottom_encoding = UTF8 then
          match g_convert_utf8_to_utf8 bin_data with
          | some utf8_text => g_utf8_strlen utf8_text.length utf8_text
          | none => bin_len
        else bin_len
      (chars, bytes)
    | (none, _) => (g_utf8_strlen text.length text, strlen text)
  else (g_utf8_strlen text.length text, strlen text)

/-! ## Format names (`src/common.c`) -/

/-- The table `encoding_names` of `encoding_type_to_string`. -/
def encoding_names : List (List Nat) :=
  [ascii "Hex", ascii "ASCII", ascii "UTF-8", ascii "UTF-16LE", ascii "UTF-16BE",
    ascii "UTF-32LE", ascii "UTF-32BE", ascii "ISO-8859-1", ascii "ISO-8859-15",
    ascii "Shift-JIS", ascii "EUC-JP", ascii "KOI8-R"]

/-- Function `encoding_type_to_string` on the integer value of its argument
(the callers cast a list position to `EncodingType`): the entry of the table
when `type >= 0 && type < sizeof(encoding_names)/sizeof(encoding_names[0])`,
else `"Unknown"`. -/
def encoding_type_to_string (type : Int) : List Nat :=
  if 0 ≤ type ∧ type < (encoding_names.length : Int) then encoding_names.getD type.toNat []
  else ascii "Unknown"

/-- The integer value of an enumerator of `EncodingType`. -/
def EncodingType.toInt : EncodingType → Int
  | HEX => 0
  | ASCII => 1
  | UTF8 => 2
  | UTF16LE => 3
  | UTF16BE => 4
  | UTF32LE => 5
  | UTF32BE => 6
  | ISO8859_1 => 7
  | ISO8859_15 => 8
  | SHIFT_JIS => 9
  | EUC_JP => 10
  | KOI8_R => 11


/-! ## Notions of the specification -/

/-- Value of a hex digit, whatever its case (0 for any other character). -/
def hex_value (c : Nat) : Nat :=
  if 48 ≤ c ∧ c ≤ 57 then c - 48
  else if 97 ≤ c ∧ c ≤ 102 then c - 87
  else if 65 ≤ c ∧ c ≤ 70 then c - 55
  else 0

/-- An uppercase hex digit: `0-9` or `A-F`. -/
def is_upper_hex (c : Nat) : Bool := (48 ≤ c && c ≤ 57) || (65 ≤ c && c ≤ 70)

/-- The digit sequence left of a hex text after whitespace removal. -/
def hex_digits (s : List Nat) : List Nat := s.filter (fun c => !isspace c)

/-- The byte that the digit pair `i` of a digit sequence stands for, most
significant nibble first. -/
def pair_byte (d : List Nat) (i : Nat) : Nat :=
  16 * hex_value (d.getD (2 * i) 0) + hex_value (d.getD (2 * i + 1) 0)

/-- The recovery walk over an invalid hex text, as the specification words
it: skip whitespace; stop at the end of the input; one placeholder for a last
single character; a pair of hex digits verbatim, two placeholders for any
other pair; then go on after the pair. -/
def recovery_walk : List Nat → List Nat
  | [] => []
  | c :: rest =>
    if isspace c then recovery_walk rest
    else
      match rest with
      | [] => PLACEHOLDER
      | d :: rest2 =>
        (if isxdigit c ∧ isxdigit d then [c, d] else PLACEHOLDER ++ PLACEHOLDER)
          ++ recovery_walk rest2

/-- The target encodings for which `binary_to_text` has no case. -/
def unimplemented_targets : List EncodingType :=
  [UTF32LE, UTF32BE, ISO8859_1, ISO8859_15, SHIFT_JIS, EUC_JP, KOI8_R]

/-- The two hex digits of a byte as `%02X` prints them. -/
def byte_digits (b : Nat) : List Nat := [hex_upper (b / 16), hex_upper (b % 16)]

/-- The text `"XX XX ... XX"` of a buffer: the digits of each byte, a single
space between two bytes. -/
def hex_form : List Nat → List Nat
  | [] => []
  | [x] => byte_digits x
  | x :: y :: rest => byte_digits x ++ 32 :: hex_form (y :: rest)

/-- A Unicode scalar value: at most U+10FFFF and not a surrogate. -/
def IsScalar (ch : Nat) : Prop := ch < 0x110000 ∧ ¬ (0xD800 ≤ ch ∧ ch ≤ 0xDFFF)

/-- Number of code points of a UTF-8 text: its bytes other than continuation
bytes `10xxxxxx`. -/
def code_point_count (text : List Nat) : Nat :=
  (text.filter (fun b => decide (b / 64 ≠ 2))).length

/-- The UTF-16 encoding selected by a byte order. -/
def utf16_encoding (le : Bool) : EncodingType := if le then UTF16LE else UTF16BE

/-- Code unit made of two bytes in the byte order `le`, as `code_unit_at`
reads it. -/
def unit16 (le : Bool) (b0 b1 : Nat) : Nat :=
  if le then (b0 ||| (b1 <<< 8)) % 65536 else ((b0 <<< 8) ||| b1) % 65536

/-- The complete 16-bit code units of a buffer, in order. -/
def code_units (le : Bool) : List Nat → List Nat
  | b0 :: b1 :: rest => unit16 le b0 b1 :: code_units le rest
  | _ => []

/-- The UTF-16 decoding walk of `binary_to_text` as a recursion on the bytes
left from the index on: what `utf16_text_loop` appends to `result`. -/
def utf16_decode (le : Bool) : List Nat → List Nat
  | [] => []
  | [_] => PLACEHOLDER
  | b0 :: b1 :: rest =>
    if 0xD800 ≤ unit16 le b0 b1 ∧ unit16 le b0 b1 ≤ 0xDBFF then
      match rest with
      | b2 :: b3 :: rest2 =>
        if 0xDC00 ≤ unit16 le b2 b3 ∧ unit16 le b2 b3 ≤ 0xDFFF then
          unichar_to_utf8
              (0x10000 + ((unit16 le b0 b1 - 0xD800) <<< 10) + (unit16 le b2 b3 - 0xDC00))
            ++ utf16_decode le rest2
        else PLACEHOLDER ++ utf16_decode le (b2 :: b3 :: rest2)
      | [_] => PLACEHOLDER
      | [] => PLACEHOLDER
    else if 0xDC00 ≤ unit16 le b0 b1 ∧ unit16 le b0 b1 ≤ 0xDFFF then
      PLACEHOLDER ++ utf16_decode le rest
    else unichar_to_utf8 (unit16 le b0 b1) ++ utf16_decode le rest

/-- The counting walk of `update_counter_labels` as a recursion on the bytes
left from the index on: what `count_utf16_loop` adds to `chars`. -/
def utf16_count (le : Bool) : List Nat → Nat
  | [] => 0
  | [_] => 1
  | b0 :: b1 :: rest =>
    if 0xD800 ≤ unit16 le b0 b1 ∧ unit16 le b0 b1 ≤ 0xDBFF then
      match rest with
      | b2 :: b3 :: rest2 =>
        if 0xDC00 ≤ unit16 le b2 b3 ∧ unit16 le b2 b3 ≤ 0xDFFF then
          utf16_count le rest2 + 1
        else utf16_count le (b2 :: b3 :: rest2) + 1
      | [_] => 1 + 1
      | [] => 0 + 1
    else utf16_count le rest + 1

/-- A buffer of odd length whose last complete code unit is a high surrogate:
the pair that this unit opens is cut after one byte. -/
def cut_pair_tail (le : Bool) (b : List Nat) : Bool :=
  decide (b.length % 2 = 1 ∧ 3 ≤ b.length ∧
    0xD800 ≤ code_unit_at le b (b.length - 3) ∧ code_unit_at le b (b.length - 3) ≤ 0xDBFF)

/-- The display names of the twelve enumerators, in the order of the
enumeration. -/
def display_names : List (EncodingType × List Nat) :=
  [(HEX, ascii "Hex"), (ASCII, ascii "ASCII"), (UTF8, ascii "UTF-8"),
    (UTF16LE, ascii "UTF-16LE"), (UTF16BE, ascii "UTF-16BE"), (UTF32LE, ascii "UTF-32LE"),
    (UTF32BE, ascii "UTF-32BE"), (ISO8859_1, ascii "ISO-8859-1"),
    (ISO8859_15, ascii "ISO-8859-15"), (SHIFT_JIS, ascii "Shift-JIS"),
    (EUC_JP, ascii "EUC-JP"), (KOI8_R, ascii "KOI8-R")]

/-- Exchange of the two bytes of each complete 2-byte unit of a buffer; a
trailing odd byte stays in place. -/
def swap_units : List Nat → List Nat
  | b0 :: b1 :: rest => b1 :: b0 :: swap_units rest
  | l => l



/-- Rendering of a text whose characters are marked as kept (`true`) or
replaced (`false`): a kept character stands for itself, a replaced one gives
one placeholder. -/
def render_marks (marks : List (Nat × Bool)) : List Nat :=
  (marks.map (fun g => if g.2 then [g.1] else PLACEHOLDER)).flatten

/-- The marks go two by two, both kept or both replaced, but for a single
replaced one at the end: no character is kept without its pair partner. -/
def paired_marks : List Bool → Bool
  | [] => true
  | [m] => !m
  | m1 :: m2 :: rest => (m1 == m2) && paired_marks rest

/-- Number of placeholders in a text made of ASCII characters and
placeholders: the number of its bytes `E2`, the lead byte of the glyph. -/
def placeholder_count (out : List Nat) : Nat := out.count 0xE2

/-- The characters that the recovery walk reads two by two, each with its
mark: kept for the two hex digits of a pair, replaced otherwise.  Whitespace
at the start of a pair is passed over and has no mark. -/
def walk_marks : List Nat → List (Nat × Bool)
  | [] => []
  | c :: rest =>
    if isspace c then walk_marks rest
    else
      match rest with
      | [] => [(c, false)]
      | d :: rest2 =>
        (if isxdigit c ∧ isxdigit d then [(c, true), (d, true)] else [(c, false), (d, false)])
          ++ walk_marks rest2

/-! ## Lemmas on the hex codec -/

theorem foldl_append_eq {α β : Type} (f : α → List β) (l : List α) (acc : List β) :
    l.foldl (fun s b => s ++ f b) acc = acc ++ (l.map f).flatten := by
  induction l generalizing acc with
  | nil => simp
  | cons x xs ih => simp [ih, List.append_assoc]

theorem hex_clean_loop_eq (s acc : List Nat) :
    hex_clean_loop s acc =
      if s.all (fun c => isspace c || isxdigit c) then some (acc ++ hex_digits s)
      else none := by
  induction s generalizing acc with
  | nil => simp [hex_clean_loop, hex_digits]
  | cons c rest ih =>
    unfold hex_clean_loop
    by_cases hs : isspace c = true
    · simp [hs, ih, hex_digits]
    · by_cases hx : isxdigit c = true
      · simp [hs, hx, ih, hex_digits]
      · simp [hs, hx]

theorem isxdigit_iff (c : Nat) :
    isxdigit c = true ↔ (48 ≤ c ∧ c ≤ 57) ∨ (97 ≤ c ∧ c ≤ 102) ∨ (65 ≤ c ∧ c ≤ 70) := by
  simp [isxdigit, or_assoc]

theorem isspace_iff (c : Nat) : isspace c = true ↔ c = 32 ∨ (9 ≤ c ∧ c ≤ 13) := by
  simp [isspace]

theorem isxdigit_not_isspace {c : Nat} (h : isxdigit c = true) : isspace c = false := by
  rw [isxdigit_iff] at h
  cases hs : isspace c with
  | false => rfl
  | true => rw [isspace_iff] at hs; omega

theorem hex_char_to_int_of_isxdigit {c : Nat} (h : isxdigit c = true) :
    hex_char_to_int c = (hex_value c : Int) ∧ hex_value c < 16 := by
  rw [isxdigit_iff] at h
  unfold hex_char_to_int hex_value
  split_ifs <;> constructor <;> omega

theorem nibbles_or : ∀ h < 16, ∀ l < 16, ((h <<< 4) ||| l) % 256 = 16 * h + l := by
  decide

theorem hex_decode_loop_eq (clean_hex : List Nat) (n i : Nat) (acc : List Nat)
    (h : ∀ j < 2 * (i + n), isxdigit (clean_hex.getD j 0) = true) :
    hex_decode_loop clean_hex n i acc
      = some (acc ++ (List.range' i n).map (pair_byte clean_hex)) := by
  induction n generalizing i acc with
  | zero => simp [hex_decode_loop]
  | succ n ih =>
    have h0 := hex_char_to_int_of_isxdigit (h (i * 2) (by omega))
    have h1 := hex_char_to_int_of_isxdigit (h (i * 2 + 1) (by omega))
    have hne0 : hex_char_to_int (clean_hex.getD (i * 2) 0) ≠ -1 := by rw [h0.1]; omega
    have hne1 : hex_char_to_int (clean_hex.getD (i * 2 + 1) 0) ≠ -1 := by rw [h1.1]; omega
    unfold hex_decode_loop
    simp only [hne0, hne1, or_self, if_false]
    rw [ih (i + 1) _ (fun j hj => h j (by omega))]
    rw [h0.1, h1.1, Int.toNat_ofNat, Int.toNat_ofNat, nibbles_or _ h0.2 _ h1.2]
    simp [List.range'_succ, pair_byte, Nat.mul_comm]

theorem all_of_hex_digits {s : List Nat}
    (h : ∀ c ∈ s, isspace c = false → isxdigit c = true) :
    s.all (fun c => isspace c || isxdigit c) = true := by
  rw [List.all_eq_true]
  intro c hc
  cases hs : isspace c with
  | true => simp
  | false => simp [h c hc hs]

theorem isxdigit_of_mem_hex_digits {s : List Nat}
    (h : ∀ c ∈ s, isspace c = false → isxdigit c = true) :
    ∀ c ∈ hex_digits s, isxdigit c = true := by
  intro c hc
  simp only [hex_digits, List.mem_filter, Bool.not_eq_true'] at hc
  exact h c hc.1 hc.2

/-- The result of `hex_to_binary` on a text of whitespace and an even number
of hex digits. -/
theorem hex_to_binary_eq {s : List Nat}
    (h : ∀ c ∈ s, isspace c = false → isxdigit c = true)
    (heven : (hex_digits s).length % 2 = 0) :
    hex_to_binary s =
      (g_malloc_buffer ((List.range' 0 ((hex_digits s).length / 2)).map (pair_byte (hex_digits s))),
        (hex_digits s).length / 2) := by
  unfold hex_to_binary
  rw [hex_clean_loop_eq, if_pos (all_of_hex_digits h)]
  simp only [List.nil_append, heven, ne_eq, not_true_eq_false, if_false]
  rw [hex_decode_loop_eq]
  · simp
  · intro j hj
    have hlt : j < (hex_digits s).length := by omega
    rw [List.getD_eq_getElem _ _ hlt]
    exact isxdigit_of_mem_hex_digits h _ (List.getElem_mem _)

theorem hex_form_length (data : List Nat) (h : data ≠ []) :
    (hex_form data).length = 3 * data.length - 1 := by
  induction data with
  | nil => exact absurd rfl h
  | cons x rest ih =>
    cases rest with
    | nil => simp [hex_form, byte_digits]
    | cons y rest =>
      have := ih (by simp)
      simp only [hex_form, byte_digits, List.length_append, List.length_cons, List.length_nil] at this ⊢
      omega

theorem flatten_sprintf (data : List Nat) (h : data ≠ []) :
    (data.map sprintf_02X_space).flatten = hex_form data ++ [32] := by
  induction data with
  | nil => exact absurd rfl h
  | cons x rest ih =>
    cases rest with
    | nil => simp [hex_form, byte_digits, sprintf_02X_space]
    | cons y rest =>
      have := ih (by simp)
      simp only [List.map_cons, List.flatten_cons] at this ⊢
      rw [this]
      simp [hex_form, byte_digits, sprintf_02X_space]

theorem binary_to_hex_eq (data : List Nat) : binary_to_hex data = hex_form data := by
  unfold binary_to_hex
  by_cases h : data = []
  · subst h; simp [hex_form]
  · have hlen : data.length ≠ 0 := by simpa using h
    simp only [hlen, if_false]
    rw [foldl_append_eq, List.nil_append, flatten_sprintf data h, Nat.mul_comm,
      ← hex_form_length data h]
    simp

theorem hex_form_getD (data : List Nat) (i : Nat) (hi : i < data.length) :
    (hex_form data).getD (3 * i) 0 = hex_upper (data.getD i 0 / 16) ∧
    (hex_form data).getD (3 * i + 1) 0 = hex_upper (data.getD i 0 % 16) ∧
    (i + 1 < data.length → (hex_form data).getD (3 * i + 2) 0 = 32) := by
  induction data generalizing i with
  | nil => simp at hi
  | cons x rest ih =>
    cases rest with
    | nil =>
      have : i = 0 := by simpa using hi
      subst this
      simp [hex_form, byte_digits]
    | cons y rest =>
      cases i with
      | zero => simp [hex_form, byte_digits]
      | succ i =>
        have hi2 : i < (y :: rest).length := by simpa using hi
        have := ih i hi2
        have e : 3 * (i + 1) = 3 * i + 1 + 1 + 1 := by ring
        simp only [hex_form, byte_digits, e, List.cons_append, List.nil_append,
          List.getD_cons_succ, List.length_cons] at this ⊢
        refine ⟨this.1, this.2.1, fun h => this.2.2 (by omega)⟩

theorem hex_upper_props {v : Nat} (hv : v < 16) :
    is_upper_hex (hex_upper v) = true ∧ hex_value (hex_upper v) = v ∧
      isxdigit (hex_upper v) = true := by
  revert v; decide

theorem hex_digits_hex_form (data : List Nat) (hb : IsBytes data) :
    hex_digits (hex_form data) = (data.map byte_digits).flatten ∧
      ∀ c ∈ hex_form data, isspace c = false → isxdigit c = true := by
  induction data with
  | nil => simp [hex_form, hex_digits]
  | cons x rest ih =>
    have hx : x < 256 := hb x (by simp)
    have h1 := hex_upper_props (show x / 16 < 16 by omega)
    have h2 := hex_upper_props (show x % 16 < 16 by omega)
    have n1 := isxdigit_not_isspace h1.2.2
    have n2 := isxdigit_not_isspace h2.2.2
    cases rest with
    | nil =>
      simp only [hex_form, byte_digits, hex_digits, List.map_cons, List.map_nil,
        List.flatten_cons, List.flatten_nil, List.append_nil]
      refine ⟨by simp [List.filter_cons, n1, n2], ?_⟩
      intro c hc _
      simp only [List.mem_cons, List.mem_singleton, List.not_mem_nil, or_false] at hc
      rcases hc with rfl | rfl
      · exact h1.2.2
      · exact h2.2.2
    | cons y rest =>
      have ih' := ih (fun z hz => hb z (List.mem_cons_of_mem _ hz))
      constructor
      · have := ih'.1
        simp only [hex_digits] at this
        simp only [hex_form, byte_digits, hex_digits, List.map_cons, List.flatten_cons,
          List.cons_append, List.nil_append, List.filter_cons, n1, n2, Bool.not_false,
          if_true]
        have hsp : isspace 32 = true := by decide
        simp only [hsp, Bool.not_true, Bool.false_eq_true, if_false]
        simpa [byte_digits] using this
      · intro c hc hs
        simp only [hex_form, byte_digits, List.cons_append, List.nil_append,
          List.mem_cons] at hc
        rcases hc with rfl | rfl | rfl | hc
        · exact h1.2.2
        · exact h2.2.2
        · exact absurd hs (by decide)
        · exact ih'.2 c hc hs

theorem flatten_byte_digits_getD (data : List Nat) (i : Nat) (hi : i < data.length) :
    ((data.map byte_digits).flatten).getD (2 * i) 0 = hex_upper (data.getD i 0 / 16) ∧
    ((data.map byte_digits).flatten).getD (2 * i + 1) 0 = hex_upper (data.getD i 0 % 16) := by
  induction data generalizing i with
  | nil => simp at hi
  | cons x rest ih =>
    cases i with
    | zero => simp [byte_digits]
    | succ i =>
      have := ih i (by simpa using hi)
      have e : 2 * (i + 1) = 2 * i + 1 + 1 := by ring
      simpa [byte_digits, e] using this

theorem flatten_byte_digits_length (data : List Nat) :
    ((data.map byte_digits).flatten).length = 2 * data.length := by
  induction data with
  | nil => simp
  | cons x rest ih => simp [byte_digits, ih]; omega

theorem pair_byte_flatten (data : List Nat) (hb : IsBytes data) :
    (List.range' 0 data.length).map (pair_byte ((data.map byte_digits).flatten)) = data := by
  apply List.ext_getElem
  · simp
  · intro i h1 h2
    have hx : data[i] < 256 := hb _ (List.getElem_mem _)
    have hd := flatten_byte_digits_getD data i h2
    rw [List.getD_eq_getElem _ _ h2] at hd
    simp only [List.getElem_map, List.getElem_range', pair_byte, Nat.zero_add, Nat.one_mul]
    rw [hd.1, hd.2, (hex_upper_props (show data[i] / 16 < 16 by omega)).2.1,
      (hex_upper_props (show data[i] % 16 < 16 by omega)).2.1]
    omega

theorem hex_to_binary_hex_form (b : List Nat) (hb : IsBytes b) :
    hex_to_binary (hex_form b) = (g_malloc_buffer b, b.length) := by
  have hd := hex_digits_hex_form b hb
  have hl := flatten_byte_digits_length b
  rw [hex_to_binary_eq hd.2 (by rw [hd.1, hl]; omega), hd.1, hl]
  have e : 2 * b.length / 2 = b.length := by omega
  rw [e, pair_byte_flatten b hb]

/-! ## The claims on the hex codec -/

/-- C1, counterexample: for the empty buffer the round trip does not succeed;
`binary_to_hex` gives the empty string, for which `hex_to_binary` returns
`NULL` (the `g_malloc (0)` of its zero bytes) and length 0. -/
theorem hex_round_trip_empty_fails :
    binary_to_hex [] = [] ∧ hex_to_binary (binary_to_hex []) = (none, 0) ∧
      hex_to_binary (binary_to_hex []) ≠ (some [], 0) := by
  decide

/-- C1, amended: for every non-empty byte buffer `b`,
`hex_to_binary (binary_to_hex (b))` succeeds and returns exactly `b` with
length `|b|`. -/
theorem hex_round_trip (b : List Nat) (hb : IsBytes b) (hne : b ≠ []) :
    hex_to_binary (binary_to_hex b) = (some b, b.length) := by
  rw [binary_to_hex_eq, hex_to_binary_hex_form b hb]
  have : b.length ≠ 0 := by simpa using hne
  simp [g_malloc_buffer, this]

/-- Witness of `hex_round_trip` at the buffer `[0x48, 0x00, 0xFF]`. -/
theorem hex_round_trip_witness :
    IsBytes [0x48, 0x00, 0xFF] ∧
      hex_to_binary (binary_to_hex [0x48, 0x00, 0xFF]) = (some [0x48, 0x00, 0xFF], 3) :=
  ⟨by decide, hex_round_trip [0x48, 0x00, 0xFF] (by decide) (by decide)⟩

/-- C2, counterexample: a text of one space has only hex digits outside its
whitespace and an even number (zero) of them, yet `hex_to_binary` does not
succeed on it: it returns `NULL`. -/
theorem hex_to_binary_blank_fails :
    (∀ c ∈ [32], isspace c = false → isxdigit c = true) ∧
      (hex_digits [32]).length % 2 = 0 ∧ hex_to_binary [32] = (none, 0) := by
  decide

/-- C2, amended: for every input whose non-whitespace characters are all hex
digits and whose digit count is even and not zero, `hex_to_binary` succeeds
with a buffer of length `digitCount / 2` whose byte `i` is
`16 * value (d[2i]) + value (d[2i+1])`, `d` being the digits left after
whitespace removal and `value` case-insensitive; and `"48 65 6C 6C 6F"`
decodes to the five bytes of `"Hello"`. -/
theorem hex_to_binary_decodes :
    (∀ s : List Nat, (∀ c ∈ s, isspace c = false → isxdigit c = true) →
      (hex_digits s).length % 2 = 0 → 0 < (hex_digits s).length →
      ∃ b, hex_to_binary s = (some b, (hex_digits s).length / 2) ∧
        b.length = (hex_digits s).length / 2 ∧
        ∀ i < (hex_digits s).length / 2,
          b.getD i 0 = 16 * hex_value ((hex_digits s).getD (2 * i) 0)
            + hex_value ((hex_digits s).getD (2 * i + 1) 0)) ∧
    hex_to_binary (ascii "48 65 6C 6C 6F") = (some (ascii "Hello"), 5) := by
  refine ⟨?_, by decide⟩
  intro s h heven hpos
  refine ⟨(List.range' 0 ((hex_digits s).length / 2)).map (pair_byte (hex_digits s)), ?_, ?_, ?_⟩
  · rw [hex_to_binary_eq h heven]
    have : (hex_digits s).length / 2 ≠ 0 := by omega
    simp [g_malloc_buffer, this]
  · simp
  · intro i hi
    rw [List.getD_eq_getElem _ _ (by simpa using hi)]
    simp [pair_byte]

/-- Witness of `hex_to_binary_decodes` at the text `"4a\tB7"`. -/
theorem hex_to_binary_decodes_witness :
    ∃ b, hex_to_binary (ascii "4a\tB7") = (some b, 2) ∧ b.length = 2 ∧
      ∀ i < 2, b.getD i 0 = 16 * hex_value ((hex_digits (ascii "4a\tB7")).getD (2 * i) 0)
            + hex_value ((hex_digits (ascii "4a\tB7")).getD (2 * i + 1) 0) :=
  hex_to_binary_decodes.1 (ascii "4a\tB7") (by decide) (by decide) (by decide)

/-- C3: `hex_to_binary` fails (returns `NULL` and sets the length to 0) for
every input with a character that is neither whitespace nor a hex digit, and
for every input with an odd number of hex digits. -/
theorem hex_to_binary_fails (s : List Nat)
    (h : (∃ c ∈ s, isspace c = false ∧ isxdigit c = false) ∨
      (s.filter isxdigit).length % 2 = 1) :
    hex_to_binary s = (none, 0) := by
  unfold hex_to_binary
  rw [hex_clean_loop_eq]
  by_cases hall : s.all (fun c => isspace c || isxdigit c) = true
  · rw [if_pos hall]
    rcases h with ⟨c, hc, hs, hx⟩ | hodd
    · rw [List.all_eq_true] at hall
      have := hall c hc
      simp [hs, hx] at this
    · have hf : hex_digits s = s.filter isxdigit := by
        unfold hex_digits
        apply List.filter_congr
        intro c hc
        rw [List.all_eq_true] at hall
        have := hall c hc
        cases hx : isxdigit c with
        | true => simp [isxdigit_not_isspace hx]
        | false => simpa [hx] using this
      simp only [List.nil_append, hf, hodd, ne_eq]
      simp
  · simp [hall]

/-- Witness of `hex_to_binary_fails` at the text `"4G"`. -/
theorem hex_to_binary_fails_witness : hex_to_binary (ascii "4G") = (none, 0) :=
  hex_to_binary_fails (ascii "4G") (Or.inl (by decide))

/-- C4: for a buffer of `n ≥ 1` bytes `binary_to_hex` returns exactly
`3n - 1` characters; byte `i` stands at positions `3i` and `3i + 1` as two
uppercase hex digits, most significant nibble first, and every position
`3i + 2` with `i < n - 1` is a space; for the empty buffer it returns the
empty string. -/
theorem binary_to_hex_format :
    binary_to_hex [] = [] ∧
    ∀ data : List Nat, IsBytes data → 1 ≤ data.length →
      (binary_to_hex data).length = 3 * data.length - 1 ∧
      ∀ i < data.length,
        is_upper_hex ((binary_to_hex data).getD (3 * i) 0) = true ∧
        hex_value ((binary_to_hex data).getD (3 * i) 0) = data.getD i 0 / 16 ∧
        is_upper_hex ((binary_to_hex data).getD (3 * i + 1) 0) = true ∧
        hex_value ((binary_to_hex data).getD (3 * i + 1) 0) = data.getD i 0 % 16 ∧
        (i + 1 < data.length → (binary_to_hex data).getD (3 * i + 2) 0 = 32) := by
  refine ⟨by decide, ?_⟩
  intro data hb hlen
  have hne : data ≠ [] := by
    intro h; rw [h] at hlen; simp at hlen
  rw [binary_to_hex_eq]
  refine ⟨hex_form_length data hne, ?_⟩
  intro i hi
  have hx : data.getD i 0 < 256 := by
    rw [List.getD_eq_getElem _ _ hi]; exact hb _ (List.getElem_mem _)
  have hg := hex_form_getD data i hi
  have h1 := hex_upper_props (show data.getD i 0 / 16 < 16 by omega)
  have h2 := hex_upper_props (show data.getD i 0 % 16 < 16 by omega)
  rw [hg.1, hg.2.1]
  exact ⟨h1.1, h1.2.1, h2.1, h2.2.1, hg.2.2⟩

/-- Witness of `binary_to_hex_format` at the buffer `[0x48, 0x00, 0xFF]`. -/
theorem binary_to_hex_format_witness :
    (binary_to_hex [0x48, 0x00, 0xFF]).length = 8 ∧
      binary_to_hex [0x48, 0x00, 0xFF] = ascii "48 00 FF" :=
  ⟨(binary_to_hex_format.2 [0x48, 0x00, 0xFF] (by decide) (by decide)).1, by decide⟩

/-! ## Lemmas on the salvage walk -/

theorem drop_takeWhile_length {α : Type} (p : α → Bool) (l : List α) :
    l.drop (l.takeWhile p).length = l.dropWhile p := by
  induction l with
  | nil => simp
  | cons a t ih =>
    by_cases h : p a = true
    · simp [List.takeWhile_cons, List.dropWhile_cons, h, ih]
    · simp [List.takeWhile_cons, List.dropWhile_cons, h]

theorem dropWhile_head_false {α : Type} (p : α → Bool) (l : List α) (a : α) (t : List α)
    (h : l.dropWhile p = a :: t) : p a = false := by
  induction l with
  | nil => simp at h
  | cons b r ih =>
    by_cases hb : p b = true
    · rw [List.dropWhile_cons, if_pos hb] at h
      exact ih h
    · rw [List.dropWhile_cons, if_neg hb] at h
      injection h with h1 h2
      subst h1
      simpa using hb

theorem recovery_walk_dropWhile (l : List Nat) :
    recovery_walk (l.dropWhile isspace) = recovery_walk l := by
  induction l with
  | nil => rfl
  | cons c rest ih =>
    by_cases h : isspace c = true
    · rw [List.dropWhile_cons, if_pos h, ih]
      conv_rhs => unfold recovery_walk
      simp [h]
    · rw [List.dropWhile_cons, if_neg h]

theorem salvage_skip_eq (input : List Nat) (fuel i : Nat) (h : input.length - i ≤ fuel) :
    salvage_skip input fuel i = i + ((input.drop i).takeWhile isspace).length := by
  induction fuel generalizing i with
  | zero =>
    have : input.drop i = [] := List.drop_eq_nil_of_le (by omega)
    simp [salvage_skip, this]
  | succ fuel ih =>
    unfold salvage_skip
    by_cases hi : i < input.length
    · rw [List.drop_eq_getElem_cons hi, List.getD_eq_getElem _ _ hi]
      by_cases hs : isspace input[i] = true
      · rw [if_pos ⟨hi, hs⟩, ih (i + 1) (by omega), List.takeWhile_cons, if_pos hs]
        simp only [List.length_cons]
        omega
      · rw [if_neg (fun hc => hs hc.2), List.takeWhile_cons, if_neg hs]
        simp
    · have : input.drop i = [] := List.drop_eq_nil_of_le (by omega)
      rw [if_neg (fun hc => hi hc.1), this]
      simp

/-- The salvage loop of `convert_between_formats` computes the recovery walk
of the specification on the rest of the input. -/
theorem salvage_loop_eq (input : List Nat) (fuel i : Nat) (acc : List Nat)
    (h : input.length - i ≤ fuel) :
    salvage_loop input fuel i acc = acc ++ recovery_walk (input.drop i) := by
  induction fuel generalizing i acc with
  | zero =>
    have : input.drop i = [] := List.drop_eq_nil_of_le (by omega)
    simp [salvage_loop, this, recovery_walk]
  | succ fuel ih =>
    unfold salvage_loop
    by_cases hi : i < input.length
    · simp only [hi, not_true_eq_false, if_false]
      rw [salvage_skip_eq input input.length i (by omega)]
      have hd : input.drop (i + ((input.drop i).takeWhile isspace).length)
          = (input.drop i).dropWhile isspace := by
        rw [← List.drop_drop, drop_takeWhile_length]
      have hij : i ≤ i + ((input.drop i).takeWhile isspace).length := Nat.le_add_right _ _
      rw [← recovery_walk_dropWhile (input.drop i), ← hd]
      generalize i + ((input.drop i).takeWhile isspace).length = j at hd hij ⊢
      by_cases hj : j < input.length
      · have ha := dropWhile_head_false isspace (input.drop i) input[j] (input.drop (j + 1))
          (by rw [← hd, List.drop_eq_getElem_cons hj])
        rw [if_neg (by omega), List.drop_eq_getElem_cons hj, List.getD_eq_getElem _ _ hj]
        by_cases hj1 : j + 1 < input.length
        · rw [if_neg (by omega), List.drop_eq_getElem_cons hj1,
            List.getD_eq_getElem _ _ hj1]
          conv_rhs => unfold recovery_walk
          simp only [ha, Bool.false_eq_true, if_false]
          by_cases hx : isxdigit input[j] = true ∧ isxdigit input[j + 1] = true
          · rw [if_pos hx, if_pos hx, ih (j + 2) _ (by omega)]
            simp
          · rw [if_neg hx, if_neg hx, ih (j + 2) _ (by omega)]
            simp
        · have : input.drop (j + 1) = [] := List.drop_eq_nil_of_le (by omega)
          rw [if_pos (by omega), this]
          conv_rhs => unfold recovery_walk
          simp [ha]
      · have : input.drop j = [] := List.drop_eq_nil_of_le (by omega)
        rw [if_pos (by omega), this]
        simp [recovery_walk]
    · have : input.drop i = [] := List.drop_eq_nil_of_le (by omega)
      simp [hi, this, recovery_walk]

theorem recovery_walk_no_nul (l : List Nat) : ∀ c ∈ recovery_walk l, c ≠ 0 := by
  induction l using recovery_walk.induct with
  | case1 => simp [recovery_walk]
  | case2 c rest hs ih => unfold recovery_walk; simpa [hs] using ih
  | case3 c hs => unfold recovery_walk; simp [hs, PLACEHOLDER]
  | case4 c hs d rest2 ih =>
    unfold recovery_walk
    simp only [hs, Bool.false_eq_true, if_false]
    intro x hx
    rw [List.mem_append] at hx
    rcases hx with hx | hx
    · by_cases hxd : isxdigit c = true ∧ isxdigit d = true
      · rw [if_pos hxd] at hx
        have hc := (isxdigit_iff c).1 hxd.1
        have hd := (isxdigit_iff d).1 hxd.2
        simp only [List.mem_cons, List.mem_singleton, List.not_mem_nil, or_false] at hx
        rcases hx with rfl | rfl <;> omega
      · rw [if_neg hxd] at hx
        simp only [PLACEHOLDER, List.cons_append, List.nil_append, List.mem_cons,
          List.not_mem_nil, or_false] at hx
        omega
    · exact ih x hx

theorem cstr_of_no_nul (l : List Nat) (h : ∀ c ∈ l, c ≠ 0) : cstr l = l := by
  unfold cstr
  rw [List.takeWhile_eq_self_iff]
  intro c hc
  simpa using h c hc

theorem recovery_walk_blank (l : List Nat) (h : ∀ c ∈ l, isspace c = true) :
    recovery_walk l = [] := by
  induction l with
  | nil => rfl
  | cons c rest ih =>
    unfold recovery_walk
    rw [if_pos (h c (by simp))]
    exact ih (fun x hx => h x (List.mem_cons_of_mem _ hx))

/-- The failure path of `convert_between_formats` for source `HEX`. -/
theorem convert_hex_null (input : List Nat) (to_type : EncodingType) (hne : input ≠ [])
    (hfail : (hex_to_binary input).1 = none) :
    convert_between_formats input HEX to_type
      = (some (recovery_walk input), (recovery_walk input).length) := by
  unfold convert_between_formats
  rw [if_neg hne, if_pos rfl]
  rcases hb : hex_to_binary input with ⟨_ | b, n⟩
  · simp only [strlen]
    rw [salvage_loop_eq input input.length 0 [] (by omega)]
    simp only [List.nil_append, List.drop_zero]
    rw [cstr_of_no_nul _ (recovery_walk_no_nul input)]
  · rw [hb] at hfail; simp at hfail

/-- The success path of `convert_between_formats` for source `HEX`. -/
theorem convert_hex_some (input : List Nat) (to_type : EncodingType) (b : List Nat)
    (hne : input ≠ []) (hok : (hex_to_binary input).1 = some b) :
    convert_between_formats input HEX to_type = convert_step2 b to_type := by
  unfold convert_between_formats
  rw [if_neg hne, if_pos rfl]
  rcases hb : hex_to_binary input with ⟨_ | b2, n⟩
  · rw [hb] at hok; simp at hok
  · rw [hb] at hok
    simp only [Option.some.injEq] at hok
    subst hok
    rfl

/-- The success path of `convert_between_formats` for a text source. -/
theorem convert_text_some (input : List Nat) (from_type to_type : EncodingType) (b : List Nat)
    (hne : input ≠ []) (hfrom : from_type ≠ HEX)
    (hok : (text_to_binary input from_type).1 = some b) :
    convert_between_formats input from_type to_type = convert_step2 b to_type := by
  unfold convert_between_formats
  rw [if_neg hne, if_neg hfrom]
  rcases hb : text_to_binary input from_type with ⟨_ | b2, n⟩
  · rw [hb] at hok; simp at hok
  · rw [hb] at hok
    simp only [Option.some.injEq] at hok
    subst hok
    rfl

/-- The failure path of `convert_between_formats` for a text source. -/
theorem convert_text_null (input : List Nat) (from_type to_type : EncodingType)
    (hne : input ≠ []) (hfrom : from_type ≠ HEX)
    (hfail : (text_to_binary input from_type).1 = none) :
    convert_between_formats input from_type to_type
      = (some CONVERSION_ERROR_INPUT, 41) := by
  unfold convert_between_formats
  rw [if_neg hne, if_neg hfrom]
  have hlen : input.length > 0 := List.length_pos.2 hne
  rcases hb : text_to_binary input from_type with ⟨_ | b2, n⟩
  · simp only [hlen, if_true]
    rfl
  · rw [hb] at hfail; simp at hfail

theorem convert_step2_unimplemented (b : List Nat) (to_type : EncodingType)
    (hto : to_type ∈ unimplemented_targets) :
    convert_step2 b to_type = (some (ascii "[Conversion error]"), 18) := by
  simp only [unimplemented_targets, List.mem_cons, List.mem_singleton, List.not_mem_nil,
    or_false] at hto
  rcases hto with rfl | rfl | rfl | rfl | rfl | rfl | rfl <;> rfl

/-! ## The claims on the pipeline -/

/-- C5: for every non-empty input on which hex decoding fails and for every
target encoding, `convert_between_formats (input, HEX, target)` returns
exactly the recovery walk of the original input (skip whitespace, stop at the
end, one placeholder for a last single character, a pair of hex digits
verbatim, two placeholders for any other pair, advance by two), with its byte
length, whatever the target; `"4"` yields one placeholder and `"ZZ"` two. -/
theorem convert_hex_failure_is_recovery_walk :
    (∀ (input : List Nat) (target : EncodingType), input ≠ [] →
      (hex_to_binary input).1 = none →
      convert_between_formats input HEX target
        = (some (recovery_walk input), (recovery_walk input).length)) ∧
    (∀ target : EncodingType,
      convert_between_formats (ascii "4") HEX target = (some PLACEHOLDER, 3)) ∧
    (∀ target : EncodingType,
      convert_between_formats (ascii "ZZ") HEX target
        = (some (PLACEHOLDER ++ PLACEHOLDER), 6)) := by
  refine ⟨fun input target hne hfail => convert_hex_null input target hne hfail, ?_, ?_⟩
  · intro target
    rw [convert_hex_null (ascii "4") target (by decide) (by decide)]
    decide
  · intro target
    rw [convert_hex_null (ascii "ZZ") target (by decide) (by decide)]
    decide

/-- Witness of `convert_hex_failure_is_recovery_walk` at the text `"41 4Z 4"`
and target `UTF16LE`. -/
theorem convert_hex_failure_is_recovery_walk_witness :
    (hex_to_binary (ascii "41 4Z 4")).1 = none ∧
    convert_between_formats (ascii "41 4Z 4") HEX UTF16LE
      = (some (recovery_walk (ascii "41 4Z 4")), (recovery_walk (ascii "41 4Z 4")).length) :=
  ⟨by decide,
    convert_hex_failure_is_recovery_walk.1 (ascii "41 4Z 4") UTF16LE (by decide) (by decide)⟩

/-- C6: for every source and every target encoding,
`convert_between_formats` on the empty input returns the empty string with
output length 0. -/
theorem convert_empty_input (from_type to_type : EncodingType) :
    convert_between_formats [] from_type to_type = (some [], 0) := by
  simp [convert_between_formats]

/-- C7, counterexample: the blank input `" "` with source `ASCII` and target
`HEX` does not give the empty output; it gives `"20"` with length 2. -/
theorem convert_blank_ascii_not_empty :
    (∀ c ∈ ascii " ", isspace c = true) ∧
      convert_between_formats (ascii " ") ASCII HEX = (some (ascii "20"), 2) ∧
      convert_between_formats (ascii " ") ASCII HEX ≠ (some [], 0) := by
  decide

/-- C7, amended: for every blank input (non-empty, whitespace only) with
source encoding `HEX` and for every target encoding,
`convert_between_formats` returns the empty output with length 0, as for the
empty input. -/
theorem convert_blank_hex (input : List Nat) (to_type : EncodingType) (hne : input ≠ [])
    (hblank : ∀ c ∈ input, isspace c = true) :
    convert_between_formats input HEX to_type = (some [], 0) := by
  have hd : hex_digits input = [] := by
    unfold hex_digits
    rw [List.filter_eq_nil_iff]
    intro c hc
    simp [hblank c hc]
  have hfail : (hex_to_binary input).1 = none := by
    rw [hex_to_binary_eq (fun c hc hs => by rw [hblank c hc] at hs; cases hs)
      (by rw [hd]; rfl), hd]
    rfl
  rw [convert_hex_null input to_type hne hfail, recovery_walk_blank input hblank]
  rfl

/-- Witness of `convert_blank_hex` at the text `" \t\n"` and target `UTF8`. -/
theorem convert_blank_hex_witness :
    convert_between_formats (ascii " \t\n") HEX UTF8 = (some [], 0) :=
  convert_blank_hex (ascii " \t\n") UTF8 (by decide) (by decide)

/-- C8: for every non-empty input that is not well-formed UTF-8 and for
every target encoding, `convert_between_formats (input, UTF8, target)`
returns the literal `"[Conversion error - invalid input format]"` and its
byte length 41; this is not the literal `"[Conversion error]"`. -/
theorem convert_invalid_utf8_source (input : List Nat) (to_type : EncodingType)
    (hne : input ≠ []) (hbad : utf8_valid input = false) :
    convert_between_formats input UTF8 to_type
        = (some (ascii "[Conversion error - invalid input format]"), 41) ∧
      (ascii "[Conversion error - invalid input format]").length = 41 ∧
      ascii "[Conversion error - invalid input format]" ≠ ascii "[Conversion error]" := by
  refine ⟨?_, by decide, by decide⟩
  have hfail : (text_to_binary input UTF8).1 = none := by
    simp [text_to_binary, g_utf8_validate, hbad]
  exact convert_text_null input UTF8 to_type hne (by decide) hfail

/-- Witness of `convert_invalid_utf8_source` at the one-byte text `[0xE2]`
and target `HEX`. -/
theorem convert_invalid_utf8_source_witness :
    utf8_valid [0xE2] = false ∧
    convert_between_formats [0xE2] UTF8 HEX
        = (some (ascii "[Conversion error - invalid input format]"), 41) :=
  ⟨by decide, (convert_invalid_utf8_source [0xE2] HEX (by decide) (by decide)).1⟩

/-- C9: for every input whose decode stage succeeds with a buffer (valid
hex, or a text source for which `text_to_binary` returns a buffer, such as
any non-empty `ASCII` text or valid `UTF8` text) and for every target among
`UTF32LE`, `UTF32BE`, `ISO8859_1`, `ISO8859_15`, `SHIFT_JIS`, `EUC_JP` and
`KOI8_R`, `convert_between_formats` returns the literal
`"[Conversion error]"`, because `binary_to_text` returns `NULL` for them. -/
theorem convert_unimplemented_target :
    (∀ (input bin : List Nat) (from_type to_type : EncodingType), input ≠ [] →
      to_type ∈ unimplemented_targets →
      (from_type = HEX → (hex_to_binary input).1 = some bin) →
      (from_type ≠ HEX → (text_to_binary input from_type).1 = some bin) →
      binary_to_text bin to_type = none ∧
      convert_between_formats input from_type to_type
        = (some (ascii "[Conversion error]"), 18)) ∧
    (∀ (input : List Nat) (to_type : EncodingType), input ≠ [] →
      to_type ∈ unimplemented_targets →
      convert_between_formats input ASCII to_type = (some (ascii "[Conversion error]"), 18)) ∧
    (∀ (input : List Nat) (to_type : EncodingType), input ≠ [] →
      g_utf8_validate input = true → to_type ∈ unimplemented_targets →
      convert_between_formats input UTF8 to_type = (some (ascii "[Conversion error]"), 18)) := by
  refine ⟨?_, ?_, ?_⟩
  · intro input bin from_type to_type hne hto hhex htext
    constructor
    · simp only [unimplemented_targets, List.mem_cons, List.mem_singleton, List.not_mem_nil,
        or_false] at hto
      rcases hto with rfl | rfl | rfl | rfl | rfl | rfl | rfl <;> rfl
    · by_cases hf : from_type = HEX
      · subst hf
        rw [convert_hex_some input to_type bin hne (hhex rfl)]
        exact convert_step2_unimplemented bin to_type hto
      · rw [convert_text_some input from_type to_type bin hne hf (htext hf)]
        exact convert_step2_unimplemented bin to_type hto
  · intro input to_type hne hto
    have hlen : input.length ≠ 0 := by simpa using hne
    rw [convert_text_some input ASCII to_type input hne (by decide)
      (by simp [text_to_binary, g_malloc_buffer, hlen])]
    exact convert_step2_unimplemented input to_type hto
  · intro input to_type hne hv hto
    have hlen : input.length ≠ 0 := by simpa using hne
    rw [convert_text_some input UTF8 to_type input hne (by decide)
      (by simp [text_to_binary, g_malloc_buffer, hlen, hv])]
    exact convert_step2_unimplemented input to_type hto

/-- Witness of `convert_unimplemented_target` at the hex text `"48 69"` and
target `KOI8_R`. -/
theorem convert_unimplemented_target_witness :
    (hex_to_binary (ascii "48 69")).1 = some [0x48, 0x69] ∧
    convert_between_formats (ascii "48 69") HEX KOI8_R
        = (some (ascii "[Conversion error]"), 18) :=
  ⟨by decide,
    (convert_unimplemented_target.1 (ascii "48 69") [0x48, 0x69] HEX KOI8_R (by decide)
      (by decide) (fun _ => by decide) (fun h => absurd rfl h)).2⟩

/-! ## Lemmas on well-formed UTF-8 -/

theorem utf8_valid_iff (l : List Nat) :
    utf8_valid l = true ↔ l.foldl utf8_step Utf8State.start = Utf8State.start := by
  simp [utf8_valid]

theorem utf8_valid_append {a b : List Nat} (ha : utf8_valid a = true)
    (hb : utf8_valid b = true) : utf8_valid (a ++ b) = true := by
  rw [utf8_valid_iff] at ha hb ⊢
  rw [List.foldl_append, ha, hb]

theorem utf8_valid_of_ascii (l : List Nat) (h : ∀ c ∈ l, c < 128) : utf8_valid l = true := by
  rw [utf8_valid_iff]
  induction l with
  | nil => rfl
  | cons c rest ih =>
    have hc : c < 128 := h c (by simp)
    rw [List.foldl_cons]
    have : utf8_step Utf8State.start c = Utf8State.start := by
      simp only [utf8_step]
      rw [if_pos hc]
    rw [this]
    exact ih (fun x hx => h x (List.mem_cons_of_mem _ hx))

theorem mem_of_mem_cstr {l : List Nat} {c : Nat} (h : c ∈ cstr l) : c ∈ l :=
  (List.takeWhile_prefix _).subset h

/-- Appending to a buffer keeps its C string well-formed when the C strings
of both parts are. -/
theorem utf8_valid_cstr_append {l c : List Nat} (hl : utf8_valid (cstr l) = true)
    (hc : utf8_valid (cstr c) = true) : utf8_valid (cstr (l ++ c)) = true := by
  unfold cstr at hl hc ⊢
  rw [List.takeWhile_append]
  split
  next heq =>
    have hp : List.takeWhile (fun c => c != 0) l = l :=
      (List.takeWhile_prefix _).eq_of_length heq
    rw [hp] at hl
    exact utf8_valid_append hl hc
  next => exact hl

theorem utf8_valid_cstr_placeholder : utf8_valid (cstr PLACEHOLDER) = true := by decide

theorem utf8_valid_cstr_unichar (ch : Nat) (h : IsScalar ch) :
    utf8_valid (cstr (unichar_to_utf8 ch)) = true := by
  obtain ⟨h1, h2⟩ := h
  unfold unichar_to_utf8
  by_cases c1 : ch < 0x80
  · rw [if_pos c1]
    apply utf8_valid_of_ascii
    intro c hc
    have := mem_of_mem_cstr hc
    simp only [List.mem_singleton] at this
    omega
  · rw [if_neg c1]
    by_cases c2 : ch < 0x800
    · rw [if_pos c2]
      have e : cstr [0xC0 + ch / 64, 0x80 + ch % 64] = [0xC0 + ch / 64, 0x80 + ch % 64] :=
        cstr_of_no_nul _ (by intro c hc; simp at hc; omega)
      rw [e, utf8_valid_iff]
      simp only [List.foldl_cons, List.foldl_nil, utf8_step]
      rw [if_neg (by omega), if_pos (by omega)]
      simp only [utf8_step]
      rw [if_pos (by omega)]
      simp
    · rw [if_neg c2]
      by_cases c3 : ch < 0x10000
      · rw [if_pos c3]
        have e : cstr [0xE0 + ch / 4096, 0x80 + ch / 64 % 64, 0x80 + ch % 64]
            = [0xE0 + ch / 4096, 0x80 + ch / 64 % 64, 0x80 + ch % 64] :=
          cstr_of_no_nul _ (by intro c hc; simp at hc; omega)
        rw [e, utf8_valid_iff]
        simp only [List.foldl_cons, List.foldl_nil, utf8_step]
        rw [if_neg (by omega), if_neg (by omega)]
        by_cases k0 : 0xE0 + ch / 4096 = 0xE0
        · rw [if_pos k0]
          simp only [utf8_step]
          rw [if_pos (by omega)]
          simp only [show ¬ (2 ≤ 1) by omega, if_false, utf8_step]
          rw [if_pos (by omega)]
          simp
        · rw [if_neg k0]
          by_cases k1 : 0xE0 + ch / 4096 = 0xED
          · rw [if_neg (by omega), if_pos k1]
            simp only [utf8_step]
            rw [if_pos (by omega)]
            simp only [show ¬ (2 ≤ 1) by omega, if_false, utf8_step]
            rw [if_pos (by omega)]
            simp
          · rw [if_pos (by omega)]
            simp only [utf8_step]
            rw [if_pos (by omega)]
            simp only [show ¬ (2 ≤ 1) by omega, if_false, utf8_step]
            rw [if_pos (by omega)]
            simp
      · rw [if_neg c3, if_pos (by omega)]
        have e : cstr [0xF0 + ch / 262144, 0x80 + ch / 4096 % 64, 0x80 + ch / 64 % 64,
              0x80 + ch % 64]
            = [0xF0 + ch / 262144, 0x80 + ch / 4096 % 64, 0x80 + ch / 64 % 64,
              0x80 + ch % 64] :=
          cstr_of_no_nul _ (by intro c hc; simp at hc; omega)
        rw [e, utf8_valid_iff]
        simp only [List.foldl_cons, List.foldl_nil, utf8_step]
        rw [if_neg (by omega), if_neg (by omega), if_neg (by omega), if_neg (by omega),
          if_neg (by omega)]
        by_cases k0 : 0xF0 + ch / 262144 = 0xF0
        · rw [if_pos k0]
          simp only [utf8_step]
          rw [if_pos (by omega)]
          simp only [show ¬ (3 ≤ 1) by omega, if_false, utf8_step]
          rw [if_pos (by omega)]
          simp only [show ¬ (3 - 1 ≤ 1) by omega, if_false, utf8_step]
          rw [if_pos (by omega)]
          simp
        · rw [if_neg k0]
          by_cases k1 : 0xF0 + ch / 262144 = 0xF4
          · rw [if_neg (by omega), if_pos k1]
            simp only [utf8_step]
            rw [if_pos (by omega)]
            simp only [show ¬ (3 ≤ 1) by omega, if_false, utf8_step]
            rw [if_pos (by omega)]
            simp only [show ¬ (3 - 1 ≤ 1) by omega, if_false, utf8_step]
            rw [if_pos (by omega)]
            simp
          · rw [if_pos (by omega)]
            simp only [utf8_step]
            rw [if_pos (by omega)]
            simp only [show ¬ (3 ≤ 1) by omega, if_false, utf8_step]
            rw [if_pos (by omega)]
            simp only [show ¬ (3 - 1 ≤ 1) by omega, if_false, utf8_step]
            rw [if_pos (by omega)]
            simp

/-! ## The fuel of the loops is never used up

Each loop below is run with a fuel equal to the length of its buffer.  The
lemmas show that any two fuels of at least the bytes left give the same
result, so the recursion stops at the loop condition, not at the fuel. -/

theorem g_utf8_skip_pos (b : Nat) : 1 ≤ g_utf8_skip b := by
  unfold g_utf8_skip
  split_ifs <;> omega

theorem utf8_text_loop_fuel (fuel1 fuel2 : Nat) (p result : List Nat)
    (h1 : p.length ≤ fuel1) (h2 : p.length ≤ fuel2) :
    utf8_text_loop fuel1 p result = utf8_text_loop fuel2 p result := by
  induction fuel1 generalizing fuel2 p result with
  | zero =>
    have hp : p = [] := List.length_eq_zero.1 (by omega)
    subst hp
    cases fuel2 <;> simp [utf8_text_loop]
  | succ fuel1 ih =>
    cases p with
    | nil => cases fuel2 <;> simp [utf8_text_loop]
    | cons b rest =>
      cases fuel2 with
      | zero => simp at h2
      | succ fuel2 =>
        have hr1 : rest.length ≤ fuel1 := by simpa using h1
        have hr2 : rest.length ≤ fuel2 := by simpa using h2
        have hs := g_utf8_skip_pos b
        have hd1 : ((b :: rest).drop (g_utf8_skip b)).length ≤ fuel1 := by
          rw [List.length_drop, List.length_cons]; omega
        have hd2 : ((b :: rest).drop (g_utf8_skip b)).length ≤ fuel2 := by
          rw [List.length_drop, List.length_cons]; omega
        unfold utf8_text_loop
        split
        · split
          · exact ih _ _ _ hr1 hr2
          · exact ih _ _ _ hd1 hd2
        · exact ih _ _ _ hr1 hr2

theorem utf16_text_loop_fuel (le : Bool) (data : List Nat) (fuel1 fuel2 i : Nat)
    (result : List Nat) (h1 : data.length - i ≤ fuel1) (h2 : data.length - i ≤ fuel2) :
    utf16_text_loop le data fuel1 i result = utf16_text_loop le data fuel2 i result := by
  induction fuel1 generalizing fuel2 i result with
  | zero =>
    have hi : ¬ (i < data.length) := by omega
    cases fuel2 with
    | zero => rfl
    | succ fuel2 => simp [utf16_text_loop, hi]
  | succ fuel1 ih =>
    cases fuel2 with
    | zero =>
      have hi : ¬ (i < data.length) := by omega
      simp [utf16_text_loop, hi]
    | succ fuel2 =>
      unfold utf16_text_loop
      simp only []
      split
      · rfl
      · split
        · rfl
        · split
          · split
            · rfl
            · split
              · exact ih _ _ _ (by omega) (by omega)
              · exact ih _ _ _ (by omega) (by omega)
          · split
            · exact ih _ _ _ (by omega) (by omega)
            · exact ih _ _ _ (by omega) (by omega)

theorem utf8_code_points_fuel (fuel1 fuel2 : Nat) (text : List Nat)
    (h1 : text.length ≤ fuel1) (h2 : text.length ≤ fuel2) :
    utf8_code_points fuel1 text = utf8_code_points fuel2 text := by
  induction fuel1 generalizing fuel2 text with
  | zero =>
    have hp : text = [] := List.length_eq_zero.1 (by omega)
    subst hp
    cases fuel2 <;> simp [utf8_code_points]
  | succ fuel1 ih =>
    cases text with
    | nil => cases fuel2 <;> simp [utf8_code_points]
    | cons b rest =>
      cases fuel2 with
      | zero => simp at h2
      | succ fuel2 =>
        have hs := g_utf8_skip_pos b
        have hl1 : rest.length ≤ fuel1 := by simpa using h1
        have hl2 : rest.length ≤ fuel2 := by simpa using h2
        have hd1 : ((b :: rest).drop (g_utf8_skip b)).length ≤ fuel1 := by
          rw [List.length_drop, List.length_cons]; omega
        have hd2 : ((b :: rest).drop (g_utf8_skip b)).length ≤ fuel2 := by
          rw [List.length_drop, List.length_cons]; omega
        unfold utf8_code_points
        split
        · rfl
        · rw [ih _ _ hd1 hd2]

theorem hex_decode_loop_length (clean_hex : List Nat) (n i : Nat) (acc r : List Nat)
    (h : hex_decode_loop clean_hex n i acc = some r) : r.length = acc.length + n := by
  induction n generalizing i acc with
  | zero =>
    simp only [hex_decode_loop, Option.some.injEq] at h
    subst h
    rfl
  | succ n ih =>
    unfold hex_decode_loop at h
    simp only [] at h
    split at h
    · cases h
    · have := ih _ _ h
      simp only [List.length_append, List.length_singleton] at this
      omega

/-- The length that `hex_to_binary` stores to `*out_len` is the length of the
buffer it returns. -/
theorem hex_to_binary_length (input b : List Nat) (n : Nat)
    (h : hex_to_binary input = (some b, n)) : n = b.length := by
  unfold hex_to_binary at h
  split at h
  · cases h
  · simp only [] at h
    split at h
    · cases h
    · split at h
      · cases h
      · rename_i bin hbin
        have hl := hex_decode_loop_length _ _ _ _ _ hbin
        simp only [g_malloc_buffer, Prod.mk.injEq] at h
        obtain ⟨h1, h2⟩ := h
        split at h1
        · cases h1
        · injection h1 with h1
          subst h1
          simp only [List.length_nil, Nat.zero_add] at hl
          omega

/-- The length that `text_to_binary` stores to `*out_len` is the length of
the buffer it returns. -/
theorem text_to_binary_length (text b : List Nat) (encoding : EncodingType) (n : Nat)
    (h : text_to_binary text encoding = (some b, n)) : n = b.length := by
  have hbuf : ∀ c, g_malloc_buffer text = some c → c = text := by
    intro c hc
    simp only [g_malloc_buffer] at hc
    split at hc
    · cases hc
    · injection hc with hc; exact hc.symm
  cases encoding with
  | ASCII =>
    simp only [text_to_binary, Prod.mk.injEq] at h
    rw [hbuf b h.1]; exact h.2.symm
  | UTF8 =>
    simp only [text_to_binary] at h
    split at h
    · simp only [Prod.mk.injEq] at h
      rw [hbuf b h.1]; exact h.2.symm
    · simp at h
  | UTF16LE =>
    simp only [text_to_binary] at h
    split at h
    · simp at h
    · simp only [Prod.mk.injEq, Option.some.injEq] at h
      rw [← h.1]; exact h.2.symm
  | UTF16BE =>
    simp only [text_to_binary] at h
    split at h
    · simp at h
    · simp only [Prod.mk.injEq, Option.some.injEq] at h
      rw [← h.1]; exact h.2.symm
  | HEX => simp [text_to_binary] at h
  | UTF32LE => simp [text_to_binary] at h
  | UTF32BE => simp [text_to_binary] at h
  | ISO8859_1 => simp [text_to_binary] at h
  | ISO8859_15 => simp [text_to_binary] at h
  | SHIFT_JIS => simp [text_to_binary] at h
  | EUC_JP => simp [text_to_binary] at h
  | KOI8_R => simp [text_to_binary] at h

theorem get_char_validated_scalar (p : List Nat) (ch : Nat)
    (h : g_utf8_get_char_validated p = some ch) : IsScalar ch := by
  unfold g_utf8_get_char_validated at h
  split at h
  · cases h
  · rename_i b0 rest
    split at h
    · split at h
      · cases h
      · injection h with h
        subst h
        exact ⟨by omega, by omega⟩
    · split at h
      · cases h
      · simp only [] at h
        split at h
        · cases h
        · split at h
          · cases h
          · split at h
            · cases h
            · split at h
              · rename_i hs
                injection h with h
                subst h
                exact hs
              · cases h

theorem utf8_text_loop_valid (fuel : Nat) (p result : List Nat)
    (h : utf8_valid (cstr result) = true) :
    utf8_valid (cstr (utf8_text_loop fuel p result)) = true := by
  induction fuel generalizing p result with
  | zero => simpa [utf8_text_loop] using h
  | succ fuel ih =>
    cases p with
    | nil => simpa [utf8_text_loop] using h
    | cons b rest =>
      unfold utf8_text_loop
      split
      · split
        · exact ih _ _ (utf8_valid_cstr_append h utf8_valid_cstr_placeholder)
        · rename_i ch hch
          exact ih _ _ (utf8_valid_cstr_append h
            (utf8_valid_cstr_unichar ch (get_char_validated_scalar _ _ hch)))
      · exact ih _ _ (utf8_valid_cstr_append h utf8_valid_cstr_placeholder)

theorem code_unit_at_lt (le : Bool) (data : List Nat) (i : Nat) :
    code_unit_at le data i < 65536 := by
  unfold code_unit_at
  split <;> exact Nat.mod_lt _ (by decide)

theorem utf16_text_loop_valid (le : Bool) (data : List Nat) (fuel i : Nat) (result : List Nat)
    (h : utf8_valid (cstr result) = true) :
    utf8_valid (cstr (utf16_text_loop le data fuel i result)) = true := by
  induction fuel generalizing i result with
  | zero => simpa [utf16_text_loop] using h
  | succ fuel ih =>
    unfold utf16_text_loop
    simp only []
    have hcu := code_unit_at_lt le data i
    have hlo := code_unit_at_lt le data (i + 2)
    split
    · exact h
    · split
      · exact utf8_valid_cstr_append h utf8_valid_cstr_placeholder
      · split
        · rename_i hhigh
          split
          · exact utf8_valid_cstr_append h utf8_valid_cstr_placeholder
          · split
            · rename_i hlow
              apply ih
              apply utf8_valid_cstr_append h
              apply utf8_valid_cstr_unichar
              rw [Nat.shiftLeft_eq]
              constructor <;> omega
            · exact ih _ _ (utf8_valid_cstr_append h utf8_valid_cstr_placeholder)
        · split
          · exact ih _ _ (utf8_valid_cstr_append h utf8_valid_cstr_placeholder)
          · rename_i hnh hnl
            apply ih
            apply utf8_valid_cstr_append h
            apply utf8_valid_cstr_unichar
            constructor <;> omega

theorem hex_upper_lt {v : Nat} (hv : v < 16) : hex_upper v < 128 := by
  unfold hex_upper; split <;> omega

theorem hex_form_ascii (data : List Nat) (hb : IsBytes data) : ∀ c ∈ hex_form data, c < 128 := by
  induction data with
  | nil => simp [hex_form]
  | cons x rest ih =>
    have hx : x < 256 := hb x (by simp)
    have h1 := hex_upper_lt (show x / 16 < 16 by omega)
    have h2 := hex_upper_lt (show x % 16 < 16 by omega)
    cases rest with
    | nil =>
      intro c hc
      simp only [hex_form, byte_digits, List.mem_cons, List.mem_singleton, List.not_mem_nil,
        or_false] at hc
      rcases hc with rfl | rfl <;> assumption
    | cons y rest =>
      have ih' := ih (fun z hz => hb z (List.mem_cons_of_mem _ hz))
      intro c hc
      simp only [hex_form, byte_digits, List.cons_append, List.nil_append,
        List.mem_cons] at hc
      rcases hc with rfl | rfl | rfl | hc
      · exact h1
      · exact h2
      · omega
      · exact ih' c hc

theorem utf8_valid_cstr_of_ascii (l : List Nat) (h : ∀ c ∈ l, c < 128) :
    utf8_valid (cstr l) = true :=
  utf8_valid_of_ascii _ (fun c hc => h c (mem_of_mem_cstr hc))

/-- Step 2 of the pipeline gives a well-formed UTF-8 string for whatever
buffer and target. -/
theorem convert_step2_valid (bin : List Nat) (to_type : EncodingType) (hb : IsBytes bin) :
    ∃ out, (convert_step2 bin to_type).1 = some out ∧ utf8_valid out = true := by
  unfold convert_step2
  by_cases hto : to_type = HEX
  · rw [if_pos hto]
    refine ⟨_, rfl, ?_⟩
    rw [binary_to_hex_eq]
    exact utf8_valid_cstr_of_ascii _ (hex_form_ascii bin hb)
  · rw [if_neg hto]
    cases to_type with
    | HEX => exact absurd rfl hto
    | ASCII =>
      refine ⟨_, rfl, ?_⟩
      apply utf8_valid_cstr_of_ascii
      intro c hc
      simp only [List.mem_map] at hc
      obtain ⟨a, _, rfl⟩ := hc
      split <;> omega
    | UTF8 => exact ⟨_, rfl, utf8_text_loop_valid _ _ _ (by decide)⟩
    | UTF16LE => exact ⟨_, rfl, utf16_text_loop_valid _ _ _ _ _ (by decide)⟩
    | UTF16BE => exact ⟨_, rfl, utf16_text_loop_valid _ _ _ _ _ (by decide)⟩
    | UTF32LE => exact ⟨_, rfl, by decide⟩
    | UTF32BE => exact ⟨_, rfl, by decide⟩
    | ISO8859_1 => exact ⟨_, rfl, by decide⟩
    | ISO8859_15 => exact ⟨_, rfl, by decide⟩
    | SHIFT_JIS => exact ⟨_, rfl, by decide⟩
    | EUC_JP => exact ⟨_, rfl, by decide⟩
    | KOI8_R => exact ⟨_, rfl, by decide⟩

theorem hex_decode_loop_bytes (clean_hex : List Nat) (n i : Nat) (acc r : List Nat)
    (h : hex_decode_loop clean_hex n i acc = some r) (hacc : IsBytes acc) : IsBytes r := by
  induction n generalizing i acc with
  | zero =>
    simp only [hex_decode_loop, Option.some.injEq] at h
    subst h
    exact hacc
  | succ n ih =>
    unfold hex_decode_loop at h
    simp only [] at h
    split at h
    · cases h
    · apply ih _ _ h
      intro x hx
      rw [List.mem_append] at hx
      rcases hx with hx | hx
      · exact hacc x hx
      · simp only [List.mem_singleton] at hx
        subst hx
        exact Nat.mod_lt _ (by decide)

theorem hex_to_binary_bytes (input b : List Nat) (h : (hex_to_binary input).1 = some b) :
    IsBytes b := by
  unfold hex_to_binary at h
  split at h
  · cases h
  · simp only [] at h
    split at h
    · cases h
    · split at h
      · cases h
      · rename_i bin hbin
        simp only [g_malloc_buffer] at h
        split at h
        · cases h
        · injection h with h
          subst h
          exact hex_decode_loop_bytes _ _ _ _ _ hbin (by intro x hx; cases hx)

theorem utf8_code_points_scalar (fuel : Nat) (text : List Nat) :
    ∀ cp ∈ utf8_code_points fuel text, IsScalar cp := by
  induction fuel generalizing text with
  | zero => intro cp h; simp [utf8_code_points] at h
  | succ fuel ih =>
    cases text with
    | nil => intro cp h; simp [utf8_code_points] at h
    | cons b rest =>
      intro cp h
      unfold utf8_code_points at h
      split at h
      · cases h
      · rename_i ch hch
        rw [List.mem_cons] at h
        rcases h with rfl | h
        · exact get_char_validated_scalar _ _ hch
        · exact ih _ cp h

theorem g_convert_bytes (le : Bool) (text b : List Nat)
    (h : g_convert_utf8_to_utf16 le text = some b) : IsBytes b := by
  unfold g_convert_utf8_to_utf16 at h
  split at h
  · injection h with h
    subst h
    intro x hx
    simp only [List.mem_flatten, List.mem_map] at hx
    obtain ⟨l, ⟨u, ⟨us, ⟨cp, hcp, rfl⟩, hu⟩, rfl⟩, hx⟩ := hx
    have hs := utf8_code_points_scalar _ _ cp hcp
    obtain ⟨hs1, hs2⟩ := hs
    have hu' : u < 65536 := by
      unfold utf16_units at hu
      split at hu
      · simp only [List.mem_singleton] at hu; omega
      · simp only [List.mem_cons, List.mem_singleton, List.not_mem_nil, or_false] at hu
        omega
    unfold unit_bytes at hx
    split at hx <;>
      simp only [List.mem_cons, List.mem_singleton, List.not_mem_nil, or_false] at hx <;>
      omega
  · cases h

theorem text_to_binary_bytes (input b : List Nat) (from_type : EncodingType)
    (hin : IsCStr input) (h : (text_to_binary input from_type).1 = some b) : IsBytes b := by
  have hbytes : IsBytes input := fun x hx => (hin x hx).2
  have hbuf : ∀ c, g_malloc_buffer input = some c → IsBytes c := by
    intro c hc
    simp only [g_malloc_buffer] at hc
    split at hc
    · cases hc
    · injection hc with hc; subst hc; exact hbytes
  cases from_type with
  | ASCII => exact hbuf b (by simpa [text_to_binary] using h)
  | UTF8 =>
    simp only [text_to_binary] at h
    split at h
    · exact hbuf b h
    · cases h
  | UTF16LE =>
    simp only [text_to_binary] at h
    split at h
    · cases h
    · rename_i conv hconv
      injection h with h
      subst h
      exact g_convert_bytes _ _ _ hconv
  | UTF16BE =>
    simp only [text_to_binary] at h
    split at h
    · cases h
    · rename_i conv hconv
      injection h with h
      subst h
      exact g_convert_bytes _ _ _ hconv
  | HEX => simp [text_to_binary] at h
  | UTF32LE => simp [text_to_binary] at h
  | UTF32BE => simp [text_to_binary] at h
  | ISO8859_1 => simp [text_to_binary] at h
  | ISO8859_15 => simp [text_to_binary] at h
  | SHIFT_JIS => simp [text_to_binary] at h
  | EUC_JP => simp [text_to_binary] at h
  | KOI8_R => simp [text_to_binary] at h

theorem recovery_walk_valid (l : List Nat) : utf8_valid (recovery_walk l) = true := by
  induction l using recovery_walk.induct with
  | case1 => decide
  | case2 c rest hs ih => unfold recovery_walk; simpa [hs] using ih
  | case3 c hs => unfold recovery_walk; simp only [hs, if_false]; decide
  | case4 c hs d rest2 ih =>
    unfold recovery_walk
    simp only [hs, Bool.false_eq_true, if_false]
    apply utf8_valid_append _ ih
    split
    · rename_i hx
      have hc := (isxdigit_iff c).1 hx.1
      have hd := (isxdigit_iff d).1 hx.2
      apply utf8_valid_of_ascii
      intro x hx
      simp only [List.mem_cons, List.mem_singleton, List.not_mem_nil, or_false] at hx
      rcases hx with rfl | rfl <;> omega
    · decide

/-- C10: for every input string and every pair of source and target
encodings, `convert_between_formats` stores a string to `*output` (never
`NULL`), and that string is well-formed UTF-8. -/
theorem convert_output_is_utf8 (input : List Nat) (from_type to_type : EncodingType)
    (hin : IsCStr input) :
    ∃ out, (convert_between_formats input from_type to_type).1 = some out ∧
      utf8_valid out = true := by
  by_cases hne : input = []
  · subst hne
    exact ⟨[], by simp [convert_between_formats], by decide⟩
  · by_cases hf : from_type = HEX
    · subst hf
      rcases hb : (hex_to_binary input).1 with _ | b
      · rw [convert_hex_null input to_type hne hb]
        exact ⟨_, rfl, recovery_walk_valid input⟩
      · rw [convert_hex_some input to_type b hne hb]
        exact convert_step2_valid b to_type (hex_to_binary_bytes input b hb)
    · rcases hb : (text_to_binary input from_type).1 with _ | b
      · rw [convert_text_null input from_type to_type hne hf hb]
        exact ⟨_, rfl, by decide⟩
      · rw [convert_text_some input from_type to_type b hne hf hb]
        exact convert_step2_valid b to_type (text_to_binary_bytes input b from_type hin hb)

/-- Witness of `convert_output_is_utf8` at the text `[0xC3, 0x28]`, which is
not UTF-8, with source `ASCII` and target `UTF16LE`. -/
theorem convert_output_is_utf8_witness :
    IsCStr [0xC3, 0x28] ∧
    ∃ out, (convert_between_formats [0xC3, 0x28] ASCII UTF16LE).1 = some out ∧
      utf8_valid out = true :=
  ⟨by decide, convert_output_is_utf8 [0xC3, 0x28] ASCII UTF16LE (by decide)⟩

/-! ## The claims on the output length and on the ASCII and UTF-8 decoders -/

theorem convert_step2_len (bin : List Nat) (to_type : EncodingType) :
    ∃ out, convert_step2 bin to_type = (some out, out.length) := by
  unfold convert_step2
  by_cases hto : to_type = HEX
  · rw [if_pos hto]
    exact ⟨_, rfl⟩
  · rw [if_neg hto]
    rcases binary_to_text bin to_type with _ | text
    · exact ⟨CONVERSION_ERROR, by decide⟩
    · exact ⟨_, rfl⟩

/-- C11: for every input and every pair of encodings the length that
`convert_between_formats` stores to `*output_len` is the byte length of the
string it stores to `*output`, on every return path; it is not a count of
code points (`"ZZ"` from `HEX` gives two placeholders, 6 bytes). -/
theorem convert_output_len_is_byte_length :
    (∀ (input : List Nat) (from_type to_type : EncodingType),
      ∃ out, convert_between_formats input from_type to_type = (some out, out.length)) ∧
    convert_between_formats (ascii "ZZ") HEX UTF8 = (some (PLACEHOLDER ++ PLACEHOLDER), 6) ∧
    code_point_count (PLACEHOLDER ++ PLACEHOLDER) = 2 := by
  refine ⟨?_, by decide, by decide⟩
  intro input from_type to_type
  by_cases hne : input = []
  · subst hne
    exact ⟨[], by simp [convert_between_formats]⟩
  · by_cases hf : from_type = HEX
    · subst hf
      rcases hb : (hex_to_binary input).1 with _ | b
      · exact ⟨_, convert_hex_null input to_type hne hb⟩
      · rw [convert_hex_some input to_type b hne hb]
        exact convert_step2_len b to_type
    · rcases hb : (text_to_binary input from_type).1 with _ | b
      · exact ⟨CONVERSION_ERROR_INPUT, by
          rw [convert_text_null input from_type to_type hne hf hb]; decide⟩
      · rw [convert_text_some input from_type to_type b hne hf hb]
        exact convert_step2_len b to_type

/-- C12: for every byte buffer of length `n`, `binary_to_text` with encoding
`ASCII` returns a text of exactly `n` bytes, none of them NUL, whose byte
`i` is the input byte `i` when that byte is in `32..126` and `'?'` (0x3F)
otherwise. -/
theorem binary_to_text_ascii (data : List Nat) :
    ∃ text, binary_to_text data ASCII = some text ∧ text.length = data.length ∧
      cstr text = text ∧
      ∀ i < data.length,
        text.getD i 0 = if 32 ≤ data.getD i 0 ∧ data.getD i 0 ≤ 126 then data.getD i 0 else 63 := by
  refine ⟨_, rfl, by simp, ?_, ?_⟩
  · apply cstr_of_no_nul
    intro c hc
    simp only [List.mem_map] at hc
    obtain ⟨a, _, rfl⟩ := hc
    split <;> omega
  · intro i hi
    rw [List.getD_eq_getElem _ _ (by simpa using hi), List.getD_eq_getElem _ _ hi,
      List.getElem_map]
    by_cases h : 32 ≤ data[i] ∧ data[i] ≤ 126
    · rw [if_pos h, if_neg (by omega)]
    · rw [if_neg h, if_pos (by omega)]

/-- Witness of `binary_to_text_ascii` at the buffer `[0x48, 0x00, 0x7F, 0xE9]`. -/
theorem binary_to_text_ascii_witness :
    binary_to_text [0x48, 0x00, 0x7F, 0xE9] ASCII = some [0x48, 0x3F, 0x3F, 0x3F] ∧
    ∃ text, binary_to_text [0x48, 0x00, 0x7F, 0xE9] ASCII = some text ∧ text.length = 4 ∧
      cstr text = text ∧
      ∀ i < 4,
        text.getD i 0 = if 32 ≤ [0x48, 0x00, 0x7F, 0xE9].getD i 0 ∧
            [0x48, 0x00, 0x7F, 0xE9].getD i 0 ≤ 126
          then [0x48, 0x00, 0x7F, 0xE9].getD i 0 else 63 :=
  ⟨by decide, binary_to_text_ascii [0x48, 0x00, 0x7F, 0xE9]⟩

theorem g_utf8_validate_one (b : Nat) :
    g_utf8_validate [b] = true ↔ 1 ≤ b ∧ b ≤ 127 := by
  simp only [g_utf8_validate, utf8_valid, List.all_cons, List.all_nil, Bool.and_true,
    List.foldl_cons, List.foldl_nil, Bool.and_eq_true, bne_iff_ne, ne_eq,
    decide_eq_true_eq, utf8_step]
  constructor
  · rintro ⟨h0, h⟩
    by_cases hb : b < 0x80
    · omega
    · rw [if_neg hb] at h
      split_ifs at h
  · rintro ⟨h1, h2⟩
    exact ⟨by omega, by rw [if_pos (by omega)]⟩

/-- What the `UTF8` loop of `binary_to_text` appends for one byte: the byte
itself when it is in `1..127`, a placeholder otherwise. -/
theorem utf8_text_loop_eq (fuel : Nat) (p result : List Nat) (h : p.length ≤ fuel) :
    utf8_text_loop fuel p result
      = result ++ (p.map (fun b => if 1 ≤ b ∧ b ≤ 127 then [b] else PLACEHOLDER)).flatten := by
  induction fuel generalizing p result with
  | zero =>
    have hp : p = [] := List.length_eq_zero.1 (by omega)
    subst hp
    simp [utf8_text_loop]
  | succ fuel ih =>
    cases p with
    | nil => simp [utf8_text_loop]
    | cons b rest =>
      have hr : rest.length ≤ fuel := by simpa using h
      unfold utf8_text_loop
      simp only [List.take_succ_cons, List.take_zero, List.map_cons, List.flatten_cons]
      by_cases hb : 1 ≤ b ∧ b ≤ 127
      · have hv := (g_utf8_validate_one b).2 hb
        have hg : g_utf8_get_char_validated (b :: rest) = some b := by
          simp only [g_utf8_get_char_validated]
          rw [if_pos (by omega), if_neg (by omega)]
        have hs : g_utf8_skip b = 1 := by
          unfold g_utf8_skip; rw [if_pos (by omega)]
        have hu : unichar_to_utf8 b = [b] := by
          unfold unichar_to_utf8; rw [if_pos (by omega)]
        rw [if_pos hv, if_pos hb]
        simp only [hg, hs, hu, List.drop_succ_cons, List.drop_zero]
        rw [ih _ _ hr, List.append_assoc]
      · have hv : ¬ g_utf8_validate [b] = true := fun hc => hb ((g_utf8_validate_one b).1 hc)
        rw [if_neg hv, if_neg hb, ih _ _ hr, List.append_assoc]

/-- C13, the code at the failing input: the three bytes `E2 98 BA` are
well-formed UTF-8 without NUL, the UTF-8 form of U+263A, yet `binary_to_text`
with encoding `UTF8` returns three placeholders for them; on any buffer it
keeps the bytes `1..127` and replaces every other byte by one placeholder. -/
theorem binary_to_text_utf8_multibyte :
    g_utf8_validate [0xE2, 0x98, 0xBA] = true ∧
    unichar_to_utf8 0x263A = [0xE2, 0x98, 0xBA] ∧
    binary_to_text [0xE2, 0x98, 0xBA] UTF8
      = some (PLACEHOLDER ++ PLACEHOLDER ++ PLACEHOLDER) ∧
    binary_to_text [0xE2, 0x98, 0xBA] UTF8 ≠ some [0xE2, 0x98, 0xBA] ∧
    ∀ data : List Nat,
      binary_to_text data UTF8
        = some (data.map (fun b => if 1 ≤ b ∧ b ≤ 127 then [b] else PLACEHOLDER)).flatten := by
  refine ⟨by decide, by decide, by decide, by decide, ?_⟩
  intro data
  simp only [binary_to_text]
  rw [utf8_text_loop_eq _ _ _ (Nat.le_refl _), List.nil_append]

/-! ## Lemmas on the UTF-16 walks -/

theorem drop_eq_getD_cons (data : List Nat) (i : Nat) (h : i < data.length) :
    data.drop i = data.getD i 0 :: data.drop (i + 1) := by
  rw [List.drop_eq_getElem_cons h, List.getD_eq_getElem _ _ h]

theorem code_unit_at_eq (le : Bool) (data : List Nat) (i : Nat) :
    code_unit_at le data i = unit16 le (data.getD i 0) (data.getD (i + 1) 0) := by
  cases le <;> rfl

theorem short_cases (rest : List Nat) (h : rest.length < 2) :
    rest = [] ∨ ∃ x, rest = [x] := by
  match rest, h with
  | [], _ => exact Or.inl rfl
  | [x], _ => exact Or.inr ⟨x, rfl⟩
  | _ :: _ :: _, h => simp at h; omega

theorem list_shape (rest : List Nat) :
    rest = [] ∨ (∃ x, rest = [x]) ∨ ∃ x y r, rest = x :: y :: r := by
  match rest with
  | [] => exact Or.inl rfl
  | [x] => exact Or.inr (Or.inl ⟨x, rfl⟩)
  | x :: y :: r => exact Or.inr (Or.inr ⟨x, y, r, rfl⟩)

theorem utf16_decode_not_high (le : Bool) (b0 b1 : Nat) (rest : List Nat)
    (hh : ¬ (0xD800 ≤ unit16 le b0 b1 ∧ unit16 le b0 b1 ≤ 0xDBFF)) :
    utf16_decode le (b0 :: b1 :: rest)
      = (if 0xDC00 ≤ unit16 le b0 b1 ∧ unit16 le b0 b1 ≤ 0xDFFF then PLACEHOLDER
          else unichar_to_utf8 (unit16 le b0 b1)) ++ utf16_decode le rest := by
  rcases list_shape rest with rfl | ⟨x, rfl⟩ | ⟨x, y, r, rfl⟩ <;>
    simp only [utf16_decode, if_neg hh] <;> split <;> rfl

theorem utf16_decode_high_pair (le : Bool) (b0 b1 b2 b3 : Nat) (rest2 : List Nat)
    (hh : 0xD800 ≤ unit16 le b0 b1 ∧ unit16 le b0 b1 ≤ 0xDBFF)
    (hl : 0xDC00 ≤ unit16 le b2 b3 ∧ unit16 le b2 b3 ≤ 0xDFFF) :
    utf16_decode le (b0 :: b1 :: b2 :: b3 :: rest2)
      = unichar_to_utf8
          (0x10000 + ((unit16 le b0 b1 - 0xD800) <<< 10) + (unit16 le b2 b3 - 0xDC00))
        ++ utf16_decode le rest2 := by
  rw [utf16_decode, if_pos hh, if_pos hl]

theorem utf16_decode_high_unpaired (le : Bool) (b0 b1 b2 b3 : Nat) (rest2 : List Nat)
    (hh : 0xD800 ≤ unit16 le b0 b1 ∧ unit16 le b0 b1 ≤ 0xDBFF)
    (hl : ¬ (0xDC00 ≤ unit16 le b2 b3 ∧ unit16 le b2 b3 ≤ 0xDFFF)) :
    utf16_decode le (b0 :: b1 :: b2 :: b3 :: rest2)
      = PLACEHOLDER ++ utf16_decode le (b2 :: b3 :: rest2) := by
  rw [utf16_decode, if_pos hh, if_neg hl]

theorem utf16_decode_high_short (le : Bool) (b0 b1 : Nat) (rest : List Nat)
    (hh : 0xD800 ≤ unit16 le b0 b1 ∧ unit16 le b0 b1 ≤ 0xDBFF) (hs : rest.length < 2) :
    utf16_decode le (b0 :: b1 :: rest) = PLACEHOLDER := by
  rcases short_cases rest hs with rfl | ⟨x, rfl⟩ <;> rw [utf16_decode, if_pos hh]

theorem utf16_count_not_high (le : Bool) (b0 b1 : Nat) (rest : List Nat)
    (hh : ¬ (0xD800 ≤ unit16 le b0 b1 ∧ unit16 le b0 b1 ≤ 0xDBFF)) :
    utf16_count le (b0 :: b1 :: rest) = utf16_count le rest + 1 := by
  rcases list_shape rest with rfl | ⟨x, rfl⟩ | ⟨x, y, r, rfl⟩ <;>
    simp only [utf16_count, if_neg hh]

theorem utf16_count_high_pair (le : Bool) (b0 b1 b2 b3 : Nat) (rest2 : List Nat)
    (hh : 0xD800 ≤ unit16 le b0 b1 ∧ unit16 le b0 b1 ≤ 0xDBFF)
    (hl : 0xDC00 ≤ unit16 le b2 b3 ∧ unit16 le b2 b3 ≤ 0xDFFF) :
    utf16_count le (b0 :: b1 :: b2 :: b3 :: rest2) = utf16_count le rest2 + 1 := by
  rw [utf16_count, if_pos hh, if_pos hl]

theorem utf16_count_high_unpaired (le : Bool) (b0 b1 b2 b3 : Nat) (rest2 : List Nat)
    (hh : 0xD800 ≤ unit16 le b0 b1 ∧ unit16 le b0 b1 ≤ 0xDBFF)
    (hl : ¬ (0xDC00 ≤ unit16 le b2 b3 ∧ unit16 le b2 b3 ≤ 0xDFFF)) :
    utf16_count le (b0 :: b1 :: b2 :: b3 :: rest2)
      = utf16_count le (b2 :: b3 :: rest2) + 1 := by
  rw [utf16_count, if_pos hh, if_neg hl]

theorem utf16_count_high_short (le : Bool) (b0 b1 : Nat) (rest : List Nat)
    (hh : 0xD800 ≤ unit16 le b0 b1 ∧ unit16 le b0 b1 ≤ 0xDBFF) (hs : rest.length < 2) :
    utf16_count le (b0 :: b1 :: rest) = utf16_count le rest + 1 := by
  rcases short_cases rest hs with rfl | ⟨x, rfl⟩ <;>
    simp only [utf16_count, if_pos hh]

theorem drop_two (data : List Nat) (i : Nat) (h : i + 1 < data.length) :
    data.drop i = data.getD i 0 :: data.getD (i + 1) 0 :: data.drop (i + 2) := by
  rw [drop_eq_getD_cons data i (by omega), drop_eq_getD_cons data (i + 1) h]

/-- The `UTF16LE` and `UTF16BE` loops of `binary_to_text` append the walk
`utf16_decode` of the bytes from `i` on. -/
theorem utf16_text_loop_eq (le : Bool) (data : List Nat) (fuel i : Nat) (result : List Nat)
    (h : data.length - i ≤ fuel) :
    utf16_text_loop le data fuel i result = result ++ utf16_decode le (data.drop i) := by
  induction fuel generalizing i result with
  | zero =>
    have : data.drop i = [] := List.drop_eq_nil_of_le (by omega)
    simp [utf16_text_loop, this, utf16_decode]
  | succ fuel ih =>
    unfold utf16_text_loop
    simp only []
    by_cases hi : i < data.length
    · simp only [hi, not_true_eq_false, if_false]
      by_cases h1 : i + 1 ≥ data.length
      · have hd : data.drop (i + 1) = [] := List.drop_eq_nil_of_le (by omega)
        rw [if_pos h1, drop_eq_getD_cons data i hi, hd]
        simp [utf16_decode]
      · rw [if_neg h1, drop_two data i (by omega), code_unit_at_eq, code_unit_at_eq]
        by_cases hh : 0xD800 ≤ unit16 le (data.getD i 0) (data.getD (i + 1) 0) ∧
            unit16 le (data.getD i 0) (data.getD (i + 1) 0) ≤ 0xDBFF
        · rw [if_pos hh]
          by_cases h3 : i + 3 ≥ data.length
          · rw [if_pos h3, utf16_decode_high_short le _ _ _ hh
              (by rw [List.length_drop]; omega)]
          · rw [if_neg h3, drop_two data (i + 2) (by omega)]
            by_cases hl : 0xDC00 ≤ unit16 le (data.getD (i + 2) 0) (data.getD (i + 2 + 1) 0) ∧
                unit16 le (data.getD (i + 2) 0) (data.getD (i + 2 + 1) 0) ≤ 0xDFFF
            · rw [if_pos hl, ih _ _ (by omega), utf16_decode_high_pair le _ _ _ _ _ hh hl,
                List.append_assoc]
            · rw [if_neg hl, ih _ _ (by omega), utf16_decode_high_unpaired le _ _ _ _ _ hh hl,
                ← drop_two data (i + 2) (by omega), List.append_assoc]
        · rw [if_neg hh, utf16_decode_not_high le _ _ _ hh]
          by_cases hl : 0xDC00 ≤ unit16 le (data.getD i 0) (data.getD (i + 1) 0) ∧
              unit16 le (data.getD i 0) (data.getD (i + 1) 0) ≤ 0xDFFF
          · rw [if_pos hl, if_pos hl, ih _ _ (by omega), List.append_assoc]
          · rw [if_neg hl, if_neg hl, ih _ _ (by omega), List.append_assoc]
    · have : data.drop i = [] := List.drop_eq_nil_of_le (by omega)
      simp [hi, this, utf16_decode]

theorem binary_to_text_utf16 (le : Bool) (data : List Nat) :
    binary_to_text data (utf16_encoding le) = some (utf16_decode le data) := by
  cases le <;>
    simp only [utf16_encoding, binary_to_text, if_true, Bool.false_eq_true, if_false] <;>
    rw [utf16_text_loop_eq _ _ _ _ _ (by omega)] <;> simp

/-- The counting loop of `update_counter_labels` adds the walk `utf16_count`
of the bytes from `i` on. -/
theorem count_utf16_loop_eq (le : Bool) (data : List Nat) (fuel i chars : Nat)
    (h : data.length - i ≤ fuel) :
    count_utf16_loop le data fuel i chars = chars + utf16_count le (data.drop i) := by
  induction fuel generalizing i chars with
  | zero =>
    have : data.drop i = [] := List.drop_eq_nil_of_le (by omega)
    simp [count_utf16_loop, this, utf16_count]
  | succ fuel ih =>
    unfold count_utf16_loop
    simp only []
    by_cases hi : i < data.length
    · simp only [hi, not_true_eq_false, if_false]
      by_cases h1 : i + 1 ≥ data.length
      · have hd : data.drop (i + 1) = [] := List.drop_eq_nil_of_le (by omega)
        rw [if_pos h1, drop_eq_getD_cons data i hi, hd]
        simp [utf16_count]
      · rw [if_neg h1, drop_two data i (by omega), code_unit_at_eq, code_unit_at_eq]
        by_cases hh : 0xD800 ≤ unit16 le (data.getD i 0) (data.getD (i + 1) 0) ∧
            unit16 le (data.getD i 0) (data.getD (i + 1) 0) ≤ 0xDBFF
        · rw [if_pos hh]
          by_cases h3 : i + 3 < data.length
          · rw [if_pos h3, drop_two data (i + 2) (by omega),
              show i + 2 + 2 = i + 4 from rfl]
            by_cases hl : 0xDC00 ≤ unit16 le (data.getD (i + 2) 0) (data.getD (i + 2 + 1) 0) ∧
                unit16 le (data.getD (i + 2) 0) (data.getD (i + 2 + 1) 0) ≤ 0xDFFF
            · rw [if_pos hl, ih _ _ (by omega), utf16_count_high_pair le _ _ _ _ _ hh hl]
              omega
            · rw [if_neg hl, ih _ _ (by omega), utf16_count_high_unpaired le _ _ _ _ _ hh hl,
                show i + 4 = i + 2 + 2 from rfl, ← drop_two data (i + 2) (by omega)]
              omega
          · rw [if_neg h3, ih _ _ (by omega), utf16_count_high_short le _ _ _ hh
              (by rw [List.length_drop]; omega)]
            omega
        · rw [if_neg hh, ih _ _ (by omega), utf16_count_not_high le _ _ _ hh]
          omega
    · have : data.drop i = [] := List.drop_eq_nil_of_le (by omega)
      simp [hi, this, utf16_count]

theorem utf16_decode_append (le : Bool) (n : Nat) :
    ∀ (pre : List Nat) (x0 x1 : Nat) (rest : List Nat), pre.length = 2 * n →
      ¬ (0xDC00 ≤ unit16 le x0 x1 ∧ unit16 le x0 x1 ≤ 0xDFFF) →
      utf16_decode le (pre ++ x0 :: x1 :: rest)
        = utf16_decode le pre ++ utf16_decode le (x0 :: x1 :: rest) := by
  induction n using Nat.strong_induction_on with
  | _ n ih =>
    intro pre x0 x1 rest hlen hx
    rcases list_shape pre with rfl | ⟨x, rfl⟩ | ⟨b0, b1, pre1, rfl⟩
    · simp [utf16_decode]
    · simp at hlen; omega
    · have hlen1 : pre1.length = 2 * (n - 1) := by simp at hlen; omega
      have hn : 0 < n := by simp at hlen; omega
      by_cases hh : 0xD800 ≤ unit16 le b0 b1 ∧ unit16 le b0 b1 ≤ 0xDBFF
      · rcases list_shape pre1 with rfl | ⟨x, rfl⟩ | ⟨b2, b3, pre2, rfl⟩
        · rw [utf16_decode_high_short le b0 b1 [] hh (by simp)]
          exact utf16_decode_high_unpaired le b0 b1 x0 x1 rest hh hx
        · simp at hlen1; omega
        · have hlen2 : pre2.length = 2 * (n - 2) := by simp at hlen1; omega
          by_cases hl : 0xDC00 ≤ unit16 le b2 b3 ∧ unit16 le b2 b3 ≤ 0xDFFF
          · simp only [List.cons_append]
            rw [utf16_decode_high_pair le _ _ _ _ _ hh hl,
              utf16_decode_high_pair le _ _ _ _ _ hh hl,
              ih (n - 2) (by simp at hlen1; omega) pre2 x0 x1 rest hlen2 hx,
              List.append_assoc]
          · simp only [List.cons_append]
            rw [utf16_decode_high_unpaired le _ _ _ _ _ hh hl,
              utf16_decode_high_unpaired le _ _ _ _ _ hh hl]
            have := ih (n - 1) (by omega) (b2 :: b3 :: pre2) x0 x1 rest hlen1 hx
            simp only [List.cons_append] at this
            rw [this, List.append_assoc]
      · simp only [List.cons_append]
        rw [utf16_decode_not_high le _ _ _ hh, utf16_decode_not_high le _ _ _ hh,
          ih (n - 1) (by omega) pre1 x0 x1 rest hlen1 hx, List.append_assoc]

/-- Decoding after a prefix of complete units: when the bytes that follow
start with a unit that is not a low surrogate, the walk decodes the prefix
and then the rest. -/
theorem utf16_decode_append_even (le : Bool) (pre : List Nat) (x0 x1 : Nat) (rest : List Nat)
    (hpre : pre.length % 2 = 0)
    (hx : ¬ (0xDC00 ≤ unit16 le x0 x1 ∧ unit16 le x0 x1 ≤ 0xDFFF)) :
    utf16_decode le (pre ++ x0 :: x1 :: rest)
      = utf16_decode le pre ++ utf16_decode le (x0 :: x1 :: rest) :=
  utf16_decode_append le (pre.length / 2) pre x0 x1 rest (by omega) hx

theorem utf16_decode_bmp (le : Bool) (n : Nat) :
    ∀ data : List Nat, data.length = 2 * n →
      (∀ u ∈ code_units le data, ¬ (0xD800 ≤ u ∧ u ≤ 0xDFFF)) →
      utf16_decode le data = ((code_units le data).map unichar_to_utf8).flatten := by
  induction n with
  | zero =>
    intro data hlen _
    have : data = [] := List.length_eq_zero.1 (by omega)
    subst this
    simp [utf16_decode, code_units]
  | succ n ih =>
    intro data hlen hu
    rcases list_shape data with rfl | ⟨x, rfl⟩ | ⟨b0, b1, rest, rfl⟩
    · simp at hlen
    · simp at hlen; omega
    · have h0 := hu (unit16 le b0 b1) (by simp [code_units])
      have hrest := ih rest (by simp at hlen; omega)
        (fun u hu' => hu u (by simp [code_units, hu']))
      rw [utf16_decode_not_high le _ _ _ (by omega), if_neg (by omega), hrest]
      simp [code_units]

theorem code_point_count_append (a b : List Nat) :
    code_point_count (a ++ b) = code_point_count a + code_point_count b := by
  simp [code_point_count]

theorem code_point_count_unichar (ch : Nat) (h : ch < 0x200000) :
    code_point_count (unichar_to_utf8 ch) = 1 := by
  unfold unichar_to_utf8 code_point_count
  split_ifs <;> simp only [List.filter_cons, List.filter_nil] <;>
    (repeat' split) <;> simp only [List.length_cons, List.length_nil] <;>
    simp only [decide_eq_true_eq, ne_eq, Decidable.not_not] at * <;> omega

theorem unit16_lt (le : Bool) (b0 b1 : Nat) : unit16 le b0 b1 < 65536 := by
  unfold unit16
  split <;> exact Nat.mod_lt _ (by decide)

theorem cut_pair_tail_cons (le : Bool) (b0 b1 : Nat) (rest : List Nat) :
    cut_pair_tail le (b0 :: b1 :: rest)
      = if rest.length = 1 then
          decide (0xD800 ≤ unit16 le b0 b1 ∧ unit16 le b0 b1 ≤ 0xDBFF)
        else cut_pair_tail le rest := by
  by_cases h1 : rest.length = 1
  · rw [if_pos h1]
    simp only [cut_pair_tail, List.length_cons, h1, code_unit_at_eq]
    simp
  · rw [if_neg h1]
    by_cases h3 : 3 ≤ rest.length
    · have e : (b0 :: b1 :: rest).length - 3 = (rest.length - 3) + 1 + 1 := by
        simp only [List.length_cons]; omega
      have key : code_unit_at le (b0 :: b1 :: rest) ((b0 :: b1 :: rest).length - 3)
          = code_unit_at le rest (rest.length - 3) := by
        rw [code_unit_at_eq, code_unit_at_eq, e]
        simp only [List.getD_cons_succ]
      rw [Bool.eq_iff_iff]
      simp only [cut_pair_tail, decide_eq_true_eq, key]
      simp only [List.length_cons]
      constructor <;> rintro ⟨a, b, c⟩ <;> exact ⟨by omega, by omega, c⟩
    · have hf1 : cut_pair_tail le rest = false := by
        simp only [cut_pair_tail, decide_eq_false_iff_not]
        omega
      have hf2 : cut_pair_tail le (b0 :: b1 :: rest) = false := by
        simp only [cut_pair_tail, decide_eq_false_iff_not, List.length_cons]
        omega
      rw [hf1, hf2]

theorem cut_pair_tail_short (le : Bool) (l : List Nat) (h : l.length < 3) :
    cut_pair_tail le l = false := by
  simp only [cut_pair_tail, decide_eq_false_iff_not]
  omega

theorem cut_pair_tail_skip (le : Bool) (b0 b1 : Nat) (rest : List Nat)
    (h : ¬ (0xD800 ≤ unit16 le b0 b1 ∧ unit16 le b0 b1 ≤ 0xDBFF) ∨ 2 ≤ rest.length) :
    cut_pair_tail le (b0 :: b1 :: rest) = cut_pair_tail le rest := by
  rw [cut_pair_tail_cons]
  by_cases h1 : rest.length = 1
  · rw [if_pos h1, cut_pair_tail_short le rest (by omega)]
    rcases h with h | h
    · simp [h]
    · omega
  · rw [if_neg h1]

/-- The counting walk counts the code points of the decoding walk, and one
more when the buffer ends in a cut pair. -/
theorem utf16_count_eq (le : Bool) (n : Nat) :
    ∀ l : List Nat, l.length = n →
      utf16_count le l
        = code_point_count (utf16_decode le l) + (if cut_pair_tail le l then 1 else 0) := by
  induction n using Nat.strong_induction_on with
  | _ n ih =>
    intro l hlen
    have hph : code_point_count PLACEHOLDER = 1 := by decide
    rcases list_shape l with rfl | ⟨x, rfl⟩ | ⟨b0, b1, rest, rfl⟩
    · simp [utf16_count, utf16_decode, cut_pair_tail_short, code_point_count]
    · simp [utf16_count, utf16_decode, cut_pair_tail_short, hph]
    · have hr : rest.length < n := by simp only [List.length_cons] at hlen; omega
      by_cases hh : 0xD800 ≤ unit16 le b0 b1 ∧ unit16 le b0 b1 ≤ 0xDBFF
      · rcases list_shape rest with rfl | ⟨x, rfl⟩ | ⟨b2, b3, rest2, rfl⟩
        · rw [utf16_count_high_short le _ _ _ hh (by simp),
            utf16_decode_high_short le _ _ _ hh (by simp),
            cut_pair_tail_short le _ (by simp), hph]
          simp [utf16_count]
        · rw [utf16_count_high_short le _ _ _ hh (by simp),
            utf16_decode_high_short le _ _ _ hh (by simp), cut_pair_tail_cons, hph]
          simp [hh, utf16_count]
        · by_cases hl : 0xDC00 ≤ unit16 le b2 b3 ∧ unit16 le b2 b3 ≤ 0xDFFF
          · have hu := unit16_lt le b0 b1
            have hv := unit16_lt le b2 b3
            have hcut : cut_pair_tail le (b0 :: b1 :: b2 :: b3 :: rest2)
                = cut_pair_tail le rest2 := by
              rw [cut_pair_tail_skip le b0 b1 _ (Or.inr (by simp)),
                cut_pair_tail_skip le b2 b3 _ (Or.inl (by omega))]
            rw [utf16_count_high_pair le _ _ _ _ _ hh hl,
              utf16_decode_high_pair le _ _ _ _ _ hh hl, code_point_count_append,
              code_point_count_unichar _ (by rw [Nat.shiftLeft_eq]; omega),
              ih rest2.length (by simp only [List.length_cons] at hr; omega) rest2 rfl, hcut]
            omega
          · rw [utf16_count_high_unpaired le _ _ _ _ _ hh hl,
              utf16_decode_high_unpaired le _ _ _ _ _ hh hl, code_point_count_append,
              ih (b2 :: b3 :: rest2).length hr (b2 :: b3 :: rest2) rfl,
              cut_pair_tail_skip le b0 b1 _ (Or.inr (by simp)), hph]
            omega
      · have hc : code_point_count
            (if 0xDC00 ≤ unit16 le b0 b1 ∧ unit16 le b0 b1 ≤ 0xDFFF then PLACEHOLDER
              else unichar_to_utf8 (unit16 le b0 b1)) = 1 := by
          split
          · exact hph
          · exact code_point_count_unichar _ (by have := unit16_lt le b0 b1; omega)
        rw [utf16_count_not_high le _ _ _ hh, utf16_decode_not_high le _ _ _ hh,
          code_point_count_append, hc, ih rest.length hr rest rfl,
          cut_pair_tail_skip le b0 b1 _ (Or.inl hh)]
        omega

theorem unichar_no_nul (ch : Nat) (h : ch ≠ 0) : ∀ c ∈ unichar_to_utf8 ch, c ≠ 0 := by
  intro c hc
  unfold unichar_to_utf8 at hc
  split_ifs at hc <;>
    simp only [List.mem_cons, List.mem_singleton, List.not_mem_nil, or_false] at hc <;>
    omega

theorem update_counter_labels_utf16 (text b : List Nat) (le : Bool)
    (h : (hex_to_binary text).1 = some b) :
    update_counter_labels text HEX (utf16_encoding le) = (utf16_count le b, b.length) := by
  rcases hb : hex_to_binary text with ⟨_ | b2, n⟩
  · rw [hb] at h; cases h
  · rw [hb] at h
    simp only [Option.some.injEq] at h
    subst h
    have hn := hex_to_binary_length text b2 n hb
    subst hn
    cases le <;>
      simp [update_counter_labels, hb, utf16_encoding, count_utf16_loop_eq]

theorem cstr_cons (c : Nat) (t : List Nat) (hc : c ≠ 0) : cstr (c :: t) = c :: cstr t := by
  unfold cstr
  rw [List.takeWhile_cons]
  simp [hc]

theorem cstr_append_no_nul (a t : List Nat) (ha : ∀ c ∈ a, c ≠ 0) :
    cstr (a ++ t) = a ++ cstr t := by
  induction a with
  | nil => rfl
  | cons c a ih =>
    rw [List.cons_append, cstr_cons c _ (ha c (List.mem_cons_self _ _)),
      ih (fun d hd => ha d (List.mem_cons_of_mem _ hd)), List.cons_append]

theorem cstr_nul (t : List Nat) : cstr (0 :: t) = [] := by
  unfold cstr
  rw [List.takeWhile_cons]
  simp

/-- The C string in the UTF-8 encoding of a list of code points: the
encoding of the code points before the first `0`. -/
theorem cstr_flatten_unichar (us : List Nat) :
    cstr ((us.map unichar_to_utf8).flatten)
      = ((us.takeWhile (fun u => u != 0)).map unichar_to_utf8).flatten := by
  induction us with
  | nil => rfl
  | cons u t ih =>
    rw [List.map_cons, List.flatten_cons, List.takeWhile_cons]
    by_cases hu : u = 0
    · subst hu
      have h0 : unichar_to_utf8 0 = [0] := by decide
      rw [h0, List.singleton_append, cstr_nul]
      simp
    · have hb : (u != 0) = true := by simpa using hu
      rw [hb, if_pos rfl, List.map_cons, List.flatten_cons,
        cstr_append_no_nul _ _ (unichar_no_nul u hu), ih]

/-! ## The claims on the UTF-16 decoder and on the UTF-16 counter -/

/-- C14, counterexample: the little-endian buffer `41 00 00 00 42 00` has
even length and the units `0x0041 0x0000 0x0042`, none a surrogate, whose
UTF-8 encoding is `41 00 42`; the text that `binary_to_text` returns is the C
string `"A"`: the NUL byte written for the unit `0x0000` ends it.  The hex
text `"41 00 00 00 42 00"` converted to `UTF16LE` gives `"A"` of length 1. -/
theorem binary_to_text_utf16_nul_unit :
    [0x41, 0x00, 0x00, 0x00, 0x42, 0x00].length % 2 = 0 ∧
    (∀ u ∈ code_units true [0x41, 0x00, 0x00, 0x00, 0x42, 0x00],
      ¬ (0xD800 ≤ u ∧ u ≤ 0xDFFF)) ∧
    ((code_units true [0x41, 0x00, 0x00, 0x00, 0x42, 0x00]).map unichar_to_utf8).flatten
      = [0x41, 0x00, 0x42] ∧
    (binary_to_text [0x41, 0x00, 0x00, 0x00, 0x42, 0x00] UTF16LE).map cstr
      = some (ascii "A") ∧
    convert_between_formats (ascii "41 00 00 00 42 00") HEX UTF16LE
      = (some (ascii "A"), 1) := by
  decide

/-- C14, amended: for every even-length buffer whose 16-bit code units
(little-endian for `UTF16LE`, big-endian for `UTF16BE`) all lie outside
`0xD800..0xDFFF` and are not `0x0000`, the text that `binary_to_text` returns
(the bytes of its buffer before the first NUL byte) is the UTF-8 encoding of
those units taken as code points, in order, with nothing else.  With a unit
`0x0000` among them the returned text is the encoding of the units before the
first one.  Bytes `[0x41, 0x00]` as UTF-16LE give `"A"`. -/
theorem binary_to_text_utf16_bmp :
    (∀ (le : Bool) (data : List Nat), data.length % 2 = 0 →
      (∀ u ∈ code_units le data, ¬ (0xD800 ≤ u ∧ u ≤ 0xDFFF)) →
      (∀ u ∈ code_units le data, u ≠ 0) →
      (binary_to_text data (utf16_encoding le)).map cstr
        = some ((code_units le data).map unichar_to_utf8).flatten) ∧
    (∀ (le : Bool) (data : List Nat), data.length % 2 = 0 →
      (∀ u ∈ code_units le data, ¬ (0xD800 ≤ u ∧ u ≤ 0xDFFF)) →
      binary_to_text data (utf16_encoding le)
        = some ((code_units le data).map unichar_to_utf8).flatten ∧
      (binary_to_text data (utf16_encoding le)).map cstr
        = some ((((code_units le data).takeWhile (fun u => u != 0)).map
            unichar_to_utf8).flatten)) ∧
    (binary_to_text [0x41, 0x00] UTF16LE).map cstr = some (ascii "A") ∧
    (binary_to_text [0x00, 0x41] UTF16BE).map cstr = some (ascii "A") := by
  have hraw : ∀ (le : Bool) (data : List Nat), data.length % 2 = 0 →
      (∀ u ∈ code_units le data, ¬ (0xD800 ≤ u ∧ u ≤ 0xDFFF)) →
      binary_to_text data (utf16_encoding le)
        = some ((code_units le data).map unichar_to_utf8).flatten := by
    intro le data hlen hu
    rw [binary_to_text_utf16 le data,
      utf16_decode_bmp le (data.length / 2) data (by omega) hu]
  refine ⟨?_, ?_, by decide, by decide⟩
  · intro le data hlen hu hz
    rw [hraw le data hlen hu, Option.map_some']
    congr 1
    apply cstr_of_no_nul
    intro c hc
    simp only [List.mem_flatten, List.mem_map] at hc
    obtain ⟨l, ⟨u, hu2, rfl⟩, hc⟩ := hc
    exact unichar_no_nul u (hz u hu2) c hc
  · intro le data hlen hu
    refine ⟨hraw le data hlen hu, ?_⟩
    rw [hraw le data hlen hu, Option.map_some', cstr_flatten_unichar]

/-- Witness of `binary_to_text_utf16_bmp` at the big-endian buffer
`[0x26, 0x3A, 0x00, 0x41]`, the units `0x263A 0x0041`. -/
theorem binary_to_text_utf16_bmp_witness :
    (binary_to_text [0x26, 0x3A, 0x00, 0x41] (utf16_encoding false)).map cstr
      = some ((code_units false [0x26, 0x3A, 0x00, 0x41]).map unichar_to_utf8).flatten :=
  binary_to_text_utf16_bmp.1 false [0x26, 0x3A, 0x00, 0x41] (by decide) (by decide)
    (by decide)

/-- C15: a high-surrogate unit `h` immediately followed by a low-surrogate
unit `l` makes the UTF-16 loop append the single code point
`0x10000 + ((h - 0xD800) << 10) + (l - 0xDC00)` and go on 4 bytes further;
after any prefix of complete units the text is the text of the prefix, this
code point, and the text of what follows the pair; `[0x3D,0xD8,0x00,0xDE]` as
UTF-16LE decodes to exactly U+1F600. -/
theorem utf16_surrogate_pair :
    (∀ (le : Bool) (data : List Nat) (fuel i : Nat) (result : List Nat),
      i + 3 < data.length →
      0xD800 ≤ code_unit_at le data i ∧ code_unit_at le data i ≤ 0xDBFF →
      0xDC00 ≤ code_unit_at le data (i + 2) ∧ code_unit_at le data (i + 2) ≤ 0xDFFF →
      utf16_text_loop le data (fuel + 1) i result
        = utf16_text_loop le data fuel (i + 4)
            (result ++ unichar_to_utf8 (0x10000 + ((code_unit_at le data i - 0xD800) <<< 10)
              + (code_unit_at le data (i + 2) - 0xDC00)))) ∧
    (∀ (le : Bool) (pre post : List Nat) (b0 b1 b2 b3 : Nat), pre.length % 2 = 0 →
      0xD800 ≤ unit16 le b0 b1 ∧ unit16 le b0 b1 ≤ 0xDBFF →
      0xDC00 ≤ unit16 le b2 b3 ∧ unit16 le b2 b3 ≤ 0xDFFF →
      ∃ tpre tpost, binary_to_text pre (utf16_encoding le) = some tpre ∧
        binary_to_text post (utf16_encoding le) = some tpost ∧
        binary_to_text (pre ++ b0 :: b1 :: b2 :: b3 :: post) (utf16_encoding le)
          = some (tpre ++ unichar_to_utf8
              (0x10000 + ((unit16 le b0 b1 - 0xD800) <<< 10) + (unit16 le b2 b3 - 0xDC00))
            ++ tpost)) ∧
    binary_to_text [0x3D, 0xD8, 0x00, 0xDE] UTF16LE = some (unichar_to_utf8 0x1F600) ∧
    binary_to_text [0xD8, 0x3D, 0xDE, 0x00] UTF16BE = some (unichar_to_utf8 0x1F600) := by
  refine ⟨?_, ?_, by decide, by decide⟩
  · intro le data fuel i result hi hh hl
    rw [utf16_text_loop]
    simp only []
    rw [if_neg (by omega), if_neg (by omega), if_pos hh, if_neg (by omega), if_pos hl]
  · intro le pre post b0 b1 b2 b3 hpre hh hl
    refine ⟨_, _, binary_to_text_utf16 le pre, binary_to_text_utf16 le post, ?_⟩
    rw [binary_to_text_utf16, utf16_decode_append_even le pre b0 b1 _ hpre (by omega),
      utf16_decode_high_pair le _ _ _ _ _ hh hl, List.append_assoc]

/-- Witness of `utf16_surrogate_pair` at the little-endian buffer
`"A"`, U+1F600, `"B"`. -/
theorem utf16_surrogate_pair_witness :
    ∃ tpre tpost, binary_to_text [0x41, 0x00] (utf16_encoding true) = some tpre ∧
      binary_to_text [0x42, 0x00] (utf16_encoding true) = some tpost ∧
      binary_to_text ([0x41, 0x00] ++ 0x3D :: 0xD8 :: 0x00 :: 0xDE :: [0x42, 0x00])
          (utf16_encoding true)
        = some (tpre ++ unichar_to_utf8
            (0x10000 + ((unit16 true 0x3D 0xD8 - 0xD800) <<< 10) + (unit16 true 0x00 0xDE - 0xDC00))
          ++ tpost) :=
  utf16_surrogate_pair.2.1 true [0x41, 0x00] [0x42, 0x00] 0x3D 0xD8 0x00 0xDE
    (by decide) (by decide) (by decide)

/-- C16: in UTF-16LE/BE decode a high surrogate whose next complete unit is
not a low surrogate, and a low surrogate that the walk meets (one not
consumed by a high surrogate before it), each make the loop append exactly
one placeholder and go on 2 bytes further, so the next unit is decoded on its
own; a lone high surrogate followed by `"A"` gives one placeholder, then
`"A"`. -/
theorem utf16_unpaired_surrogate :
    (∀ (le : Bool) (data : List Nat) (fuel i : Nat) (result : List Nat),
      i + 3 < data.length →
      0xD800 ≤ code_unit_at le data i ∧ code_unit_at le data i ≤ 0xDBFF →
      ¬ (0xDC00 ≤ code_unit_at le data (i + 2) ∧ code_unit_at le data (i + 2) ≤ 0xDFFF) →
      utf16_text_loop le data (fuel + 1) i result
        = utf16_text_loop le data fuel (i + 2) (result ++ PLACEHOLDER)) ∧
    (∀ (le : Bool) (data : List Nat) (fuel i : Nat) (result : List Nat),
      i + 1 < data.length →
      0xDC00 ≤ code_unit_at le data i ∧ code_unit_at le data i ≤ 0xDFFF →
      utf16_text_loop le data (fuel + 1) i result
        = utf16_text_loop le data fuel (i + 2) (result ++ PLACEHOLDER)) ∧
    (∀ (le : Bool) (pre post : List Nat) (b0 b1 b2 b3 : Nat), pre.length % 2 = 0 →
      0xD800 ≤ unit16 le b0 b1 ∧ unit16 le b0 b1 ≤ 0xDBFF →
      ¬ (0xDC00 ≤ unit16 le b2 b3 ∧ unit16 le b2 b3 ≤ 0xDFFF) →
      ∃ tpre trest, binary_to_text pre (utf16_encoding le) = some tpre ∧
        binary_to_text (b2 :: b3 :: post) (utf16_encoding le) = some trest ∧
        binary_to_text (pre ++ b0 :: b1 :: b2 :: b3 :: post) (utf16_encoding le)
          = some (tpre ++ PLACEHOLDER ++ trest)) ∧
    (∀ (le : Bool) (rest : List Nat) (b0 b1 : Nat),
      0xDC00 ≤ unit16 le b0 b1 ∧ unit16 le b0 b1 ≤ 0xDFFF →
      ∃ trest, binary_to_text rest (utf16_encoding le) = some trest ∧
        binary_to_text (b0 :: b1 :: rest) (utf16_encoding le) = some (PLACEHOLDER ++ trest)) ∧
    binary_to_text [0x3D, 0xD8, 0x41, 0x00] UTF16LE = some (PLACEHOLDER ++ ascii "A") ∧
    binary_to_text [0xD8, 0x3D, 0x00, 0x41] UTF16BE = some (PLACEHOLDER ++ ascii "A") := by
  refine ⟨?_, ?_, ?_, ?_, by decide, by decide⟩
  · intro le data fuel i result hi hh hl
    rw [utf16_text_loop]
    simp only []
    rw [if_neg (by omega), if_neg (by omega), if_pos hh, if_neg (by omega), if_neg hl]
  · intro le data fuel i result hi hl
    rw [utf16_text_loop]
    simp only []
    rw [if_neg (by omega), if_neg (by omega), if_neg (by omega), if_pos hl]
  · intro le pre post b0 b1 b2 b3 hpre hh hl
    refine ⟨_, _, binary_to_text_utf16 le pre, binary_to_text_utf16 le _, ?_⟩
    rw [binary_to_text_utf16, utf16_decode_append_even le pre b0 b1 _ hpre (by omega),
      utf16_decode_high_unpaired le _ _ _ _ _ hh hl, List.append_assoc]
  · intro le rest b0 b1 hl
    refine ⟨_, binary_to_text_utf16 le rest, ?_⟩
    rw [binary_to_text_utf16, utf16_decode_not_high le _ _ _ (by omega), if_pos hl]

/-- Witness of `utf16_unpaired_surrogate` at a big-endian buffer with a high
surrogate between `"A"` and `"B"`. -/
theorem utf16_unpaired_surrogate_witness :
    ∃ tpre trest, binary_to_text [0x00, 0x41] (utf16_encoding false) = some tpre ∧
      binary_to_text (0x00 :: 0x42 :: []) (utf16_encoding false) = some trest ∧
      binary_to_text ([0x00, 0x41] ++ 0xD8 :: 0x3D :: 0x00 :: 0x42 :: [])
          (utf16_encoding false)
        = some (tpre ++ PLACEHOLDER ++ trest) :=
  utf16_unpaired_surrogate.2.2.1 false [0x00, 0x41] [] 0xD8 0x3D 0x00 0x42
    (by decide) (by decide) (by decide)

/-- C17, counterexample: the 3-byte buffer `[0x3D, 0xD8, 0x41]` in UTF-16LE
decodes to one placeholder, not two: the loop stops at the high surrogate
that has fewer than 2 bytes after it. -/
theorem utf16_cut_pair_one_placeholder :
    0xD800 ≤ unit16 true 0x3D 0xD8 ∧ unit16 true 0x3D 0xD8 ≤ 0xDBFF ∧
    binary_to_text [0x3D, 0xD8, 0x41] UTF16LE = some PLACEHOLDER ∧
    binary_to_text [0x3D, 0xD8, 0x41] UTF16LE ≠ some (PLACEHOLDER ++ PLACEHOLDER) := by
  decide

/-- C17, amended: in UTF-16LE/BE decode, when a high-surrogate unit is
followed by fewer than 2 further bytes, the loop appends one placeholder for
it and stops; a single byte that follows yields nothing more. -/
theorem utf16_cut_pair_stops :
    (∀ (le : Bool) (data : List Nat) (fuel i : Nat) (result : List Nat),
      i + 1 < data.length → data.length ≤ i + 3 →
      0xD800 ≤ code_unit_at le data i ∧ code_unit_at le data i ≤ 0xDBFF →
      utf16_text_loop le data (fuel + 1) i result = result ++ PLACEHOLDER) ∧
    (∀ (le : Bool) (pre tail : List Nat) (b0 b1 : Nat), pre.length % 2 = 0 →
      tail.length < 2 →
      0xD800 ≤ unit16 le b0 b1 ∧ unit16 le b0 b1 ≤ 0xDBFF →
      ∃ tpre, binary_to_text pre (utf16_encoding le) = some tpre ∧
        binary_to_text (pre ++ b0 :: b1 :: tail) (utf16_encoding le)
          = some (tpre ++ PLACEHOLDER)) := by
  refine ⟨?_, ?_⟩
  · intro le data fuel i result hi hlen hh
    rw [utf16_text_loop]
    simp only []
    rw [if_neg (by omega), if_neg (by omega), if_pos hh, if_pos (by omega)]
  · intro le pre tail b0 b1 hpre htail hh
    refine ⟨_, binary_to_text_utf16 le pre, ?_⟩
    rw [binary_to_text_utf16, utf16_decode_append_even le pre b0 b1 _ hpre (by omega),
      utf16_decode_high_short le _ _ _ hh htail]

/-- Witness of `utf16_cut_pair_stops` at the little-endian buffer `"A"`, a
high surrogate, one more byte. -/
theorem utf16_cut_pair_stops_witness :
    ∃ tpre, binary_to_text [0x41, 0x00] (utf16_encoding true) = some tpre ∧
      binary_to_text ([0x41, 0x00] ++ 0x3D :: 0xD8 :: [0x42]) (utf16_encoding true)
        = some (tpre ++ PLACEHOLDER) :=
  utf16_cut_pair_stops.2 true [0x41, 0x00] [0x42] 0x3D 0xD8 (by decide) (by decide) (by decide)

/-- C18, the code at the failing input: for the hex text `"3D D8 41"` and
peer `UTF16LE` the counter gives `chars = 2`, `bytes = 3`, while
`binary_to_text` produces one code point (one placeholder) for the same
bytes.  On every buffer that does not end in a cut pair the two walks agree
(`"41 00"` gives `chars = 1`, `bytes = 2`); on every buffer that does, the
counter is one above the decoder. -/
theorem counter_utf16_walk :
    update_counter_labels (ascii "3D D8 41") HEX UTF16LE = (2, 3) ∧
    (hex_to_binary (ascii "3D D8 41")).1 = some [0x3D, 0xD8, 0x41] ∧
    binary_to_text [0x3D, 0xD8, 0x41] UTF16LE = some PLACEHOLDER ∧
    code_point_count PLACEHOLDER = 1 ∧
    update_counter_labels (ascii "41 00") HEX UTF16LE = (1, 2) ∧
    (∀ (text b : List Nat) (le : Bool), (hex_to_binary text).1 = some b →
      ∃ t, binary_to_text b (utf16_encoding le) = some t ∧
        update_counter_labels text HEX (utf16_encoding le)
          = (code_point_count t + (if cut_pair_tail le b then 1 else 0), b.length)) := by
  refine ⟨by decide, by decide, by decide, by decide, by decide, ?_⟩
  intro text b le hb
  refine ⟨_, binary_to_text_utf16 le b, ?_⟩
  rw [update_counter_labels_utf16 text b le hb, utf16_count_eq le b.length b rfl]

/-- Witness of `counter_utf16_walk` at the hex text `"D8 3D DE 00 26 3A"` and
peer `UTF16BE`. -/
theorem counter_utf16_walk_witness :
    ∃ t, binary_to_text [0xD8, 0x3D, 0xDE, 0x00, 0x26, 0x3A] (utf16_encoding false) = some t ∧
      update_counter_labels (ascii "D8 3D DE 00 26 3A") HEX (utf16_encoding false)
        = (code_point_count t
            + (if cut_pair_tail false [0xD8, 0x3D, 0xDE, 0x00, 0x26, 0x3A] then 1 else 0),
          [0xD8, 0x3D, 0xDE, 0x00, 0x26, 0x3A].length) :=
  counter_utf16_walk.2.2.2.2.2 (ascii "D8 3D DE 00 26 3A") [0xD8, 0x3D, 0xDE, 0x00, 0x26, 0x3A]
    false (by decide)

/-! ## Lemmas on `g_utf8_strlen` -/

theorem g_utf8_strlen_fuel (fuel1 fuel2 : Nat) (p : List Nat)
    (h1 : p.length ≤ fuel1) (h2 : p.length ≤ fuel2) :
    g_utf8_strlen fuel1 p = g_utf8_strlen fuel2 p := by
  induction fuel1 generalizing fuel2 p with
  | zero =>
    have hp : p = [] := List.length_eq_zero.1 (by omega)
    subst hp
    cases fuel2 <;> simp [g_utf8_strlen]
  | succ fuel1 ih =>
    cases p with
    | nil => cases fuel2 <;> simp [g_utf8_strlen]
    | cons b rest =>
      cases fuel2 with
      | zero => simp at h2
      | succ fuel2 =>
        have hs := g_utf8_skip_pos b
        have hd1 : ((b :: rest).drop (g_utf8_skip b)).length ≤ fuel1 := by
          rw [List.length_drop, List.length_cons]
          simp only [List.length_cons] at h1
          omega
        have hd2 : ((b :: rest).drop (g_utf8_skip b)).length ≤ fuel2 := by
          rw [List.length_drop, List.length_cons]
          simp only [List.length_cons] at h2
          omega
        unfold g_utf8_strlen
        split
        · rfl
        · rw [ih _ _ hd1 hd2]

theorem utf8_foldl_bad (l : List Nat) : l.foldl utf8_step Utf8State.bad = Utf8State.bad := by
  induction l with
  | nil => rfl
  | cons b t ih => rw [List.foldl_cons]; exact ih

theorem utf8_cont_step (n lo hi : Nat) (l : List Nat)
    (h : l.foldl utf8_step (Utf8State.cont (n + 1) lo hi) = Utf8State.start) :
    ∃ b t, l = b :: t ∧ lo ≤ b ∧ b ≤ hi ∧
      t.foldl utf8_step
        (if n = 0 then Utf8State.start else Utf8State.cont n 0x80 0xBF) = Utf8State.start := by
  cases l with
  | nil => cases h
  | cons b t =>
    refine ⟨b, t, rfl, ?_⟩
    rw [List.foldl_cons] at h
    simp only [utf8_step] at h
    by_cases hr : lo ≤ b ∧ b ≤ hi
    · rw [if_pos hr] at h
      refine ⟨hr.1, hr.2, ?_⟩
      by_cases hn : n = 0
      · subst hn
        simpa using h
      · rw [if_neg hn]
        rw [if_neg (by omega)] at h
        simpa using h
    · rw [if_neg hr, utf8_foldl_bad] at h
      cases h

theorem utf8_cont1 (lo hi : Nat) (l : List Nat) (hlo : 0x80 ≤ lo) (hhi : hi ≤ 0xBF)
    (h : l.foldl utf8_step (Utf8State.cont 1 lo hi) = Utf8State.start) :
    ∃ b1 t, l = b1 :: t ∧ (0x80 ≤ b1 ∧ b1 ≤ 0xBF) ∧
      t.foldl utf8_step Utf8State.start = Utf8State.start := by
  obtain ⟨b, t, rfl, h1, h2, h3⟩ := utf8_cont_step 0 lo hi l h
  exact ⟨b, t, rfl, ⟨by omega, by omega⟩, by simpa using h3⟩

theorem utf8_cont2 (lo hi : Nat) (l : List Nat) (hlo : 0x80 ≤ lo) (hhi : hi ≤ 0xBF)
    (h : l.foldl utf8_step (Utf8State.cont 2 lo hi) = Utf8State.start) :
    ∃ b1 b2 t, l = b1 :: b2 :: t ∧ (0x80 ≤ b1 ∧ b1 ≤ 0xBF) ∧ (0x80 ≤ b2 ∧ b2 ≤ 0xBF) ∧
      t.foldl utf8_step Utf8State.start = Utf8State.start := by
  obtain ⟨b, t, rfl, h1, h2, h3⟩ := utf8_cont_step 1 lo hi l h
  obtain ⟨b2, t2, rfl, hb2, ht2⟩ := utf8_cont1 0x80 0xBF t (by omega) (by omega)
    (by simpa using h3)
  exact ⟨b, b2, t2, rfl, ⟨by omega, by omega⟩, hb2, ht2⟩

theorem utf8_cont3 (lo hi : Nat) (l : List Nat) (hlo : 0x80 ≤ lo) (hhi : hi ≤ 0xBF)
    (h : l.foldl utf8_step (Utf8State.cont 3 lo hi) = Utf8State.start) :
    ∃ b1 b2 b3 t, l = b1 :: b2 :: b3 :: t ∧ (0x80 ≤ b1 ∧ b1 ≤ 0xBF) ∧
      (0x80 ≤ b2 ∧ b2 ≤ 0xBF) ∧ (0x80 ≤ b3 ∧ b3 ≤ 0xBF) ∧
      t.foldl utf8_step Utf8State.start = Utf8State.start := by
  obtain ⟨b, t, rfl, h1, h2, h3⟩ := utf8_cont_step 2 lo hi l h
  obtain ⟨b2, b3, t2, rfl, hb2, hb3, ht2⟩ := utf8_cont2 0x80 0xBF t (by omega) (by omega)
    (by simpa using h3)
  exact ⟨b, b2, b3, t2, rfl, ⟨by omega, by omega⟩, hb2, hb3, ht2⟩

/-- The shape of a well-formed UTF-8 text at its first byte: one code point
of 1 to 4 bytes, then a well-formed text. -/
theorem utf8_valid_head (b0 : Nat) (rest : List Nat)
    (h : utf8_valid (b0 :: rest) = true) :
    (b0 < 0x80 ∧ utf8_valid rest = true) ∨
    (0xC2 ≤ b0 ∧ b0 ≤ 0xDF ∧ ∃ b1 t, rest = b1 :: t ∧ (0x80 ≤ b1 ∧ b1 ≤ 0xBF) ∧
      utf8_valid t = true) ∨
    (0xE0 ≤ b0 ∧ b0 ≤ 0xEF ∧ ∃ b1 b2 t, rest = b1 :: b2 :: t ∧ (0x80 ≤ b1 ∧ b1 ≤ 0xBF) ∧
      (0x80 ≤ b2 ∧ b2 ≤ 0xBF) ∧ utf8_valid t = true) ∨
    (0xF0 ≤ b0 ∧ b0 ≤ 0xF4 ∧ ∃ b1 b2 b3 t, rest = b1 :: b2 :: b3 :: t ∧
      (0x80 ≤ b1 ∧ b1 ≤ 0xBF) ∧ (0x80 ≤ b2 ∧ b2 ≤ 0xBF) ∧ (0x80 ≤ b3 ∧ b3 ≤ 0xBF) ∧
      utf8_valid t = true) := by
  simp only [utf8_valid_iff] at h ⊢
  rw [List.foldl_cons] at h
  simp only [utf8_step] at h
  split_ifs at h with c1 c2 c3 c4 c5 c6 c7 c8
  · exact Or.inl ⟨c1, h⟩
  · exact Or.inr (Or.inl ⟨c2.1, c2.2, utf8_cont1 _ _ _ (by omega) (by omega) h⟩)
  · exact Or.inr (Or.inr (Or.inl ⟨by omega, by omega,
      utf8_cont2 _ _ _ (by omega) (by omega) h⟩))
  · exact Or.inr (Or.inr (Or.inl ⟨by omega, by omega,
      utf8_cont2 _ _ _ (by omega) (by omega) h⟩))
  · exact Or.inr (Or.inr (Or.inl ⟨by omega, by omega,
      utf8_cont2 _ _ _ (by omega) (by omega) h⟩))
  · exact Or.inr (Or.inr (Or.inr ⟨by omega, by omega,
      utf8_cont3 _ _ _ (by omega) (by omega) h⟩))
  · exact Or.inr (Or.inr (Or.inr ⟨by omega, by omega,
      utf8_cont3 _ _ _ (by omega) (by omega) h⟩))
  · exact Or.inr (Or.inr (Or.inr ⟨by omega, by omega,
      utf8_cont3 _ _ _ (by omega) (by omega) h⟩))
  · rw [utf8_foldl_bad] at h
    cases h

theorem code_point_count_cons (b : Nat) (t : List Nat) :
    code_point_count (b :: t)
      = (if 0x80 ≤ b ∧ b ≤ 0xBF then 0 else 1) + code_point_count t := by
  simp only [code_point_count, List.filter_cons]
  by_cases h : 0x80 ≤ b ∧ b ≤ 0xBF
  · have : b / 64 = 2 := by omega
    simp [h, this]
  · have : b / 64 ≠ 2 := by omega
    simp [h, this]
    omega

/-- On a well-formed UTF-8 text without NUL byte `g_utf8_strlen` counts the
code points. -/
theorem g_utf8_strlen_valid (fuel : Nat) (b : List Nat) (hf : b.length ≤ fuel)
    (hv : utf8_valid b = true) (hz : ∀ c ∈ b, c ≠ 0) :
    g_utf8_strlen fuel b = code_point_count b := by
  induction fuel generalizing b with
  | zero =>
    have : b = [] := List.length_eq_zero.1 (by omega)
    subst this
    rfl
  | succ fuel ih =>
    cases b with
    | nil => rfl
    | cons b0 rest =>
      have h0 : b0 ≠ 0 := hz b0 (by simp)
      have hlen : rest.length ≤ fuel := by simpa using hf
      unfold g_utf8_strlen
      rw [if_neg h0]
      rcases utf8_valid_head b0 rest hv with ⟨c, hr⟩ | ⟨c1, c2, b1, t, rfl, hb1, ht⟩ |
        ⟨c1, c2, b1, b2, t, rfl, hb1, hb2, ht⟩ | ⟨c1, c2, b1, b2, b3, t, rfl, hb1, hb2, hb3, ht⟩
      · have hs : g_utf8_skip b0 = 1 := by unfold g_utf8_skip; rw [if_pos (by omega)]
        rw [hs, List.drop_succ_cons, List.drop_zero,
          ih rest hlen hr (fun c hc => hz c (List.mem_cons_of_mem _ hc)),
          code_point_count_cons, if_neg (by omega)]
        omega
      · have hs : g_utf8_skip b0 = 2 := by
          unfold g_utf8_skip; rw [if_neg (by omega), if_pos (by omega)]
        rw [hs]
        simp only [List.drop_succ_cons, List.drop_zero]
        rw [ih t (by simp at hlen; omega) ht (fun c hc => hz c (by simp [hc])),
          code_point_count_cons, code_point_count_cons, if_neg (by omega), if_pos hb1]
        omega
      · have hs : g_utf8_skip b0 = 3 := by
          unfold g_utf8_skip; rw [if_neg (by omega), if_neg (by omega), if_pos (by omega)]
        rw [hs]
        simp only [List.drop_succ_cons, List.drop_zero]
        rw [ih t (by simp at hlen; omega) ht (fun c hc => hz c (by simp [hc])),
          code_point_count_cons, code_point_count_cons, code_point_count_cons,
          if_neg (by omega), if_pos hb1, if_pos hb2]
        omega
      · have hs : g_utf8_skip b0 = 4 := by
          unfold g_utf8_skip
          rw [if_neg (by omega), if_neg (by omega), if_neg (by omega), if_pos (by omega)]
        rw [hs]
        simp only [List.drop_succ_cons, List.drop_zero]
        rw [ih t (by simp at hlen; omega) ht (fun c hc => hz c (by simp [hc])),
          code_point_count_cons, code_point_count_cons, code_point_count_cons,
          code_point_count_cons, if_neg (by omega), if_pos hb1, if_pos hb2, if_pos hb3]
        omega

theorem iconv_utf8_valid_iff (l : List Nat) :
    iconv_utf8_valid l = true ↔ l.foldl iconv_utf8_step Utf8State.start = Utf8State.start := by
  simp [iconv_utf8_valid]

theorem iconv_foldl_bad (l : List Nat) :
    l.foldl iconv_utf8_step Utf8State.bad = Utf8State.bad := by
  induction l with
  | nil => rfl
  | cons b t ih => rw [List.foldl_cons]; exact ih

/-- The bytes that complete a form of the `iconv` reader: as many
continuation bytes as the lead byte announced. -/
theorem iconv_cont (n : Nat) :
    ∀ (lo hi : Nat) (l : List Nat), 0x80 ≤ lo → hi ≤ 0xBF →
      l.foldl iconv_utf8_step (Utf8State.cont (n + 1) lo hi) = Utf8State.start →
      ∃ pre t, l = pre ++ t ∧ pre.length = n + 1 ∧ (∀ c ∈ pre, 0x80 ≤ c ∧ c ≤ 0xBF) ∧
        t.foldl iconv_utf8_step Utf8State.start = Utf8State.start := by
  induction n with
  | zero =>
    intro lo hi l hlo hhi h
    cases l with
    | nil => cases h
    | cons b t =>
      rw [List.foldl_cons] at h
      simp only [iconv_utf8_step] at h
      by_cases hr : lo ≤ b ∧ b ≤ hi
      · rw [if_pos hr, if_pos (by omega)] at h
        refine ⟨[b], t, rfl, rfl, ?_, h⟩
        intro c hc
        rw [List.mem_singleton] at hc
        subst hc
        omega
      · rw [if_neg hr, iconv_foldl_bad] at h
        cases h
  | succ n ih =>
    intro lo hi l hlo hhi h
    cases l with
    | nil => cases h
    | cons b t =>
      rw [List.foldl_cons] at h
      simp only [iconv_utf8_step] at h
      by_cases hr : lo ≤ b ∧ b ≤ hi
      · rw [if_pos hr, if_neg (by omega)] at h
        obtain ⟨pre, t2, rfl, hl, hc, ht⟩ := ih 0x80 0xBF t (by omega) (by omega) h
        refine ⟨b :: pre, t2, rfl, by simp [hl], ?_, ht⟩
        intro c hc2
        rcases List.mem_cons.1 hc2 with rfl | hc2
        · omega
        · exact hc c hc2
      · rw [if_neg hr, iconv_foldl_bad] at h
        cases h

set_option maxHeartbeats 2000000 in
/-- The shape of bytes accepted by the `iconv` reader at their first byte:
one form of as many bytes as `g_utf8_skip` tells for its lead byte, then
accepted bytes. -/
theorem iconv_valid_head (b0 : Nat) (rest : List Nat)
    (h : iconv_utf8_valid (b0 :: rest) = true) :
    ¬ (0x80 ≤ b0 ∧ b0 ≤ 0xBF) ∧
    ∃ pre t, rest = pre ++ t ∧ pre.length + 1 = g_utf8_skip b0 ∧
      (∀ c ∈ pre, 0x80 ≤ c ∧ c ≤ 0xBF) ∧ iconv_utf8_valid t = true := by
  simp only [iconv_utf8_valid_iff] at h ⊢
  rw [List.foldl_cons] at h
  simp only [iconv_utf8_step] at h
  have key : ∀ (n lo hi : Nat), 0x80 ≤ lo → hi ≤ 0xBF → g_utf8_skip b0 = n + 2 →
      rest.foldl iconv_utf8_step (Utf8State.cont (n + 1) lo hi) = Utf8State.start →
      ∃ pre t, rest = pre ++ t ∧ pre.length + 1 = g_utf8_skip b0 ∧
        (∀ c ∈ pre, 0x80 ≤ c ∧ c ≤ 0xBF) ∧
        t.foldl iconv_utf8_step Utf8State.start = Utf8State.start := by
    intro n lo hi hlo hhi hs hf
    obtain ⟨pre, t, rfl, hl, hc, ht⟩ := iconv_cont n lo hi rest hlo hhi hf
    exact ⟨pre, t, rfl, by omega, hc, ht⟩
  have skip : ∀ k : Nat,
      (k = 1 → b0 < 0xC0) → (k = 2 → 0xC0 ≤ b0 ∧ b0 < 0xE0) →
      (k = 3 → 0xE0 ≤ b0 ∧ b0 < 0xF0) → (k = 4 → 0xF0 ≤ b0 ∧ b0 < 0xF8) →
      (k = 5 → 0xF8 ≤ b0 ∧ b0 < 0xFC) → (k = 6 → 0xFC ≤ b0 ∧ b0 < 0xFE) →
      1 ≤ k → k ≤ 6 → g_utf8_skip b0 = k := by
    intro k h1 h2 h3 h4 h5 h6 hk1 hk6
    unfold g_utf8_skip
    split_ifs <;> omega
  split_ifs at h
  · refine ⟨by omega, [], rest, rfl, ?_, by simp, h⟩
    rw [skip 1 (by omega) (by omega) (by omega) (by omega) (by omega) (by omega)
      (by omega) (by omega)]
    rfl
  · exact ⟨by omega, key 0 _ _ (by omega) (by omega)
      (skip 2 (by omega) (by omega) (by omega) (by omega) (by omega) (by omega)
        (by omega) (by omega)) h⟩
  · exact ⟨by omega, key 1 _ _ (by omega) (by omega)
      (skip 3 (by omega) (by omega) (by omega) (by omega) (by omega) (by omega)
        (by omega) (by omega)) h⟩
  · exact ⟨by omega, key 1 _ _ (by omega) (by omega)
      (skip 3 (by omega) (by omega) (by omega) (by omega) (by omega) (by omega)
        (by omega) (by omega)) h⟩
  · exact ⟨by omega, key 1 _ _ (by omega) (by omega)
      (skip 3 (by omega) (by omega) (by omega) (by omega) (by omega) (by omega)
        (by omega) (by omega)) h⟩
  · exact ⟨by omega, key 2 _ _ (by omega) (by omega)
      (skip 4 (by omega) (by omega) (by omega) (by omega) (by omega) (by omega)
        (by omega) (by omega)) h⟩
  · exact ⟨by omega, key 2 _ _ (by omega) (by omega)
      (skip 4 (by omega) (by omega) (by omega) (by omega) (by omega) (by omega)
        (by omega) (by omega)) h⟩
  · exact ⟨by omega, key 3 _ _ (by omega) (by omega)
      (skip 5 (by omega) (by omega) (by omega) (by omega) (by omega) (by omega)
        (by omega) (by omega)) h⟩
  · exact ⟨by omega, key 3 _ _ (by omega) (by omega)
      (skip 5 (by omega) (by omega) (by omega) (by omega) (by omega) (by omega)
        (by omega) (by omega)) h⟩
  · exact ⟨by omega, key 4 _ _ (by omega) (by omega)
      (skip 6 (by omega) (by omega) (by omega) (by omega) (by omega) (by omega)
        (by omega) (by omega)) h⟩
  · exact ⟨by omega, key 4 _ _ (by omega) (by omega)
      (skip 6 (by omega) (by omega) (by omega) (by omega) (by omega) (by omega)
        (by omega) (by omega)) h⟩
  · rw [iconv_foldl_bad] at h
    cases h

theorem code_point_count_cont (pre : List Nat) (h : ∀ c ∈ pre, 0x80 ≤ c ∧ c ≤ 0xBF) :
    code_point_count pre = 0 := by
  induction pre with
  | nil => rfl
  | cons c t ih =>
    rw [code_point_count_cons, if_pos (h c (List.mem_cons_self _ _)),
      ih (fun d hd => h d (List.mem_cons_of_mem _ hd))]

/-- On bytes accepted by the `iconv` reader `g_utf8_strlen` counts the forms
that start before the first NUL byte. -/
theorem g_utf8_strlen_iconv (fuel : Nat) (b : List Nat) (hf : b.length ≤ fuel)
    (hv : iconv_utf8_valid b = true) :
    g_utf8_strlen fuel b = code_point_count (cstr b) := by
  induction fuel generalizing b with
  | zero =>
    have : b = [] := List.length_eq_zero.1 (by omega)
    subst this
    rfl
  | succ fuel ih =>
    cases b with
    | nil => rfl
    | cons b0 rest =>
      unfold g_utf8_strlen
      by_cases h0 : b0 = 0
      · subst h0
        rw [if_pos rfl, cstr_nul]
        rfl
      · rw [if_neg h0]
        obtain ⟨hb0, pre, t, rfl, hl, hc, ht⟩ := iconv_valid_head b0 rest hv
        have hd : (b0 :: (pre ++ t)).drop (g_utf8_skip b0) = t := by
          rw [← hl, List.drop_succ_cons, List.drop_left]
        have hlen : t.length ≤ fuel := by
          simp only [List.length_cons, List.length_append] at hf
          omega
        rw [hd, ih t hlen ht, cstr_cons b0 _ h0,
          cstr_append_no_nul pre t (fun c hc2 => by have := hc c hc2; omega),
          code_point_count_cons, if_neg hb0, code_point_count_append,
          code_point_count_cont pre hc]
        omega

set_option maxHeartbeats 2000000 in
/-- One byte read by both readers from a boundary: the `iconv` reader goes
where the strict validator goes, except that after the lead byte `F4` it
allows continuation bytes up to `BF`. -/
theorem iconv_step_of_utf8_step (b : Nat)
    (h : utf8_step Utf8State.start b ≠ Utf8State.bad) :
    iconv_utf8_step Utf8State.start b = utf8_step Utf8State.start b ∨
    (utf8_step Utf8State.start b = Utf8State.cont 3 0x80 0x8F ∧
      iconv_utf8_step Utf8State.start b = Utf8State.cont 3 0x80 0xBF) := by
  simp only [utf8_step, iconv_utf8_step] at h ⊢
  split_ifs at h ⊢ <;>
    first
    | exact Or.inl rfl
    | exact Or.inr ⟨rfl, rfl⟩
    | omega
    | exact absurd rfl h

/-- Well-formed UTF-8 is accepted by the `iconv` reader. -/
theorem utf8_valid_iconv (b : List Nat) (h : utf8_valid b = true) :
    iconv_utf8_valid b = true := by
  rw [utf8_valid_iff] at h
  rw [iconv_utf8_valid_iff]
  have key : ∀ (l : List Nat) (s s2 : Utf8State),
      (s2 = s ∨ (s = Utf8State.cont 3 0x80 0x8F ∧ s2 = Utf8State.cont 3 0x80 0xBF)) →
      l.foldl utf8_step s = Utf8State.start →
      l.foldl iconv_utf8_step s2 = Utf8State.start := by
    intro l
    induction l with
    | nil =>
      intro s s2 hr hs
      rw [List.foldl_nil] at hs ⊢
      rcases hr with rfl | ⟨h1, _⟩
      · exact hs
      · rw [h1] at hs
        cases hs
    | cons c t ih =>
      intro s s2 hr hs
      rw [List.foldl_cons] at hs ⊢
      have hne : utf8_step s c ≠ Utf8State.bad := by
        intro hc
        rw [hc, utf8_foldl_bad] at hs
        cases hs
      rcases hr with rfl | ⟨rfl, rfl⟩
      · cases s2 with
        | bad => exact absurd rfl hne
        | cont need lo hi => exact ih _ _ (Or.inl rfl) hs
        | start => exact ih _ _ (iconv_step_of_utf8_step c hne) hs
      · refine ih _ _ (Or.inl ?_) hs
        simp only [utf8_step, iconv_utf8_step] at hne ⊢
        by_cases hr : 0x80 ≤ c ∧ c ≤ 0x8F
        · rw [if_pos hr, if_pos (by omega)]
        · rw [if_neg hr] at hne
          exact absurd rfl hne
  exact key b _ _ (Or.inl rfl) h

/-- What the `iconv` reader takes and refuses: it takes a form of 4 bytes
beyond U+10FFFF, forms of 5 and 6 bytes and the NUL byte; it refuses a
surrogate, an overlong form, a lone continuation byte, the bytes `FE` and `FF`
and a form cut short. -/
theorem g_convert_utf8_to_utf8_cases :
    g_convert_utf8_to_utf8 [0xF4, 0x90, 0x80, 0x80] = some [0xF4, 0x90, 0x80, 0x80] ∧
    g_convert_utf8_to_utf8 [0xF8, 0x88, 0x80, 0x80, 0x80]
      = some [0xF8, 0x88, 0x80, 0x80, 0x80] ∧
    g_convert_utf8_to_utf8 [0xFC, 0x84, 0x80, 0x80, 0x80, 0x80]
      = some [0xFC, 0x84, 0x80, 0x80, 0x80, 0x80] ∧
    g_convert_utf8_to_utf8 [0x41, 0x00, 0x42] = some [0x41, 0x00, 0x42] ∧
    g_convert_utf8_to_utf8 [0xED, 0xA0, 0x80] = none ∧
    g_convert_utf8_to_utf8 [0xC0, 0x80] = none ∧
    g_convert_utf8_to_utf8 [0xE0, 0x80, 0x80] = none ∧
    g_convert_utf8_to_utf8 [0xF0, 0x80, 0x80, 0x80] = none ∧
    g_convert_utf8_to_utf8 [0xF8, 0x80, 0x80, 0x80, 0x80] = none ∧
    g_convert_utf8_to_utf8 [0x80] = none ∧
    g_convert_utf8_to_utf8 [0xFE] = none ∧
    g_convert_utf8_to_utf8 [0xE2, 0x98] = none := by
  decide

theorem update_counter_labels_utf8 (text b : List Nat)
    (h : (hex_to_binary text).1 = some b) :
    update_counter_labels text HEX UTF8
      = (if iconv_utf8_valid b then g_utf8_strlen b.length b else b.length, b.length) := by
  rcases hb : hex_to_binary text with ⟨_ | b2, n⟩
  · rw [hb] at h; cases h
  · rw [hb] at h
    simp only [Option.some.injEq] at h
    subst h
    have hn := hex_to_binary_length text b2 n hb
    subst hn
    by_cases hv : iconv_utf8_valid b2 = true
    · simp [update_counter_labels, hb, g_convert_utf8_to_utf8, hv]
    · simp [update_counter_labels, hb, g_convert_utf8_to_utf8, hv]

theorem update_counter_labels_other (text b : List Nat) (peer : EncodingType)
    (h : (hex_to_binary text).1 = some b)
    (h1 : peer ≠ UTF8) (h2 : peer ≠ UTF16LE) (h3 : peer ≠ UTF16BE) :
    update_counter_labels text HEX peer = (b.length, b.length) := by
  rcases hb : hex_to_binary text with ⟨_ | b2, n⟩
  · rw [hb] at h; cases h
  · rw [hb] at h
    simp only [Option.some.injEq] at h
    subst h
    have hn := hex_to_binary_length text b2 n hb
    subst hn
    simp [update_counter_labels, hb, h1, h2, h3]

/-! ## The claims on the counter for the other peers -/

/-- C19: the hex text `"41 00 42"` decodes to the three bytes `41 00 42`,
well-formed UTF-8 of three code points, and with peer `UTF8` the counter gives
`chars = 1`, `bytes = 3`: `g_utf8_strlen` stops at the NUL byte of the
converted copy.  For every hex text that decodes to a buffer `b` the counter
gives `bytes = |b|`; `chars` is the number of code points of `b` when `b` is
well-formed UTF-8 without NUL byte, the number of forms before the first NUL
byte when `g_convert` accepts `b`, and `|b|` when `g_convert` refuses `b`.
The hex text `"E2 98 BA"` gives `chars = 1`, `bytes = 3`; `"F4 90 80 80"`, a
form beyond U+10FFFF that is not well-formed UTF-8 and that `g_convert`
accepts, gives `chars = 1`, `bytes = 4`. -/
theorem counter_utf8 :
    ((hex_to_binary (ascii "41 00 42")).1 = some [0x41, 0x00, 0x42] ∧
      utf8_valid [0x41, 0x00, 0x42] = true ∧
      code_point_count [0x41, 0x00, 0x42] = 3 ∧
      update_counter_labels (ascii "41 00 42") HEX UTF8 = (1, 3)) ∧
    (∀ text b : List Nat, (hex_to_binary text).1 = some b →
      (utf8_valid b = true → (∀ c ∈ b, c ≠ 0) →
        update_counter_labels text HEX UTF8 = (code_point_count b, b.length)) ∧
      (g_convert_utf8_to_utf8 b = some b →
        update_counter_labels text HEX UTF8 = (code_point_count (cstr b), b.length)) ∧
      (g_convert_utf8_to_utf8 b = none →
        update_counter_labels text HEX UTF8 = (b.length, b.length))) ∧
    update_counter_labels (ascii "E2 98 BA") HEX UTF8 = (1, 3) ∧
    ((hex_to_binary (ascii "F4 90 80 80")).1 = some [0xF4, 0x90, 0x80, 0x80] ∧
      utf8_valid [0xF4, 0x90, 0x80, 0x80] = false ∧
      update_counter_labels (ascii "F4 90 80 80") HEX UTF8 = (1, 4)) := by
  refine ⟨by decide, ?_, by decide, by decide⟩
  intro text b hb
  rw [update_counter_labels_utf8 text b hb]
  refine ⟨?_, ?_, ?_⟩
  · intro hv hz
    have hi := utf8_valid_iconv b hv
    rw [if_pos hi, g_utf8_strlen_iconv b.length b (Nat.le_refl _) hi, cstr_of_no_nul b hz]
  · intro hv
    have hi : iconv_utf8_valid b = true := by
      by_cases hi : iconv_utf8_valid b = true
      · exact hi
      · simp [g_convert_utf8_to_utf8, hi] at hv
    rw [if_pos hi, g_utf8_strlen_iconv b.length b (Nat.le_refl _) hi]
  · intro hv
    have hi : ¬ iconv_utf8_valid b = true := by
      intro hi
      simp [g_convert_utf8_to_utf8, hi] at hv
    rw [if_neg hi]

/-- Witness of `counter_utf8` at the hex text `"C3 A9 41"`, two code
points. -/
theorem counter_utf8_witness :
    update_counter_labels (ascii "C3 A9 41") HEX UTF8
      = (code_point_count [0xC3, 0xA9, 0x41], [0xC3, 0xA9, 0x41].length) :=
  (counter_utf8.2.1 (ascii "C3 A9 41") [0xC3, 0xA9, 0x41] (by decide)).1 (by decide)
    (by decide)

/-- C20, counterexample: the text of one space has an even number (zero) of
hex digits and nothing else but whitespace; with peer `ASCII` the counter
gives `chars = 1`, `bytes = 1` (the raw counts of the text), not `0` and
`0`. -/
theorem counter_blank_hex :
    (∀ c ∈ ascii " ", isspace c = false → isxdigit c = true) ∧
    (hex_digits (ascii " ")).length = 0 ∧
    update_counter_labels (ascii " ") HEX ASCII = (1, 1) := by
  decide

/-- C20, amended: for every hex text whose non-whitespace characters are all
hex digits with an even digit count `d > 0`, and for the empty text
(`d = 0`), and for every peer encoding other than `UTF8`, `UTF16LE` and
`UTF16BE`, the counter returns `bytes = d / 2` and `chars = d / 2`. -/
theorem counter_one_byte_one_char :
    (∀ (text : List Nat) (peer : EncodingType),
      (∀ c ∈ text, isspace c = false → isxdigit c = true) →
      (hex_digits text).length % 2 = 0 → 0 < (hex_digits text).length →
      peer ≠ UTF8 → peer ≠ UTF16LE → peer ≠ UTF16BE →
      update_counter_labels text HEX peer
        = ((hex_digits text).length / 2, (hex_digits text).length / 2)) ∧
    (∀ peer : EncodingType, update_counter_labels [] HEX peer = (0, 0)) := by
  refine ⟨?_, ?_⟩
  · intro text peer hhex heven hpos h1 h2 h3
    have hne : (hex_digits text).length / 2 ≠ 0 := by omega
    have hb : (hex_to_binary text).1
        = some ((List.range' 0 ((hex_digits text).length / 2)).map
            (pair_byte (hex_digits text))) := by
      rw [hex_to_binary_eq hhex heven]
      simp [g_malloc_buffer, hne]
    rw [update_counter_labels_other text _ peer hb h1 h2 h3]
    simp
  · intro peer
    have h : hex_to_binary [] = (none, 0) := by decide
    simp [update_counter_labels, h, g_utf8_strlen, strlen, cstr]

/-- Witness of `counter_one_byte_one_char` at the hex text `"48 65 6C"` and
peer `KOI8_R`. -/
theorem counter_one_byte_one_char_witness :
    update_counter_labels (ascii "48 65 6C") HEX KOI8_R = (3, 3) :=
  counter_one_byte_one_char.1 (ascii "48 65 6C") KOI8_R (by decide) (by decide) (by decide)
    (by decide) (by decide) (by decide)

/-! ## Lemmas for the claims on the counter fallback, the names and whitespace -/

theorem hex_to_binary_bad (s : List Nat)
    (h : (∃ c ∈ s, isspace c = false ∧ isxdigit c = false) ∨
      (s.filter isxdigit).length % 2 = 1) :
    hex_to_binary s = (none, 0) := by
  unfold hex_to_binary
  rw [hex_clean_loop_eq]
  by_cases hall : s.all (fun c => isspace c || isxdigit c) = true
  · rw [if_pos hall]
    rcases h with ⟨c, hc, hs, hx⟩ | hodd
    · rw [List.all_eq_true] at hall
      have := hall c hc
      simp [hs, hx] at this
    · have hf : hex_digits s = s.filter isxdigit := by
        unfold hex_digits
        apply List.filter_congr
        intro c hc
        rw [List.all_eq_true] at hall
        have := hall c hc
        cases hx : isxdigit c with
        | true => simp [isxdigit_not_isspace hx]
        | false => simpa [hx] using this
      simp only [List.nil_append, hf, hodd, ne_eq]
      simp
  · simp [hall]

theorem strlen_of_no_nul (l : List Nat) (h : ∀ c ∈ l, c ≠ 0) : strlen l = l.length := by
  unfold strlen
  rw [cstr_of_no_nul l h]

theorem hex_digits_cons (c : Nat) (rest : List Nat) :
    hex_digits (c :: rest) = if isspace c = true then hex_digits rest else c :: hex_digits rest := by
  unfold hex_digits
  by_cases hs : isspace c = true
  · rw [if_pos hs, List.filter_cons, hs]
    rfl
  · rw [if_neg hs, List.filter_cons]
    have : isspace c = false := by simpa using hs
    rw [this]
    rfl

theorem all_clean_eq (s : List Nat) :
    s.all (fun c => isspace c || isxdigit c) = (hex_digits s).all isxdigit := by
  induction s with
  | nil => rfl
  | cons c rest ih =>
    rw [hex_digits_cons, List.all_cons, ih]
    by_cases hs : isspace c = true
    · rw [if_pos hs, hs, Bool.true_or, Bool.true_and]
    · have hf : isspace c = false := by simpa using hs
      rw [if_neg hs, hf, Bool.false_or, List.all_cons]

/-- The result of `hex_to_binary` depends on the digits left after
whitespace removal only. -/
theorem hex_to_binary_congr (h1 h2 : List Nat) (h : hex_digits h1 = hex_digits h2) :
    hex_to_binary h1 = hex_to_binary h2 := by
  unfold hex_to_binary
  rw [hex_clean_loop_eq, hex_clean_loop_eq, all_clean_eq, all_clean_eq, h]

theorem hex_digits_insert (a b : List Nat) (c : Nat) (hc : isspace c = true) :
    hex_digits (a ++ c :: b) = hex_digits (a ++ b) := by
  simp [hex_digits, List.filter_append, List.filter_cons, hc]

/-! ## The claims on the counter fallback, the names, whitespace and UTF-8 -/

/-- C21: for every buffer text (well-formed UTF-8 without NUL, as a text
buffer holds), when the declared encoding is not `HEX`, or it is `HEX` but
the text has a character that is neither whitespace nor a hex digit or an odd
number of hex digits, the counter returns `bytes` = the byte length of the
text and `chars` = its number of code points, whatever the peer encoding;
`"é"` (2 bytes) gives `chars = 1`, `bytes = 2`. -/
theorem counter_raw_metrics :
    (∀ (text : List Nat) (declared peer : EncodingType),
      utf8_valid text = true → (∀ c ∈ text, c ≠ 0) →
      (declared ≠ HEX ∨ (∃ c ∈ text, isspace c = false ∧ isxdigit c = false) ∨
        (text.filter isxdigit).length % 2 = 1) →
      update_counter_labels text declared peer = (code_point_count text, text.length)) ∧
    (∀ peer : EncodingType, update_counter_labels [0xC3, 0xA9] UTF8 peer = (1, 2)) := by
  have key : ∀ (text : List Nat) (declared peer : EncodingType),
      utf8_valid text = true → (∀ c ∈ text, c ≠ 0) →
      (declared ≠ HEX ∨ (∃ c ∈ text, isspace c = false ∧ isxdigit c = false) ∨
        (text.filter isxdigit).length % 2 = 1) →
      update_counter_labels text declared peer = (code_point_count text, text.length) := by
    intro text declared peer hv hz h
    have hraw : (g_utf8_strlen text.length text, strlen text)
        = (code_point_count text, text.length) := by
      rw [g_utf8_strlen_valid text.length text (Nat.le_refl _) hv hz, strlen_of_no_nul text hz]
    unfold update_counter_labels
    by_cases hd : declared = HEX
    · rw [if_pos hd]
      have hbad : hex_to_binary text = (none, 0) := by
        rcases h with h | h | h
        · exact absurd hd h
        · exact hex_to_binary_bad text (Or.inl h)
        · exact hex_to_binary_bad text (Or.inr h)
      rw [hbad]
      exact hraw
    · rw [if_neg hd]
      exact hraw
  refine ⟨key, ?_⟩
  intro peer
  exact key [0xC3, 0xA9] UTF8 peer (by decide) (by decide) (Or.inl (by decide))

/-- Witness of `counter_raw_metrics` at the text `"4é"` declared `HEX` with
peer `UTF16LE`. -/
theorem counter_raw_metrics_witness :
    update_counter_labels [0x34, 0xC3, 0xA9] HEX UTF16LE = (2, 3) :=
  counter_raw_metrics.1 [0x34, 0xC3, 0xA9] HEX UTF16LE (by decide) (by decide)
    (Or.inr (Or.inl (by decide)))

/-- C22: `encoding_type_to_string` returns `"Unknown"` for every value below
0 or above 11 and the display name of each of the twelve enumerators; the
twelve names are pairwise distinct and none is `"Unknown"`, so `"Unknown"`
is returned if and only if the value is out of range. -/
theorem encoding_type_to_string_names :
    (∀ v : Int, v < 0 ∨ 11 < v → encoding_type_to_string v = ascii "Unknown") ∧
    (∀ p ∈ display_names, encoding_type_to_string p.1.toInt = p.2) ∧
    (display_names.map Prod.fst
      = [HEX, ASCII, UTF8, UTF16LE, UTF16BE, UTF32LE, UTF32BE, ISO8859_1, ISO8859_15,
          SHIFT_JIS, EUC_JP, KOI8_R]) ∧
    (∀ a b : EncodingType,
      encoding_type_to_string a.toInt = encoding_type_to_string b.toInt → a = b) ∧
    (∀ a : EncodingType, encoding_type_to_string a.toInt ≠ ascii "Unknown") ∧
    (∀ v : Int, encoding_type_to_string v = ascii "Unknown" ↔ (v < 0 ∨ 11 < v)) := by
  have hout : ∀ v : Int, v < 0 ∨ 11 < v → encoding_type_to_string v = ascii "Unknown" := by
    intro v hv
    unfold encoding_type_to_string
    have hl : (encoding_names.length : Int) = 12 := by decide
    rw [hl, if_neg (by omega)]
  have hin : ∀ v : Int, 0 ≤ v → v ≤ 11 → encoding_type_to_string v ≠ ascii "Unknown" := by
    intro v h0 h11
    have : v = 0 ∨ v = 1 ∨ v = 2 ∨ v = 3 ∨ v = 4 ∨ v = 5 ∨ v = 6 ∨ v = 7 ∨ v = 8 ∨ v = 9 ∨
        v = 10 ∨ v = 11 := by omega
    rcases this with h | h | h | h | h | h | h | h | h | h | h | h <;> subst h <;> decide
  refine ⟨hout, by decide, by decide, ?_, ?_, ?_⟩
  · intro a b
    cases a <;> cases b <;> decide
  · intro a
    cases a <;> decide
  · intro v
    constructor
    · intro h
      by_contra hc
      exact hin v (by omega) (by omega) h
    · exact hout v

/-- Witness of `encoding_type_to_string_names` at the value of an empty
selection, 4294967295. -/
theorem encoding_type_to_string_names_witness :
    encoding_type_to_string 4294967295 = ascii "Unknown" :=
  encoding_type_to_string_names.1 4294967295 (Or.inr (by decide))

/-- C23: hex decoding ignores whitespace (space, tab, newline, vertical tab,
form feed, carriage return): two texts with the same characters outside
whitespace give the same result of `hex_to_binary`, both `NULL` or both the
same bytes; so does a text and the text with one whitespace character
inserted or deleted at any position, also between the two digits of a
byte. -/
theorem hex_to_binary_ignores_whitespace :
    (∀ c : Nat, isspace c = true ↔ c ∈ [32, 9, 10, 11, 12, 13]) ∧
    (∀ h1 h2 : List Nat,
      h1.filter (fun c => !isspace c) = h2.filter (fun c => !isspace c) →
      hex_to_binary h2 = hex_to_binary h1) ∧
    (∀ (a b : List Nat) (c : Nat), isspace c = true →
      hex_to_binary (a ++ c :: b) = hex_to_binary (a ++ b)) ∧
    hex_to_binary (ascii "4 8\n6\t5") = hex_to_binary (ascii "4865") ∧
    hex_to_binary (ascii "4865") = (some [0x48, 0x65], 2) := by
  refine ⟨?_, ?_, ?_, by decide, by decide⟩
  · intro c
    rw [isspace_iff]
    simp only [List.mem_cons, List.mem_singleton, List.not_mem_nil, or_false]
    omega
  · intro h1 h2 h
    exact hex_to_binary_congr h2 h1 h.symm
  · intro a b c hc
    exact hex_to_binary_congr _ _ (hex_digits_insert a b c hc)

/-- Witness of `hex_to_binary_ignores_whitespace` at the texts `"4A 6"` and
`" 4\tA6"`, which both fail. -/
theorem hex_to_binary_ignores_whitespace_witness :
    hex_to_binary (ascii " 4\tA6") = hex_to_binary (ascii "4A 6") :=
  hex_to_binary_ignores_whitespace.2.1 (ascii "4A 6") (ascii " 4\tA6") (by decide)

/-- C24, the code at the failing input: for the bytes `80 E2 98 BA` (a
continuation byte, then the well-formed form of U+263A) `binary_to_text`
with `UTF8` returns four placeholders; the code point after the invalid byte
is not decoded.  What holds: every byte outside `1..127` gives exactly one
placeholder and the walk goes on at the next byte, so `n` continuation bytes
give `n` placeholders, and a byte in `1..127` after an invalid byte is
kept. -/
theorem binary_to_text_utf8_resync :
    binary_to_text [0x80, 0xE2, 0x98, 0xBA] UTF8
      = some (PLACEHOLDER ++ PLACEHOLDER ++ PLACEHOLDER ++ PLACEHOLDER) ∧
    utf8_valid [0xE2, 0x98, 0xBA] = true ∧
    binary_to_text [0x80, 0xE2, 0x98, 0xBA] UTF8
      ≠ some (PLACEHOLDER ++ unichar_to_utf8 0x263A) ∧
    (∀ data : List Nat, (∀ b ∈ data, 0x80 ≤ b ∧ b ≤ 0xBF) →
      binary_to_text data UTF8 = some (data.map (fun _ => PLACEHOLDER)).flatten) ∧
    (∀ (pre post : List Nat) (b : Nat), ¬ (1 ≤ b ∧ b ≤ 127) →
      ∃ tpre tpost, binary_to_text pre UTF8 = some tpre ∧
        binary_to_text post UTF8 = some tpost ∧
        binary_to_text (pre ++ b :: post) UTF8 = some (tpre ++ PLACEHOLDER ++ tpost)) ∧
    binary_to_text [0x80, 0x41] UTF8 = some (PLACEHOLDER ++ ascii "A") := by
  have hall : ∀ data : List Nat, binary_to_text data UTF8
      = some (data.map (fun b => if 1 ≤ b ∧ b ≤ 127 then [b] else PLACEHOLDER)).flatten := by
    intro data
    simp only [binary_to_text]
    rw [utf8_text_loop_eq _ _ _ (Nat.le_refl _), List.nil_append]
  refine ⟨by decide, by decide, by decide, ?_, ?_, by decide⟩
  · intro data hd
    rw [hall]
    congr 2
    apply List.map_congr_left
    intro b hb
    have := hd b hb
    rw [if_neg (by omega)]
  · intro pre post b hb
    refine ⟨_, _, hall pre, hall post, ?_⟩
    rw [hall]
    simp [hb]

/-- Witness of `binary_to_text_utf8_resync` at the three continuation bytes
`80 BF 9A`. -/
theorem binary_to_text_utf8_resync_witness :
    binary_to_text [0x80, 0xBF, 0x9A] UTF8
      = some ([0x80, 0xBF, 0x9A].map (fun _ => PLACEHOLDER)).flatten :=
  binary_to_text_utf8_resync.2.2.2.1 [0x80, 0xBF, 0x9A] (by decide)

theorem hex_form_no_nul (data : List Nat) (hb : IsBytes data) :
    ∀ c ∈ hex_form data, c ≠ 0 := by
  intro c hc
  have hd := hex_digits_hex_form data hb
  by_cases hs : isspace c = true
  · rw [isspace_iff] at hs; omega
  · have := (isxdigit_iff c).1 (hd.2 c hc (by simpa using hs))
    omega

theorem convert_step2_hex (bin : List Nat) (hb : IsBytes bin) :
    convert_step2 bin HEX = (some (binary_to_hex bin), (binary_to_hex bin).length) := by
  unfold convert_step2
  rw [if_pos rfl]
  unfold strlen
  rw [binary_to_hex_eq, cstr_of_no_nul _ (hex_form_no_nul bin hb)]

/-- C25: for every non-empty text `t` that is well-formed UTF-8,
`text_to_binary (t, UTF8)` returns exactly the bytes of `t` with length
`|t|`, and `convert_between_formats (t, UTF8, HEX)` is `binary_to_hex` of
the bytes of `t`. -/
theorem convert_utf8_passes_through (t : List Nat) (hne : t ≠ []) (hc : IsCStr t)
    (hv : utf8_valid t = true) :
    text_to_binary t UTF8 = (some t, t.length) ∧
    convert_between_formats t UTF8 HEX = (some (binary_to_hex t), (binary_to_hex t).length) := by
  have hg : g_utf8_validate t = true := by
    simp only [g_utf8_validate, Bool.and_eq_true, List.all_eq_true, bne_iff_ne, ne_eq]
    exact ⟨fun c hcm => by have := hc c hcm; omega, hv⟩
  have hlen : t.length ≠ 0 := by simpa using hne
  have ht : text_to_binary t UTF8 = (some t, t.length) := by
    simp [text_to_binary, hg, g_malloc_buffer, hlen]
  refine ⟨ht, ?_⟩
  rw [convert_text_some t UTF8 HEX t hne (by decide) (by rw [ht])]
  exact convert_step2_hex t (fun x hx => (hc x hx).2)

/-- Witness of `convert_utf8_passes_through` at the text `"é☺"`. -/
theorem convert_utf8_passes_through_witness :
    text_to_binary [0xC3, 0xA9, 0xE2, 0x98, 0xBA] UTF8
        = (some [0xC3, 0xA9, 0xE2, 0x98, 0xBA], 5) ∧
    convert_between_formats [0xC3, 0xA9, 0xE2, 0x98, 0xBA] UTF8 HEX
        = (some (ascii "C3 A9 E2 98 BA"), 14) :=
  convert_utf8_passes_through [0xC3, 0xA9, 0xE2, 0x98, 0xBA] (by decide) (by decide)
    (by decide)

/-! ## Lemmas for the claims on odd buffers, bad input and round trips -/

theorem cut_pair_tail_last (le : Bool) (pre : List Nat) (x y : Nat) :
    cut_pair_tail le (pre ++ [x]) = cut_pair_tail le (pre ++ [y]) := by
  by_cases h : 2 ≤ pre.length
  · have idx : pre.length + 1 - 3 = pre.length - 2 := by omega
    simp only [cut_pair_tail, List.length_append, List.length_singleton, code_unit_at_eq, idx]
    rw [List.getD_append _ _ _ _ (by omega), List.getD_append _ _ _ _ (by omega),
      List.getD_append _ _ _ _ (by omega), List.getD_append _ _ _ _ (by omega)]
  · rw [cut_pair_tail_short le _ (by simp; omega), cut_pair_tail_short le _ (by simp; omega)]

theorem utf16_decode_odd (le : Bool) (n : Nat) :
    ∀ (pre : List Nat) (x : Nat), pre.length = 2 * n →
      utf16_decode le (pre ++ [x])
          = utf16_decode le pre ++ (if cut_pair_tail le (pre ++ [x]) then [] else PLACEHOLDER) ∧
      (cut_pair_tail le (pre ++ [x]) = true → ∃ t, utf16_decode le pre = t ++ PLACEHOLDER) := by
  induction n using Nat.strong_induction_on with
  | _ n ih =>
    intro pre x hlen
    rcases list_shape pre with rfl | ⟨z, rfl⟩ | ⟨b0, b1, pre1, rfl⟩
    · have hc : cut_pair_tail le ([] ++ [x]) = false := cut_pair_tail_short le _ (by simp)
      rw [hc]
      simp [utf16_decode]
    · simp at hlen; omega
    · have hlen1 : pre1.length = 2 * (n - 1) := by simp at hlen; omega
      have hn : 0 < n := by simp at hlen; omega
      by_cases hh : 0xD800 ≤ unit16 le b0 b1 ∧ unit16 le b0 b1 ≤ 0xDBFF
      · rcases list_shape pre1 with rfl | ⟨z, rfl⟩ | ⟨b2, b3, pre2, rfl⟩
        · have hc : cut_pair_tail le ([b0, b1] ++ [x]) = true := by
            show cut_pair_tail le (b0 :: b1 :: [x]) = true
            rw [cut_pair_tail_cons, if_pos (by simp)]
            simpa using hh
          rw [hc]
          refine ⟨?_, fun _ => ⟨[], ?_⟩⟩
          · show utf16_decode le (b0 :: b1 :: [x]) = utf16_decode le [b0, b1] ++ _
            rw [utf16_decode_high_short le b0 b1 [x] hh (by simp),
              utf16_decode_high_short le b0 b1 [] hh (by simp)]
            simp
          · rw [utf16_decode_high_short le b0 b1 [] hh (by simp)]
            rfl
        · simp at hlen1; omega
        · have hlen2 : pre2.length = 2 * (n - 2) := by simp at hlen1; omega
          by_cases hl : 0xDC00 ≤ unit16 le b2 b3 ∧ unit16 le b2 b3 ≤ 0xDFFF
          · have hcut : cut_pair_tail le (b0 :: b1 :: b2 :: b3 :: pre2 ++ [x])
                = cut_pair_tail le (pre2 ++ [x]) := by
              show cut_pair_tail le (b0 :: b1 :: (b2 :: b3 :: (pre2 ++ [x]))) = _
              rw [cut_pair_tail_skip le b0 b1 _ (Or.inr (by simp)),
                cut_pair_tail_skip le b2 b3 _ (Or.inl (by omega))]
            obtain ⟨i1, i2⟩ := ih (n - 2) (by omega) pre2 x hlen2
            rw [hcut]
            constructor
            · show utf16_decode le (b0 :: b1 :: b2 :: b3 :: (pre2 ++ [x])) = _
              rw [utf16_decode_high_pair le _ _ _ _ _ hh hl,
                utf16_decode_high_pair le _ _ _ _ _ hh hl, i1, List.append_assoc]
            · intro hc
              obtain ⟨t, ht⟩ := i2 hc
              rw [utf16_decode_high_pair le _ _ _ _ _ hh hl, ht, ← List.append_assoc]
              exact ⟨_, rfl⟩
          · have hcut : cut_pair_tail le (b0 :: b1 :: b2 :: b3 :: pre2 ++ [x])
                = cut_pair_tail le (b2 :: b3 :: pre2 ++ [x]) := by
              show cut_pair_tail le (b0 :: b1 :: (b2 :: b3 :: (pre2 ++ [x]))) = _
              rw [cut_pair_tail_skip le b0 b1 _ (Or.inr (by simp))]
              rfl
            obtain ⟨i1, i2⟩ := ih (n - 1) (by omega) (b2 :: b3 :: pre2) x hlen1
            rw [hcut]
            constructor
            · show utf16_decode le (b0 :: b1 :: b2 :: b3 :: (pre2 ++ [x])) = _
              rw [utf16_decode_high_unpaired le _ _ _ _ _ hh hl,
                utf16_decode_high_unpaired le _ _ _ _ _ hh hl]
              have i1' : utf16_decode le (b2 :: b3 :: (pre2 ++ [x])) = _ := i1
              rw [i1', List.append_assoc]
            · intro hc
              obtain ⟨t, ht⟩ := i2 hc
              rw [utf16_decode_high_unpaired le _ _ _ _ _ hh hl, ht, ← List.append_assoc]
              exact ⟨_, rfl⟩
      · have hcut : cut_pair_tail le (b0 :: b1 :: pre1 ++ [x])
            = cut_pair_tail le (pre1 ++ [x]) := by
          show cut_pair_tail le (b0 :: b1 :: (pre1 ++ [x])) = _
          rw [cut_pair_tail_skip le b0 b1 _ (Or.inl hh)]
        obtain ⟨i1, i2⟩ := ih (n - 1) (by omega) pre1 x hlen1
        rw [hcut]
        constructor
        · show utf16_decode le (b0 :: b1 :: (pre1 ++ [x])) = _
          rw [utf16_decode_not_high le _ _ _ hh, utf16_decode_not_high le _ _ _ hh, i1,
            List.append_assoc]
        · intro hc
          obtain ⟨t, ht⟩ := i2 hc
          rw [utf16_decode_not_high le _ _ _ hh, ht, ← List.append_assoc]
          exact ⟨_, rfl⟩

theorem unit16_swap (b0 b1 : Nat) : unit16 false b0 b1 = unit16 true b1 b0 := by
  simp only [unit16, Bool.false_eq_true, if_false, if_true]
  rw [Nat.lor_comm]

theorem utf16_decode_swap (n : Nat) :
    ∀ l : List Nat, l.length = n →
      utf16_decode false l = utf16_decode true (swap_units l) := by
  induction n using Nat.strong_induction_on with
  | _ n ih =>
    intro l hlen
    rcases list_shape l with rfl | ⟨x, rfl⟩ | ⟨b0, b1, rest, rfl⟩
    · rfl
    · rfl
    · have hr : rest.length < n := by simp only [List.length_cons] at hlen; omega
      have hs : swap_units (b0 :: b1 :: rest) = b1 :: b0 :: swap_units rest := by
        rw [swap_units]
      have hu := unit16_swap b0 b1
      rw [hs]
      by_cases hh : 0xD800 ≤ unit16 false b0 b1 ∧ unit16 false b0 b1 ≤ 0xDBFF
      · have hh' : 0xD800 ≤ unit16 true b1 b0 ∧ unit16 true b1 b0 ≤ 0xDBFF := by
          rw [← hu]; exact hh
        rcases list_shape rest with rfl | ⟨x, rfl⟩ | ⟨b2, b3, rest2, rfl⟩
        · rw [utf16_decode_high_short false b0 b1 [] hh (by decide)]
          exact (utf16_decode_high_short true b1 b0 [] hh' (by decide)).symm
        · rw [utf16_decode_high_short false b0 b1 [x] hh (Nat.lt_succ_self 1)]
          exact (utf16_decode_high_short true b1 b0 [x] hh' (Nat.lt_succ_self 1)).symm
        · have hs2 : swap_units (b2 :: b3 :: rest2) = b3 :: b2 :: swap_units rest2 := by
            rw [swap_units]
          have hv := unit16_swap b2 b3
          rw [hs2]
          by_cases hl : 0xDC00 ≤ unit16 false b2 b3 ∧ unit16 false b2 b3 ≤ 0xDFFF
          · have hl' : 0xDC00 ≤ unit16 true b3 b2 ∧ unit16 true b3 b2 ≤ 0xDFFF := by
              rw [← hv]; exact hl
            rw [utf16_decode_high_pair false _ _ _ _ _ hh hl,
              utf16_decode_high_pair true _ _ _ _ _ hh' hl', hu, hv,
              ih rest2.length (by simp only [List.length_cons] at hr; omega) rest2 rfl]
          · have hl' : ¬ (0xDC00 ≤ unit16 true b3 b2 ∧ unit16 true b3 b2 ≤ 0xDFFF) := by
              rw [← hv]; exact hl
            rw [utf16_decode_high_unpaired false _ _ _ _ _ hh hl,
              utf16_decode_high_unpaired true _ _ _ _ _ hh' hl',
              ih (b2 :: b3 :: rest2).length hr (b2 :: b3 :: rest2) rfl, hs2]
      · have hh' : ¬ (0xD800 ≤ unit16 true b1 b0 ∧ unit16 true b1 b0 ≤ 0xDBFF) := by
          rw [← hu]; exact hh
        rw [utf16_decode_not_high false _ _ _ hh, utf16_decode_not_high true _ _ _ hh', hu,
          ih rest.length hr rest rfl]

/-- The recovery walk of a text with a character that is neither whitespace
nor a hex digit, or with an odd number of hex digits, holds a placeholder. -/
theorem recovery_walk_has_placeholder (l : List Nat)
    (h : (∃ c ∈ l, isspace c = false ∧ isxdigit c = false) ∨
      (l.filter isxdigit).length % 2 = 1) :
    ∃ s t, recovery_walk l = s ++ PLACEHOLDER ++ t := by
  induction l using recovery_walk.induct with
  | case1 =>
    rcases h with ⟨c, hc, _⟩ | h
    · cases hc
    · simp at h
  | case2 c rest hs ih =>
    have hx : isxdigit c = false := by
      cases hxd : isxdigit c with
      | false => rfl
      | true => rw [isxdigit_not_isspace hxd] at hs; cases hs
    have h' : (∃ c ∈ rest, isspace c = false ∧ isxdigit c = false) ∨
        (rest.filter isxdigit).length % 2 = 1 := by
      rcases h with ⟨d, hd, hd1, hd2⟩ | h
      · rw [List.mem_cons] at hd
        rcases hd with rfl | hd
        · rw [hs] at hd1; cases hd1
        · exact Or.inl ⟨d, hd, hd1, hd2⟩
      · rw [List.filter_cons, hx] at h
        exact Or.inr h
    obtain ⟨s, t, hst⟩ := ih h'
    refine ⟨s, t, ?_⟩
    have e : recovery_walk (c :: rest) = recovery_walk rest := by
      conv_lhs => unfold recovery_walk
      simp [hs]
    rw [e, hst]
  | case3 c hs =>
    refine ⟨[], [], ?_⟩
    rw [recovery_walk, if_neg hs]
    rfl
  | case4 c hs d rest2 ih =>
    rw [recovery_walk, if_neg hs]
    by_cases hxd : isxdigit c = true ∧ isxdigit d = true
    · have h' : (∃ c ∈ rest2, isspace c = false ∧ isxdigit c = false) ∨
          (rest2.filter isxdigit).length % 2 = 1 := by
        rcases h with ⟨e, he, he1, he2⟩ | h
        · simp only [List.mem_cons] at he
          rcases he with rfl | rfl | he
          · rw [hxd.1] at he2; cases he2
          · rw [hxd.2] at he2; cases he2
          · exact Or.inl ⟨e, he, he1, he2⟩
        · rw [List.filter_cons, hxd.1, List.filter_cons, hxd.2] at h
          simp only [if_true, List.length_cons] at h
          exact Or.inr (by omega)
      obtain ⟨s, t, hst⟩ := ih h'
      refine ⟨[c, d] ++ s, t, ?_⟩
      simp only [if_pos hxd, hst, List.append_assoc]
    · refine ⟨[], PLACEHOLDER ++ recovery_walk rest2, ?_⟩
      simp only [if_neg hxd, List.nil_append, List.append_assoc]

theorem recovery_walk_bytes (l : List Nat) :
    ∀ x ∈ recovery_walk l, isxdigit x = true ∨ x ∈ PLACEHOLDER := by
  induction l using recovery_walk.induct with
  | case1 => simp [recovery_walk]
  | case2 c rest hs ih =>
    have e : recovery_walk (c :: rest) = recovery_walk rest := by
      conv_lhs => unfold recovery_walk
      simp [hs]
    rw [e]
    exact ih
  | case3 c hs =>
    rw [recovery_walk, if_neg hs]
    intro x hx
    exact Or.inr hx
  | case4 c hs d rest2 ih =>
    rw [recovery_walk, if_neg hs]
    intro x hx
    rw [List.mem_append] at hx
    rcases hx with hx | hx
    · by_cases hxd : isxdigit c = true ∧ isxdigit d = true
      · rw [if_pos hxd] at hx
        simp only [List.mem_cons, List.mem_singleton, List.not_mem_nil, or_false] at hx
        rcases hx with rfl | rfl
        · exact Or.inl hxd.1
        · exact Or.inl hxd.2
      · rw [if_neg hxd, List.mem_append, or_self] at hx
        exact Or.inr hx
    · exact ih x hx

theorem hex_to_binary_some_ne_nil (input b : List Nat) (h : (hex_to_binary input).1 = some b) :
    b ≠ [] ∧ input ≠ [] := by
  constructor
  · unfold hex_to_binary at h
    split at h
    · cases h
    · simp only [] at h
      split at h
      · cases h
      · split at h
        · cases h
        · simp only [g_malloc_buffer] at h
          split at h
          · cases h
          · rename_i hne
            injection h with h
            subst h
            intro hc
            rw [hc] at hne
            exact hne rfl
  · intro hc
    subst hc
    have hn : hex_to_binary [] = (none, 0) := by decide
    rw [hn] at h
    cases h

theorem convert_step2_ascii_printable (t : List Nat) (hp : ∀ c ∈ t, 32 ≤ c ∧ c ≤ 126) :
    convert_step2 t ASCII = (some t, t.length) := by
  have hm : t.map (fun c => if c < 32 ∨ c > 126 then 63 else c) = t := by
    conv_rhs => rw [← List.map_id t]
    apply List.map_congr_left
    intro c hc
    have := hp c hc
    rw [if_neg (by omega)]
    rfl
  have hz : ∀ c ∈ t, c ≠ 0 := fun c hc => by have := hp c hc; omega
  unfold convert_step2
  rw [if_neg (by decide)]
  simp only [binary_to_text, hm]
  rw [strlen_of_no_nul t hz, cstr_of_no_nul t hz]

theorem hex_form_ne_nil (b : List Nat) (h : b ≠ []) : hex_form b ≠ [] := by
  intro hc
  have hl := hex_form_length b h
  have hb : 0 < b.length := List.length_pos.2 h
  rw [hc] at hl
  simp at hl
  omega

theorem code_units_append_one (le : Bool) (n : Nat) :
    ∀ (pre : List Nat) (x : Nat), pre.length = 2 * n →
      code_units le (pre ++ [x]) = code_units le pre := by
  induction n with
  | zero =>
    intro pre x hlen
    have : pre = [] := List.length_eq_zero.1 (by omega)
    subst this
    rfl
  | succ n ih =>
    intro pre x hlen
    rcases list_shape pre with rfl | ⟨z, rfl⟩ | ⟨b0, b1, pre1, rfl⟩
    · simp at hlen
    · simp at hlen
      omega
    · simp only [List.cons_append, code_units, List.append_eq]
      rw [ih pre1 x (by simp at hlen; omega)]

theorem placeholder_no_nul : ∀ c ∈ PLACEHOLDER, c ≠ 0 := by decide

/-- The text of the UTF-16 walk has no NUL byte when no complete code unit
of the buffer is `0x0000`. -/
theorem utf16_decode_no_nul (le : Bool) (n : Nat) :
    ∀ l : List Nat, l.length ≤ n → (∀ u ∈ code_units le l, u ≠ 0) →
      ∀ c ∈ utf16_decode le l, c ≠ 0 := by
  induction n using Nat.strong_induction_on with
  | _ n ih =>
    intro l hlen hu
    rcases list_shape l with rfl | ⟨x, rfl⟩ | ⟨b0, b1, rest, rfl⟩
    · intro c hc
      simp [utf16_decode] at hc
    · intro c hc
      exact placeholder_no_nul c hc
    · have hu0 : unit16 le b0 b1 ≠ 0 := hu _ (by simp [code_units])
      have hur : ∀ u ∈ code_units le rest, u ≠ 0 := fun u hm => hu u (by simp [code_units, hm])
      have hrest : ∀ c ∈ utf16_decode le rest, c ≠ 0 :=
        ih rest.length (by simp at hlen; omega) rest (Nat.le_refl _) hur
      by_cases hh : 0xD800 ≤ unit16 le b0 b1 ∧ unit16 le b0 b1 ≤ 0xDBFF
      · rcases list_shape rest with rfl | ⟨x, rfl⟩ | ⟨b2, b3, rest2, rfl⟩
        · rw [utf16_decode_high_short le b0 b1 [] hh (by simp)]
          exact placeholder_no_nul
        · rw [utf16_decode_high_short le b0 b1 [x] hh (by simp)]
          exact placeholder_no_nul
        · by_cases hl : 0xDC00 ≤ unit16 le b2 b3 ∧ unit16 le b2 b3 ≤ 0xDFFF
          · rw [utf16_decode_high_pair le b0 b1 b2 b3 rest2 hh hl]
            intro c hc
            rcases List.mem_append.1 hc with hc | hc
            · exact unichar_no_nul _ (by omega) c hc
            · exact ih rest2.length (by simp at hlen; omega) rest2 (Nat.le_refl _)
                (fun u hm => hur u (by simp [code_units, hm])) c hc
          · rw [utf16_decode_high_unpaired le b0 b1 b2 b3 rest2 hh hl]
            intro c hc
            rcases List.mem_append.1 hc with hc | hc
            · exact placeholder_no_nul c hc
            · exact hrest c hc
      · rw [utf16_decode_not_high le b0 b1 rest hh]
        intro c hc
        rcases List.mem_append.1 hc with hc | hc
        · by_cases hl : 0xDC00 ≤ unit16 le b0 b1 ∧ unit16 le b0 b1 ≤ 0xDFFF
          · rw [if_pos hl] at hc
            exact placeholder_no_nul c hc
          · rw [if_neg hl] at hc
            exact unichar_no_nul _ hu0 c hc
        · exact hrest c hc

theorem walk_marks_space (c : Nat) (rest : List Nat) (hs : isspace c = true) :
    walk_marks (c :: rest) = walk_marks rest := by
  conv_lhs => unfold walk_marks
  simp [hs]

theorem walk_marks_single (c : Nat) (hs : ¬ isspace c = true) :
    walk_marks [c] = [(c, false)] := by
  rw [walk_marks, if_neg hs]

theorem walk_marks_pair (c d : Nat) (rest2 : List Nat) (hs : ¬ isspace c = true) :
    walk_marks (c :: d :: rest2)
      = (if isxdigit c ∧ isxdigit d then [(c, true), (d, true)] else [(c, false), (d, false)])
        ++ walk_marks rest2 := by
  rw [walk_marks, if_neg hs]

theorem recovery_walk_space (c : Nat) (rest : List Nat) (hs : isspace c = true) :
    recovery_walk (c :: rest) = recovery_walk rest := by
  conv_lhs => unfold recovery_walk
  simp [hs]

theorem recovery_walk_pair (c d : Nat) (rest2 : List Nat) (hs : ¬ isspace c = true) :
    recovery_walk (c :: d :: rest2)
      = (if isxdigit c ∧ isxdigit d then [c, d] else PLACEHOLDER ++ PLACEHOLDER)
        ++ recovery_walk rest2 := by
  rw [recovery_walk, if_neg hs]

theorem render_marks_append (a b : List (Nat × Bool)) :
    render_marks (a ++ b) = render_marks a ++ render_marks b := by
  simp [render_marks]

/-- The recovery walk renders its marks: each character that it reads is
passed on when kept and gives one placeholder when replaced. -/
theorem render_walk_marks (l : List Nat) : render_marks (walk_marks l) = recovery_walk l := by
  induction l using recovery_walk.induct with
  | case1 => rfl
  | case2 c rest hs ih => rw [walk_marks_space c rest hs, recovery_walk_space c rest hs, ih]
  | case3 c hs =>
    rw [walk_marks_single c hs, recovery_walk, if_neg hs]
    rfl
  | case4 c hs d rest2 ih =>
    rw [walk_marks_pair c d rest2 hs, recovery_walk_pair c d rest2 hs, render_marks_append, ih]
    by_cases hxd : isxdigit c = true ∧ isxdigit d = true
    · rw [if_pos hxd, if_pos hxd]
      rfl
    · rw [if_neg hxd, if_neg hxd]
      rfl

theorem walk_marks_fst_pair (c d : Nat) (rest2 : List Nat) (hs : ¬ isspace c = true) :
    (walk_marks (c :: d :: rest2)).map Prod.fst = c :: d :: (walk_marks rest2).map Prod.fst := by
  rw [walk_marks_pair c d rest2 hs, List.map_append]
  by_cases hxd : isxdigit c = true ∧ isxdigit d = true
  · rw [if_pos hxd]
    rfl
  · rw [if_neg hxd]
    rfl

/-- The marked characters are the characters of the text, in order, but for
whitespace passed over. -/
theorem walk_marks_sublist (l : List Nat) : ((walk_marks l).map Prod.fst).Sublist l := by
  induction l using recovery_walk.induct with
  | case1 => exact List.Sublist.refl _
  | case2 c rest hs ih =>
    rw [walk_marks_space c rest hs]
    exact List.Sublist.cons c ih
  | case3 c hs =>
    rw [walk_marks_single c hs]
    exact List.Sublist.refl _
  | case4 c hs d rest2 ih =>
    rw [walk_marks_fst_pair c d rest2 hs]
    exact List.Sublist.cons₂ c (List.Sublist.cons₂ d ih)

/-- Every character of the text that is not whitespace has a mark. -/
theorem walk_marks_filter (l : List Nat) :
    ((walk_marks l).map Prod.fst).filter (fun c => !isspace c)
      = l.filter (fun c => !isspace c) := by
  induction l using recovery_walk.induct with
  | case1 => rfl
  | case2 c rest hs ih =>
    rw [walk_marks_space c rest hs, ih, List.filter_cons]
    simp [hs]
  | case3 c hs =>
    rw [walk_marks_single c hs]
    rfl
  | case4 c hs d rest2 ih =>
    rw [walk_marks_fst_pair c d rest2 hs]
    simp only [List.filter_cons, ih]

theorem walk_marks_kept (l : List Nat) :
    ∀ g ∈ walk_marks l, g.2 = true → isxdigit g.1 = true := by
  induction l using recovery_walk.induct with
  | case1 =>
    intro g hg
    simp [walk_marks] at hg
  | case2 c rest hs ih =>
    rw [walk_marks_space c rest hs]
    exact ih
  | case3 c hs =>
    rw [walk_marks_single c hs]
    intro g hg hk
    rw [List.mem_singleton] at hg
    subst hg
    cases hk
  | case4 c hs d rest2 ih =>
    rw [walk_marks_pair c d rest2 hs]
    intro g hg hk
    rcases List.mem_append.1 hg with hg | hg
    · by_cases hxd : isxdigit c = true ∧ isxdigit d = true
      · rw [if_pos hxd] at hg
        simp only [List.mem_cons, List.mem_singleton, List.not_mem_nil, or_false] at hg
        rcases hg with rfl | rfl
        · exact hxd.1
        · exact hxd.2
      · rw [if_neg hxd] at hg
        simp only [List.mem_cons, List.mem_singleton, List.not_mem_nil, or_false] at hg
        rcases hg with rfl | rfl <;> cases hk
    · exact ih g hg hk

theorem walk_marks_paired (l : List Nat) :
    paired_marks ((walk_marks l).map Prod.snd) = true := by
  induction l using recovery_walk.induct with
  | case1 => rfl
  | case2 c rest hs ih =>
    rw [walk_marks_space c rest hs]
    exact ih
  | case3 c hs =>
    rw [walk_marks_single c hs]
    rfl
  | case4 c hs d rest2 ih =>
    rw [walk_marks_pair c d rest2 hs, List.map_append]
    by_cases hxd : isxdigit c = true ∧ isxdigit d = true
    · rw [if_pos hxd]
      simp [paired_marks, ih]
    · rw [if_neg hxd]
      simp [paired_marks, ih]

theorem placeholder_count_append (a b : List Nat) :
    placeholder_count (a ++ b) = placeholder_count a + placeholder_count b := by
  simp [placeholder_count]

/-- The recovery walk writes at least as many placeholders as the text has
characters that are neither whitespace nor hex digits. -/
theorem recovery_walk_covers (l : List Nat) :
    (l.filter (fun c => !isspace c && !isxdigit c)).length
      ≤ placeholder_count (recovery_walk l) := by
  induction l using recovery_walk.induct with
  | case1 => simp
  | case2 c rest hs ih =>
    rw [recovery_walk_space c rest hs, List.filter_cons]
    simpa [hs] using ih
  | case3 c hs =>
    rw [recovery_walk, if_neg hs]
    have h1 : placeholder_count PLACEHOLDER = 1 := by decide
    rw [h1]
    exact (List.length_filter_le _ _).trans (by simp)
  | case4 c hs d rest2 ih =>
    rw [recovery_walk_pair c d rest2 hs, placeholder_count_append]
    by_cases hxd : isxdigit c = true ∧ isxdigit d = true
    · rw [if_pos hxd]
      have h3 : ((c :: d :: rest2).filter (fun c => !isspace c && !isxdigit c)).length
          = (rest2.filter (fun c => !isspace c && !isxdigit c)).length := by
        simp [List.filter_cons, hxd.1, hxd.2]
      omega
    · rw [if_neg hxd]
      have h2 : placeholder_count (PLACEHOLDER ++ PLACEHOLDER) = 2 := by decide
      rw [h2]
      have h3 : ((c :: d :: rest2).filter (fun c => !isspace c && !isxdigit c)).length
          ≤ 2 + (rest2.filter (fun c => !isspace c && !isxdigit c)).length := by
        rw [List.filter_cons, List.filter_cons]
        split_ifs <;> (try simp only [List.length_cons]) <;> omega
      omega

/-! ## The claims on odd buffers, bad input, round trips and byte order -/

/-- C26, counterexample: the little-endian buffer `00 00 41` has odd
length; the walk writes a NUL byte for the unit `0x0000` and then the
placeholder of the trailing byte, so the text that `binary_to_text` returns,
the bytes before the first NUL byte, is empty and ends in no placeholder.
The hex text `"00 00 41"` converted to `UTF16LE` gives the empty output. -/
theorem utf16_odd_length_nul_unit :
    [0x00, 0x00, 0x41].length % 2 = 1 ∧
    binary_to_text [0x00, 0x00, 0x41] UTF16LE = some (0x00 :: PLACEHOLDER) ∧
    (binary_to_text [0x00, 0x00, 0x41] UTF16LE).map cstr = some [] ∧
    convert_between_formats (ascii "00 00 41") HEX UTF16LE = (some [], 0) := by
  decide

/-- C26, amended: for every byte buffer of odd length none of whose complete
16-bit code units is `0x0000`, the text that the UTF-16LE and UTF-16BE decode
returns (the bytes of its buffer before the first NUL byte) ends with a
placeholder, and the trailing byte contributes nothing else: the text is the
text of the buffer without its last byte followed by one placeholder, or that
text itself when it already ends with the placeholder of a high surrogate cut
by the end, and it does not depend on the value of the trailing byte.  For
every odd buffer the bytes written by the walk end with a placeholder. -/
theorem utf16_odd_length :
    (∀ (le : Bool) (b : List Nat), b.length % 2 = 1 →
      (∀ u ∈ code_units le b, u ≠ 0) →
      ∃ t, (binary_to_text b (utf16_encoding le)).map cstr = some (t ++ PLACEHOLDER)) ∧
    (∀ (le : Bool) (pre : List Nat) (x : Nat), pre.length % 2 = 0 →
      (∀ u ∈ code_units le pre, u ≠ 0) →
      ∃ tpre tall, (binary_to_text pre (utf16_encoding le)).map cstr = some tpre ∧
        (binary_to_text (pre ++ [x]) (utf16_encoding le)).map cstr = some tall ∧
        (tall = tpre ++ PLACEHOLDER ∨ (tall = tpre ∧ ∃ t, tpre = t ++ PLACEHOLDER)) ∧
        ∀ y, (binary_to_text (pre ++ [y]) (utf16_encoding le)).map cstr = some tall) ∧
    (∀ (le : Bool) (b : List Nat), b.length % 2 = 1 →
      ∃ t, binary_to_text b (utf16_encoding le) = some (t ++ PLACEHOLDER)) ∧
    (binary_to_text [0x41, 0x00, 0x42] UTF16LE).map cstr = some (ascii "A" ++ PLACEHOLDER) ∧
    (binary_to_text [0x00, 0x41, 0x42] UTF16BE).map cstr
      = some (ascii "A" ++ PLACEHOLDER) := by
  have hraw : ∀ (le : Bool) (pre : List Nat) (x : Nat), pre.length % 2 = 0 →
      (utf16_decode le (pre ++ [x]) = utf16_decode le pre ++ PLACEHOLDER ∨
        (utf16_decode le (pre ++ [x]) = utf16_decode le pre ∧
          ∃ t, utf16_decode le pre = t ++ PLACEHOLDER)) ∧
      ∀ y, utf16_decode le (pre ++ [y]) = utf16_decode le (pre ++ [x]) := by
    intro le pre x hp
    have hx := utf16_decode_odd le (pre.length / 2) pre x (by omega)
    refine ⟨?_, ?_⟩
    · by_cases hc : cut_pair_tail le (pre ++ [x]) = true
      · right
        refine ⟨?_, hx.2 hc⟩
        rw [hx.1, if_pos hc, List.append_nil]
      · left
        rw [hx.1, if_neg hc]
    · intro y
      have hy := utf16_decode_odd le (pre.length / 2) pre y (by omega)
      rw [hy.1, hx.1, cut_pair_tail_last le pre y x]
  have hpre : ∀ (le : Bool) (pre : List Nat) (x : Nat), pre.length % 2 = 0 →
      (∀ u ∈ code_units le pre, u ≠ 0) →
      ∃ tpre tall, (binary_to_text pre (utf16_encoding le)).map cstr = some tpre ∧
        (binary_to_text (pre ++ [x]) (utf16_encoding le)).map cstr = some tall ∧
        (tall = tpre ++ PLACEHOLDER ∨ (tall = tpre ∧ ∃ t, tpre = t ++ PLACEHOLDER)) ∧
        ∀ y, (binary_to_text (pre ++ [y]) (utf16_encoding le)).map cstr = some tall := by
    intro le pre x hp hu
    have hz1 : cstr (utf16_decode le pre) = utf16_decode le pre :=
      cstr_of_no_nul _ (utf16_decode_no_nul le pre.length pre (Nat.le_refl _) hu)
    have hz2 : ∀ y, cstr (utf16_decode le (pre ++ [y])) = utf16_decode le (pre ++ [y]) := by
      intro y
      apply cstr_of_no_nul
      apply utf16_decode_no_nul le (pre ++ [y]).length (pre ++ [y]) (Nat.le_refl _)
      rw [code_units_append_one le (pre.length / 2) pre y (by omega)]
      exact hu
    refine ⟨utf16_decode le pre, utf16_decode le (pre ++ [x]), ?_, ?_, (hraw le pre x hp).1, ?_⟩
    · rw [binary_to_text_utf16, Option.map_some', hz1]
    · rw [binary_to_text_utf16, Option.map_some', hz2]
    · intro y
      rw [binary_to_text_utf16, Option.map_some', hz2, (hraw le pre x hp).2 y]
  refine ⟨?_, hpre, ?_, by decide, by decide⟩
  · intro le b hb hu
    have hne : b ≠ [] := by
      intro hc; rw [hc] at hb; simp at hb
    have hlen : b.dropLast.length % 2 = 0 := by
      rw [List.length_dropLast]; omega
    have hsplit := List.dropLast_append_getLast hne
    have hu2 : ∀ u ∈ code_units le b.dropLast, u ≠ 0 := by
      rw [← code_units_append_one le (b.dropLast.length / 2) b.dropLast (b.getLast hne)
        (by omega), hsplit]
      exact hu
    obtain ⟨tpre, tall, _, h2, h3, _⟩ := hpre le b.dropLast (b.getLast hne) hlen hu2
    rw [hsplit] at h2
    rcases h3 with h3 | ⟨h3, t, ht⟩
    · exact ⟨tpre, by rw [h2, h3]⟩
    · exact ⟨t, by rw [h2, h3, ht]⟩
  · intro le b hb
    have hne : b ≠ [] := by
      intro hc; rw [hc] at hb; simp at hb
    have hlen : b.dropLast.length % 2 = 0 := by
      rw [List.length_dropLast]; omega
    have h := (hraw le b.dropLast (b.getLast hne) hlen).1
    rw [List.dropLast_append_getLast hne] at h
    rw [binary_to_text_utf16]
    rcases h with h | ⟨h, t, ht⟩
    · exact ⟨_, by rw [h]⟩
    · exact ⟨t, by rw [h, ht]⟩

/-- Witness of `utf16_odd_length` at the big-endian buffer of a high
surrogate and one more byte. -/
theorem utf16_odd_length_witness :
    ∃ t, (binary_to_text [0xD8, 0x3D, 0xDE] (utf16_encoding false)).map cstr
      = some (t ++ PLACEHOLDER) :=
  utf16_odd_length.1 false [0xD8, 0x3D, 0xDE] (by decide) (by decide)

/-- C27: for every hex input with a character that is neither whitespace nor
a hex digit, or with an odd number of hex digits, the output of
`convert_between_formats` holds at least one placeholder and is not empty;
every byte of it is a hex digit or a byte of a placeholder; it has at least
as many placeholders as the input has characters that are neither whitespace
nor hex digits; and it is the input read character by character, in order,
where only whitespace is left out, every other character is either kept or
replaced by one placeholder at its place, only hex digits are kept, and a
digit is kept only together with its pair partner: every offending character
and every digit without partner has its own placeholder.  For every non-empty
text input whose decode stage fails the output is the diagnostic string,
which is not empty. -/
theorem convert_bad_input_not_blank :
    (∀ (input : List Nat) (to_type : EncodingType),
      ((∃ c ∈ input, isspace c = false ∧ isxdigit c = false) ∨
        (input.filter isxdigit).length % 2 = 1) →
      ∃ out, convert_between_formats input HEX to_type = (some out, out.length) ∧
        (∃ s t, out = s ++ PLACEHOLDER ++ t) ∧ out ≠ [] ∧
        (∀ x ∈ out, isxdigit x = true ∨ x ∈ PLACEHOLDER) ∧
        (input.filter (fun c => !isspace c && !isxdigit c)).length ≤ placeholder_count out ∧
        ∃ marks : List (Nat × Bool), out = render_marks marks ∧
          (marks.map Prod.fst).Sublist input ∧
          (marks.map Prod.fst).filter (fun c => !isspace c)
            = input.filter (fun c => !isspace c) ∧
          (∀ g ∈ marks, g.2 = true → isxdigit g.1 = true) ∧
          paired_marks (marks.map Prod.snd) = true) ∧
    (∀ (input : List Nat) (from_type to_type : EncodingType), input ≠ [] →
      from_type ≠ HEX → (text_to_binary input from_type).1 = none →
      convert_between_formats input from_type to_type
          = (some (ascii "[Conversion error - invalid input format]"), 41) ∧
        ascii "[Conversion error - invalid input format]" ≠ []) := by
  refine ⟨?_, ?_⟩
  · intro input to_type h
    have hne : input ≠ [] := by
      intro hc
      subst hc
      rcases h with ⟨c, hc, _⟩ | h
      · cases hc
      · simp at h
    have hfail : (hex_to_binary input).1 = none := by rw [hex_to_binary_bad input h]
    obtain ⟨s, t, hst⟩ := recovery_walk_has_placeholder input h
    refine ⟨_, convert_hex_null input to_type hne hfail, ⟨s, t, hst⟩, ?_,
      recovery_walk_bytes input, recovery_walk_covers input,
      walk_marks input, (render_walk_marks input).symm, walk_marks_sublist input,
      walk_marks_filter input, walk_marks_kept input, walk_marks_paired input⟩
    rw [hst]
    simp [PLACEHOLDER]
  · intro input from_type to_type hne hf hfail
    exact ⟨convert_text_null input from_type to_type hne hf hfail, by decide⟩

/-- Witness of `convert_bad_input_not_blank` at the hex text `"1 23 "`, three
hex digits, with target `UTF8`: the output is `"⍰⍰23"`. -/
theorem convert_bad_input_not_blank_witness :
    ∃ out, convert_between_formats (ascii "1 23 ") HEX UTF8 = (some out, out.length) ∧
      (∃ s t, out = s ++ PLACEHOLDER ++ t) ∧ out ≠ [] ∧
      (∀ x ∈ out, isxdigit x = true ∨ x ∈ PLACEHOLDER) ∧
      ((ascii "1 23 ").filter (fun c => !isspace c && !isxdigit c)).length
        ≤ placeholder_count out ∧
      ∃ marks : List (Nat × Bool), out = render_marks marks ∧
        (marks.map Prod.fst).Sublist (ascii "1 23 ") ∧
        (marks.map Prod.fst).filter (fun c => !isspace c)
          = (ascii "1 23 ").filter (fun c => !isspace c) ∧
        (∀ g ∈ marks, g.2 = true → isxdigit g.1 = true) ∧
        paired_marks (marks.map Prod.snd) = true :=
  convert_bad_input_not_blank.1 (ascii "1 23 ") UTF8 (Or.inr (by decide))

/-- C28: for every non-empty text `t` whose bytes all lie in `32..126`,
`convert_between_formats (t, ASCII, HEX)` returns a hex string `h` of length
`3 * |t| - 1`, and `convert_between_formats (h, HEX, ASCII)` returns exactly
`t` with output length `|t|`. -/
theorem ascii_hex_round_trip (t : List Nat) (hne : t ≠ [])
    (hp : ∀ c ∈ t, 32 ≤ c ∧ c ≤ 126) :
    ∃ h, convert_between_formats t ASCII HEX = (some h, 3 * t.length - 1) ∧
      h.length = 3 * t.length - 1 ∧
      convert_between_formats h HEX ASCII = (some t, t.length) := by
  have hb : IsBytes t := fun c hc => by have := hp c hc; omega
  have hlen : t.length ≠ 0 := by simpa using hne
  refine ⟨binary_to_hex t, ?_, ?_, ?_⟩
  · rw [convert_text_some t ASCII HEX t hne (by decide)
      (by simp [text_to_binary, g_malloc_buffer, hlen]), convert_step2_hex t hb,
      binary_to_hex_eq, hex_form_length t hne]
  · rw [binary_to_hex_eq, hex_form_length t hne]
  · rw [binary_to_hex_eq,
      convert_hex_some (hex_form t) ASCII t (hex_form_ne_nil t hne)
        (by rw [hex_to_binary_hex_form t hb]; simp [g_malloc_buffer, hlen])]
    exact convert_step2_ascii_printable t hp

/-- Witness of `ascii_hex_round_trip` at the text `"Hi ~"`. -/
theorem ascii_hex_round_trip_witness :
    ∃ h, convert_between_formats (ascii "Hi ~") ASCII HEX = (some h, 3 * 4 - 1) ∧
      h.length = 3 * 4 - 1 ∧
      convert_between_formats h HEX ASCII = (some (ascii "Hi ~"), 4) :=
  ascii_hex_round_trip (ascii "Hi ~") (by decide) (by decide)

/-- C29: for every input `h` that hex-decodes successfully to a buffer `b`
(of at least one byte), `n = convert_between_formats (h, HEX, HEX)` is
`binary_to_hex (b)`, the rendering `"XX XX ... XX"` of the same bytes of
`3 * |b| - 1` characters, it decodes to `b` again, and
`convert_between_formats (n, HEX, HEX) = n`. -/
theorem hex_to_hex_idempotent (h b : List Nat) (hb : (hex_to_binary h).1 = some b) :
    1 ≤ b.length ∧
    convert_between_formats h HEX HEX = (some (binary_to_hex b), 3 * b.length - 1) ∧
    binary_to_hex b = hex_form b ∧
    (hex_to_binary (binary_to_hex b)).1 = some b ∧
    convert_between_formats (binary_to_hex b) HEX HEX
      = (some (binary_to_hex b), 3 * b.length - 1) := by
  obtain ⟨hbne, hne⟩ := hex_to_binary_some_ne_nil h b hb
  have hbytes := hex_to_binary_bytes h b hb
  have hlen : b.length ≠ 0 := by simpa using hbne
  have hrt : (hex_to_binary (hex_form b)).1 = some b := by
    rw [hex_to_binary_hex_form b hbytes]; simp [g_malloc_buffer, hlen]
  have hstep : convert_step2 b HEX = (some (binary_to_hex b), 3 * b.length - 1) := by
    rw [convert_step2_hex b hbytes, binary_to_hex_eq, hex_form_length b hbne]
  refine ⟨by omega, ?_, binary_to_hex_eq b, ?_, ?_⟩
  · rw [convert_hex_some h HEX b hne hb, hstep]
  · rw [binary_to_hex_eq]; exact hrt
  · rw [binary_to_hex_eq, convert_hex_some (hex_form b) HEX b (hex_form_ne_nil b hbne) hrt,
      ← binary_to_hex_eq, hstep]

/-- Witness of `hex_to_hex_idempotent` at the text `"4a\t6b"`, normalised to
`"4A 6B"`. -/
theorem hex_to_hex_idempotent_witness :
    convert_between_formats (ascii "4a\t6b") HEX HEX = (some (ascii "4A 6B"), 5) ∧
    convert_between_formats (ascii "4A 6B") HEX HEX = (some (ascii "4A 6B"), 5) :=
  ⟨(hex_to_hex_idempotent (ascii "4a\t6b") [0x4A, 0x6B] (by decide)).2.1,
    (hex_to_hex_idempotent (ascii "4a\t6b") [0x4A, 0x6B] (by decide)).2.2.2.2⟩

/-- C30: for every byte buffer `b`, of any length, `binary_to_text` with
`UTF16BE` on `b` equals `binary_to_text` with `UTF16LE` on `b` with the two
bytes of each complete unit exchanged and a trailing odd byte left in
place. -/
theorem utf16_be_is_le_swapped :
    (∀ b : List Nat, binary_to_text b UTF16BE = binary_to_text (swap_units b) UTF16LE) ∧
    swap_units [0xD8, 0x3D, 0xDE, 0x00, 0x41] = [0x3D, 0xD8, 0x00, 0xDE, 0x41] ∧
    binary_to_text [0xD8, 0x3D, 0xDE, 0x00, 0x41] UTF16BE
      = some (unichar_to_utf8 0x1F600 ++ PLACEHOLDER) := by
  refine ⟨?_, by decide, by decide⟩
  intro b
  have h1 := binary_to_text_utf16 false b
  have h2 := binary_to_text_utf16 true (swap_units b)
  simp only [utf16_encoding, Bool.false_eq_true, if_false, if_true] at h1 h2
  rw [h1, h2, utf16_decode_swap b.length b rfl]

end Hex2Text
